import Mathlib

/-!
Verification of the MicroProlly versioned key-value store (Go) against its
natural-language specification.  The Go sources are shallowly embedded:
byte strings become lists of naturals, and the rolling hash, chunker, node
codec, tree builder, traverser, diff engine and store facade become pure
Lean functions, with explicit state passing for the content-addressed
store and a fuel parameter wherever the Go code recurses through the CAS.
The SHA-256 digest is a parameter of the development: theorems assume it
is injective and produces 32-entry outputs, and witnesses instantiate it
with a concrete injective encoder.

The file is organized with all definitions first, then all theorems.
-/

set_option maxHeartbeats 4000000
set_option maxRecDepth 8000

namespace Microprolly

/-! # Definitions -/

/-- Byte strings (keys, values, serialized data) as lists of naturals.  A Go
byte always lies below 256; the model leaves entries unbounded, which only
widens the quantification. -/
abbrev Bytes := List Nat

/-- Lexicographic three-way comparison of byte strings, embedding
bytes.Compare. -/
def bytesCompare : Bytes → Bytes → Ordering
  | [], [] => .eq
  | [], _ :: _ => .lt
  | _ :: _, [] => .gt
  | a :: as, b :: bs =>
      if a < b then .lt else if b < a then .gt else bytesCompare as bs

/-- Keys compare strictly below one another: the strict lexicographic order. -/
def keyLt (a b : Bytes) : Prop := bytesCompare a b = .lt

instance (a b : Bytes) : Decidable (keyLt a b) :=
  inferInstanceAs (Decidable (bytesCompare a b = .lt))

/-- A key/value pair of byte strings, after types.KVPair. -/
structure KVPair where
  key : Bytes
  value : Bytes
deriving DecidableEq, Repr

/-- Big-endian 4-byte encoding of a 32-bit value; the Go sources convert
lengths with uint32(len), which the explicit mod mirrors. -/
def u32be (n : Nat) : Bytes :=
  let m := n % 2 ^ 32
  [m / 2 ^ 24 % 256, m / 2 ^ 16 % 256, m / 2 ^ 8 % 256, m % 256]

/-- Canonical serialization of a single pair: length-prefixed key then
length-prefixed value, after SerializeKVPair in pkg/chunker. -/
def serializeKVPair (p : KVPair) : Bytes :=
  u32be p.key.length ++ p.key ++ u32be p.value.length ++ p.value

/-! ## The Buzhash rolling hasher (pkg/chunker/buzhash.go) -/

/-- The initialized entries of the 256-entry buzhash permutation table; the
Go array literal lists exactly these 64 values. -/
def buzhashTableInit : List Nat :=
  [0x458be752, 0xc10748cc, 0xfbbcdbb8, 0x6ded5b68,
   0xb10a82b5, 0x20d75648, 0xdfc5665f, 0xa8428801,
   0x7ebf5191, 0x841135c7, 0x65cc53b3, 0x280a597c,
   0x16f60255, 0xc78cbc3e, 0x294415f5, 0xb938d494,
   0xec85c4e6, 0xb7d33edc, 0xe549b544, 0xfdeda5aa,
   0x882bf287, 0x3116571e, 0xa6fc8d2d, 0x1b5f3f3c,
   0x2e7d4e29, 0x49e95d76, 0x540d0a26, 0xf87b1a02,
   0x84b4a028, 0xd7f89c1e, 0xf309cbe0, 0x600a2f4f,
   0x5f33e848, 0xb149a5d5, 0x1e39e8bd, 0x2a1fc67a,
   0x934d46e4, 0x8f902f30, 0xfc4b0223, 0xfb6d4314,
   0x5f6b9b30, 0x6f2d9c6c, 0x58597e40, 0x3cbbb848,
   0x7c3b5360, 0x3f0ab26c, 0x9ea521c8, 0x1c1b0d14,
   0x3e9de0c0, 0x289d8f1c, 0x0c01f56c, 0x61bd8e3c,
   0xd6e2e980, 0x9c098894, 0x9e0e2534, 0x049dc09c,
   0x64a0dc24, 0xb07c0440, 0x8e5b0a50, 0xf05c1e10,
   0x4c449e3c, 0x5c8c6c30, 0x88507800, 0x08b09a40]

/-- The full 256-entry table: Go's array literal zero-fills the remaining
192 entries. -/
def buzhashTable : List Nat := buzhashTableInit ++ List.replicate 192 0

/-- Table lookup.  A Go byte index always lies below 256; the guard keeps
the model total and fast on out-of-range model bytes. -/
def tableAt (b : Nat) : Nat := if b < 256 then buzhashTable.getD b 0 else 0

/-- The Go window size constant. -/
def DefaultWindowSize : Nat := 64

/-- 32-bit left rotation, after rotateLeft in buzhash.go. -/
def rotl32 (val n : Nat) : Nat :=
  let m := n % 32
  ((val <<< m) % 2 ^ 32) ||| (val >>> (32 - m))

/-- The rolling hasher state, after the Buzhash struct. -/
structure Buzhash where
  targetSize : Nat
  minSize : Nat
  maxSize : Nat
  hash : Nat
  window : List Nat
  pos : Nat
  count : Nat
  boundaryHit : Bool
deriving DecidableEq, Repr

/-- NewBuzhash: zero hash, zero-filled 64-byte window. -/
def newBuzhash (targetSize minSize maxSize : Nat) : Buzhash :=
  { targetSize := targetSize, minSize := minSize, maxSize := maxSize,
    hash := 0, window := List.replicate DefaultWindowSize 0,
    pos := 0, count := 0, boundaryHit := false }

/-- Reset: clear hash, position, count and flag, zero the window in place. -/
def Buzhash.reset (b : Buzhash) : Buzhash :=
  { b with hash := 0, pos := 0, count := 0, boundaryHit := false,
           window := List.replicate b.window.length 0 }

/-- Roll: admit one byte, eject the byte leaving the window, update the
hash by the rolling rule and record a boundary hit once the count has
reached the minimum size. -/
def Buzhash.roll (b : Buzhash) (newByte : Nat) : Buzhash :=
  let windowSize := b.window.length
  let outByte := b.window.getD b.pos 0
  let window := b.window.set b.pos newByte
  let pos := (b.pos + 1) % windowSize
  let hash := rotl32 b.hash 1 ^^^ rotl32 (tableAt outByte) windowSize ^^^ tableAt newByte
  let count := b.count + 1
  let boundaryHit :=
    if b.minSize ≤ count ∧ hash % b.targetSize = 0 then true else b.boundaryHit
  { b with hash := hash, window := window, pos := pos, count := count,
           boundaryHit := boundaryHit }

/-- IsBoundary: below the minimum size never a boundary, at or above the
maximum size always one, otherwise whatever the sticky flag recorded. -/
def Buzhash.isBoundary (b : Buzhash) : Bool :=
  if b.count < b.minSize then false
  else if b.maxSize ≤ b.count then true
  else b.boundaryHit

/-- Feed a whole byte string through Roll. -/
def Buzhash.rollAll (b : Buzhash) (bs : Bytes) : Buzhash :=
  bs.foldl Buzhash.roll b

/-- The circular window read in ejection order (oldest byte first). -/
def Buzhash.queue (b : Buzhash) : List Nat :=
  b.window.drop b.pos ++ b.window.take b.pos

/-- Functional view of the hasher used in proofs: the hash together with
the window as a queue, oldest byte at the head. -/
structure QState where
  hash : Nat
  window : List Nat
deriving DecidableEq, Repr

/-- One roll in the queue view. -/
def qroll (s : QState) (x : Nat) : QState :=
  { hash := rotl32 s.hash 1 ^^^ rotl32 (tableAt (s.window.headD 0)) s.window.length
            ^^^ tableAt x,
    window := s.window.tail ++ [x] }

/-- Feed a byte string in the queue view. -/
def qfeed (s : QState) (bs : Bytes) : QState := bs.foldl qroll s

/-! ## The chunker (pkg/chunker/chunker.go) -/

/-- Chunker parameters, after the BuzhashChunker struct. -/
structure BuzhashChunker where
  targetSize : Nat
  minSize : Nat
  maxSize : Nat
deriving DecidableEq, Repr

/-- DefaultChunker: target 4096, min 512, max 16384 bytes. -/
def defaultChunker : BuzhashChunker :=
  { targetSize := 4096, minSize := 512, maxSize := 16384 }

/-- The chunking loop: feed each pair's serialization through the shared
hasher, append the pair to the current chunk, and close the chunk when the
hasher reports a boundary, resetting the hasher. -/
def chunkLoop (hasher : Buzhash) (currentChunk : List KVPair) :
    List KVPair → List (List KVPair)
  | [] => if currentChunk.isEmpty then [] else [currentChunk]
  | p :: rest =>
      let hasher' := hasher.rollAll (serializeKVPair p)
      let chunk' := currentChunk ++ [p]
      if hasher'.isBoundary then chunk' :: chunkLoop hasher'.reset [] rest
      else chunkLoop hasher' chunk' rest

/-- Chunk: split sorted pairs into content-defined chunks, after
BuzhashChunker.Chunk. -/
def BuzhashChunker.chunk (c : BuzhashChunker) (pairs : List KVPair) :
    List (List KVPair) :=
  if pairs.isEmpty then []
  else chunkLoop (newBuzhash c.targetSize c.minSize c.maxSize) [] pairs

/-! ## Tree nodes and the node codec (pkg/tree/serialize.go) -/

/-- A reference to a child node: minimum key of the subtree and the child's
digest, after types.ChildRef.  The digest is a 32-entry byte string. -/
structure ChildRef where
  key : Bytes
  hash : Bytes
deriving DecidableEq, Repr

/-- A tree node: leaf with pairs or internal with child references, after
types.LeafNode and types.InternalNode. -/
inductive Node where
  | leaf (pairs : List KVPair)
  | internal (children : List ChildRef)
deriving DecidableEq, Repr

/-- Serialize a leaf node: tag 0x01, 4-byte pair count, then each pair in
the length-prefixed layout, after SerializeLeafNode. -/
def serializeLeafNode (pairs : List KVPair) : Bytes :=
  1 :: (u32be pairs.length ++ (pairs.map serializeKVPair).flatten)

/-- One internal entry: 4-byte key length, key, then the 32-byte digest. -/
def serializeChildRef (r : ChildRef) : Bytes :=
  u32be r.key.length ++ r.key ++ r.hash

/-- Serialize an internal node: tag 0x02, 4-byte child count, then each
child entry, after SerializeInternalNode. -/
def serializeInternalNode (children : List ChildRef) : Bytes :=
  2 :: (u32be children.length ++ (children.map serializeChildRef).flatten)

/-- Serialize either node kind through the shared tag dispatch. -/
def serializeNode : Node → Bytes
  | .leaf ps => serializeLeafNode ps
  | .internal rs => serializeInternalNode rs

/-- Read a big-endian 4-byte value, failing when fewer than 4 bytes remain,
after the pos+4 bounds checks around binary.BigEndian.Uint32. -/
def readU32 : Bytes → Option (Nat × Bytes)
  | a :: b :: c :: d :: rest => some (a * 2 ^ 24 + b * 2 ^ 16 + c * 2 ^ 8 + d, rest)
  | _ => none

/-- Read exactly n bytes, failing when fewer remain, after the pos+n bounds
checks before each copy. -/
def readN (n : Nat) (data : Bytes) : Option (Bytes × Bytes) :=
  if n ≤ data.length then some (data.take n, data.drop n) else none

/-- The pair-reading loop of DeserializeLeafNode: count-many length-prefixed
key/value entries. -/
def readLeafPairs : Nat → Bytes → Option (List KVPair × Bytes)
  | 0, data => some ([], data)
  | n + 1, data => do
      let (klen, d1) ← readU32 data
      let (key, d2) ← readN klen d1
      let (vlen, d3) ← readU32 d2
      let (value, d4) ← readN vlen d3
      let (ps, d5) ← readLeafPairs n d4
      some (⟨key, value⟩ :: ps, d5)

/-- DeserializeLeafNode: check the minimum size and the leaf tag, read the
count and count-many entries, and reject trailing bytes. -/
def deserializeLeafNode (data : Bytes) : Option (List KVPair) :=
  if data.length < 5 then none
  else
    match data with
    | t :: rest =>
        if t = 1 then do
          let (count, d1) ← readU32 rest
          let (ps, d2) ← readLeafPairs count d1
          if d2.isEmpty then some ps else none
        else none
    | [] => none

/-- The child-reading loop of DeserializeInternalNode: count-many entries of
a length-prefixed key followed by a 32-byte digest. -/
def readChildRefs : Nat → Bytes → Option (List ChildRef × Bytes)
  | 0, data => some ([], data)
  | n + 1, data => do
      let (klen, d1) ← readU32 data
      let (key, d2) ← readN klen d1
      let (hash, d3) ← readN 32 d2
      let (rs, d4) ← readChildRefs n d3
      some (⟨key, hash⟩ :: rs, d4)

/-- DeserializeInternalNode: check the minimum size and the internal tag,
read the count and count-many child entries, and reject trailing bytes. -/
def deserializeInternalNode (data : Bytes) : Option (List ChildRef) :=
  if data.length < 5 then none
  else
    match data with
    | t :: rest =>
        if t = 2 then do
          let (count, d1) ← readU32 rest
          let (rs, d2) ← readChildRefs count d1
          if d2.isEmpty then some rs else none
        else none
    | [] => none

/-- DeserializeNode: dispatch on the tag byte, rejecting empty input and
unknown tags. -/
def deserializeNode (data : Bytes) : Option Node :=
  match data with
  | [] => none
  | t :: _ =>
      if t = 1 then (deserializeLeafNode data).map .leaf
      else if t = 2 then (deserializeInternalNode data).map .internal
      else none

/-- A byte string in the strict sense: every entry below 256, as every Go
byte slice is. -/
def isByteString (bs : Bytes) : Prop := ∀ b ∈ bs, b < 256

instance (bs : Bytes) : Decidable (isByteString bs) :=
  inferInstanceAs (Decidable (∀ b ∈ bs, b < 256))

/-- Well-formedness of a pair for the uint32 length fields. -/
def wfPair (p : KVPair) : Prop :=
  p.key.length < 2 ^ 32 ∧ p.value.length < 2 ^ 32

instance (p : KVPair) : Decidable (wfPair p) :=
  inferInstanceAs (Decidable (_ ∧ _))

/-- Well-formedness of a child reference: bounded key length and a 32-byte
digest, as the codec assumes. -/
def wfRef (r : ChildRef) : Prop :=
  r.key.length < 2 ^ 32 ∧ r.hash.length = 32

instance (r : ChildRef) : Decidable (wfRef r) :=
  inferInstanceAs (Decidable (_ ∧ _))

/-- Well-formedness of a node: bounded counts and fields. -/
def wfNode : Node → Prop
  | .leaf ps => ps.length < 2 ^ 32 ∧ ∀ p ∈ ps, wfPair p
  | .internal rs => rs.length < 2 ^ 32 ∧ ∀ r ∈ rs, wfRef r

instance (n : Node) : Decidable (wfNode n) :=
  match n with
  | .leaf _ => inferInstanceAs (Decidable (_ ∧ _))
  | .internal _ => inferInstanceAs (Decidable (_ ∧ _))

/-! ## Content-addressed store (pkg/cas/cas.go), digest as parameter -/

/-- The CAS modelled as an association list from digest to stored bytes,
most recent first.  The digest function is a parameter of the development;
theorems assume injectivity and 32-byte outputs. -/
abbrev CAS := List (Bytes × Bytes)

/-- Read an object by digest, after FileCAS.Read. -/
def casRead (cas : CAS) (h : Bytes) : Option Bytes :=
  match cas with
  | [] => none
  | (k, v) :: rest => if k = h then some v else casRead rest h

/-- Write: hash the data, skip the write when the digest already exists
(deduplication), otherwise store, after FileCAS.Write. -/
def casWrite (H : Bytes → Bytes) (cas : CAS) (data : Bytes) : Bytes × CAS :=
  let h := H data
  match casRead cas h with
  | some _ => (h, cas)
  | none => (h, (h, data) :: cas)

/-- Every stored entry is keyed by the digest of its contents. -/
def casWF (H : Bytes → Bytes) (cas : CAS) : Prop :=
  ∀ e ∈ cas, e.1 = H e.2

/-! ## Tree builder (pkg/tree/builder.go) -/

/-- First key of a pair chunk; the Go code indexes chunk with 0, and the
chunker never emits an empty chunk. -/
def firstKey (chunk : List KVPair) : Bytes :=
  match chunk with
  | [] => []
  | p :: _ => p.key

/-- First key of a child-reference chunk. -/
def firstRefKey (chunk : List ChildRef) : Bytes :=
  match chunk with
  | [] => []
  | r :: _ => r.key

/-- Serialize a node and write it through the CAS, after
TreeBuilder.storeNode. -/
def storeNode (H : Bytes → Bytes) (cas : CAS) (n : Node) : Bytes × CAS :=
  casWrite H cas (serializeNode n)

/-- Build the leaf layer: one leaf node per chunk, referenced by the chunk's
first key, after TreeBuilder.buildLeafNodes. -/
def buildLeafNodes (H : Bytes → Bytes) (cas : CAS) :
    List (List KVPair) → List ChildRef × CAS
  | [] => ([], cas)
  | chunk :: rest =>
      let out := storeNode H cas (.leaf chunk)
      let next := buildLeafNodes H out.2 rest
      (⟨firstKey chunk, out.1⟩ :: next.1, next.2)

/-- Slice a list by a list of lengths, mirroring the
refs[refIdx : refIdx+len(kvChunk)] slicing in chunkChildRefs. -/
def splitByLens {α : Type} : List α → List Nat → List (List α)
  | _, [] => []
  | refs, n :: rest => refs.take n :: splitByLens (refs.drop n) rest

/-- Chunk child references with the same chunker by viewing each reference
as a pair of its key and digest bytes, after TreeBuilder.chunkChildRefs. -/
def chunkChildRefs (c : BuzhashChunker) (refs : List ChildRef) :
    List (List ChildRef) :=
  if refs.isEmpty then []
  else
    let pairs := refs.map fun r => KVPair.mk r.key r.hash
    let kvChunks := c.chunk pairs
    splitByLens refs (kvChunks.map List.length)

/-- Store one internal node per chunk of references, after the chunk loop
inside TreeBuilder.buildInternalLayers. -/
def buildInternalChunks (H : Bytes → Bytes) (cas : CAS) :
    List (List ChildRef) → List ChildRef × CAS
  | [] => ([], cas)
  | chunk :: rest =>
      let out := storeNode H cas (.internal chunk)
      let next := buildInternalChunks H out.2 rest
      (⟨firstRefKey chunk, out.1⟩ :: next.1, next.2)

/-- Collapse reference layers until a single root remains, after
TreeBuilder.buildInternalLayers.  Fuel models the Go recursion, which does
not terminate when every chunk stays a singleton. -/
def buildInternalLayers (H : Bytes → Bytes) (c : BuzhashChunker) :
    Nat → CAS → List ChildRef → Option (Bytes × CAS)
  | fuel, cas, refs =>
      match refs with
      | [r] => some (r.hash, cas)
      | _ =>
          match fuel with
          | 0 => none
          | fuel + 1 =>
              let chunks := chunkChildRefs c refs
              let built := buildInternalChunks H cas chunks
              buildInternalLayers H c fuel built.2 built.1

/-- Build a Prolly Tree bottom-up from sorted pairs, after
TreeBuilder.Build: empty input becomes the empty leaf; otherwise chunk,
build the leaf layer, then collapse internal layers. -/
def build (H : Bytes → Bytes) (c : BuzhashChunker) (fuel : Nat) (cas : CAS)
    (pairs : List KVPair) : Option (Bytes × CAS) :=
  if pairs.isEmpty then some (storeNode H cas (.leaf []))
  else
    let chunks := c.chunk pairs
    let leaves := buildLeafNodes H cas chunks
    buildInternalLayers H c fuel leaves.2 leaves.1

/-! ## Tree traverser (pkg/tree/traverser.go) -/

/-- Load and decode a node from the CAS, after loadNode. -/
def loadNode (cas : CAS) (h : Bytes) : Option Node :=
  (casRead cas h).bind deserializeNode

mutual

/-- Collect all pairs of a subtree left to right, after
TreeTraverser.collectPairs.  Fuel bounds the depth of CAS recursion. -/
def collectPairs (cas : CAS) : Nat → Node → Option (List KVPair)
  | _, .leaf ps => some ps
  | 0, .internal _ => none
  | fuel + 1, .internal rs => collectChildren cas fuel rs

/-- Walk an internal node's children in order, loading each from the CAS. -/
def collectChildren (cas : CAS) : Nat → List ChildRef → Option (List KVPair)
  | _, [] => some []
  | fuel, r :: rs => do
      let node ← loadNode cas r.hash
      let ps ← collectPairs cas fuel node
      let rest ← collectChildren cas fuel rs
      some (ps ++ rest)

end

/-- GetAll: load the root and collect every pair, after
TreeTraverser.GetAll. -/
def getAll (cas : CAS) (fuel : Nat) (root : Bytes) : Option (List KVPair) :=
  match loadNode cas root with
  | none => none
  | some node => collectPairs cas fuel node

/-- Binary search of a leaf, after TreeTraverser.searchLeaf.  The upper
bound is kept shifted by one so Go's hi = -1 sentinel stays inside Nat:
hi1 here stands for Go's hi + 1. -/
def searchLeafLoop (pairs : List KVPair) (key : Bytes) (lo hi1 : Nat) :
    Option Bytes :=
  if _h : lo < hi1 then
    let mid := (lo + (hi1 - 1)) / 2
    let p := pairs.getD mid ⟨[], []⟩
    match bytesCompare p.key key with
    | .eq => some p.value
    | .lt => searchLeafLoop pairs key (mid + 1) hi1
    | .gt => searchLeafLoop pairs key lo mid
  else none
termination_by hi1 - lo
decreasing_by
  · omega
  · omega

/-- searchLeaf: binary search the whole pair list; none models
ErrKeyNotFound. -/
def searchLeaf (pairs : List KVPair) (key : Bytes) : Option Bytes :=
  searchLeafLoop pairs key 0 pairs.length

/-- Binary search for the rightmost child whose key is at most the target,
after TreeTraverser.findChild, with the same shifted upper bound.  The
running result starts at 0 (the first child). -/
def findChildLoop (children : List ChildRef) (key : Bytes)
    (lo hi1 result : Nat) : Nat :=
  if h : lo < hi1 then
    let mid := (lo + (hi1 - 1)) / 2
    if bytesCompare (children.getD mid ⟨[], []⟩).key key ≠ .gt then
      findChildLoop children key (mid + 1) hi1 mid
    else
      findChildLoop children key lo mid result
  else result
termination_by hi1 - lo
decreasing_by
  · omega
  · omega

/-- findChild: the digest of the selected child. -/
def findChild (children : List ChildRef) (key : Bytes) : Bytes :=
  (children.getD (findChildLoop children key 0 children.length 0) ⟨[], []⟩).hash

/-- Result of a tree Get: the value, ErrKeyNotFound, or any load or decode
failure (a Go panic on an empty internal node is also modelled as a
failure). -/
inductive GetResult where
  | found (v : Bytes)
  | notFound
  | err
deriving DecidableEq, Repr

/-- The descent loop of TreeTraverser.Get: while the node is internal,
find the child for the key and load it; at a leaf, search for the key. -/
def getLoop (cas : CAS) : Nat → Node → Bytes → GetResult
  | _, .leaf ps, key =>
      match searchLeaf ps key with
      | some v => .found v
      | none => .notFound
  | 0, .internal _, _ => .err
  | fuel + 1, .internal rs, key =>
      match loadNode cas (findChild rs key) with
      | none => .err
      | some node => getLoop cas fuel node key

/-- Get: load the root and descend, after TreeTraverser.Get. -/
def traverserGet (cas : CAS) (fuel : Nat) (root : Bytes) (key : Bytes) :
    GetResult :=
  match loadNode cas root with
  | none => .err
  | some node => getLoop cas fuel node key

/-- Association lookup in a pair list: the value of the first pair holding
the key. -/
def lookupKey (ps : List KVPair) (k : Bytes) : Option Bytes :=
  match ps with
  | [] => none
  | p :: rest => if p.key = k then some p.value else lookupKey rest k

/-- Keys strictly ascending: the well-formedness of sorted unique-key pair
sequences. -/
def SortedKeys (ps : List KVPair) : Prop :=
  ps.Chain' fun p q => keyLt p.key q.key

instance (ps : List KVPair) : Decidable (SortedKeys ps) :=
  inferInstanceAs (Decidable (List.Chain' _ ps))

/-- Child reference keys strictly ascending, the internal-node counterpart
of SortedKeys. -/
def SortedRefKeys (rs : List ChildRef) : Prop :=
  rs.Chain' fun a b => keyLt a.key b.key

/-- Bounded lengths for a whole input sequence: the uint32 count and length
fields never truncate. -/
def wfPairs (ps : List KVPair) : Prop :=
  ps.length < 2 ^ 32 ∧ ∀ p ∈ ps, wfPair p

instance (ps : List KVPair) : Decidable (wfPairs ps) :=
  inferInstanceAs (Decidable (_ ∧ _))

/-- The invariant of a stored Prolly subtree: the digest reads back as a
well-formed node whose pairs concatenate, child by child, to the stated
pair list; child reference keys name the first key of the child's pairs.
The index bounds the height. -/
inductive PT (cas : CAS) : Bytes → List KVPair → Nat → Prop where
  | leaf (h : Bytes) (ps : List KVPair) (d : Nat)
      (hread : casRead cas h = some (serializeNode (.leaf ps)))
      (hwf : wfNode (.leaf ps)) : PT cas h ps d
  | internal (h : Bytes) (refs : List ChildRef) (pss : List (List KVPair)) (d : Nat)
      (hread : casRead cas h = some (serializeNode (.internal refs)))
      (hwf : wfNode (.internal refs))
      (hne : refs ≠ [])
      (hlen : refs.length = pss.length)
      (hchild : ∀ i (hi : i < refs.length),
        PT cas (refs.get ⟨i, hi⟩).hash (pss.get ⟨i, hlen ▸ hi⟩) d)
      (hkeys : ∀ i (hi : i < refs.length),
        pss.get ⟨i, hlen ▸ hi⟩ ≠ [] ∧
        firstKey (pss.get ⟨i, hlen ▸ hi⟩) = (refs.get ⟨i, hi⟩).key) :
      PT cas h pss.flatten (d + 1)

/-- One CAS extends another: every readable object stays readable with the
same contents. -/
def casExtends (c1 c2 : CAS) : Prop :=
  ∀ h v, casRead c1 h = some v → casRead c2 h = some v

/-- The invariant of one reference layer during the build: each reference
points at a stored subtree holding a nonempty pair block whose first key is
the reference key. -/
def RefsInv (cas : CAS) (d : Nat) (refs : List ChildRef)
    (pss : List (List KVPair)) : Prop :=
  List.Forall₂ (fun r ps =>
    PT cas r.hash ps d ∧ ps ≠ [] ∧ firstKey ps = r.key ∧ wfRef r) refs pss

/-- An injective digest encoder used by concrete witnesses: a prefix-free
numeric encoding of the byte list padded to 32 entries. -/
def pair2 (x acc : Nat) : Nat := 2 ^ x * (2 * acc + 1)

/-- Fold a byte list into a single natural, injectively. -/
def natListEnc : List Nat → Nat
  | [] => 0
  | x :: t => pair2 x (natListEnc t)

/-- The witness digest: injective, with 32-entry output. -/
def modelHash (b : Bytes) : Bytes := natListEnc b :: List.replicate 31 0

/-! ## Byte relation for the zero-table entries (claim C10) -/

/-- Two byte values are related when they are equal or both lie in the
uninitialized range 64..255 of the buzhash table. -/
def RelByte (x y : Nat) : Prop := x = y ∨ (64 ≤ x ∧ x < 256 ∧ 64 ≤ y ∧ y < 256)

instance (x y : Nat) : Decidable (RelByte x y) :=
  inferInstanceAs (Decidable (_ ∨ _))

/-- Hasher states that agree on every component except that their windows
are only pointwise RelByte-related. -/
def BuzRel (b1 b2 : Buzhash) : Prop :=
  b1.targetSize = b2.targetSize ∧ b1.minSize = b2.minSize ∧
  b1.maxSize = b2.maxSize ∧ b1.hash = b2.hash ∧ b1.pos = b2.pos ∧
  b1.count = b2.count ∧ b1.boundaryHit = b2.boundaryHit ∧
  List.Forall₂ RelByte b1.window b2.window

/-! ## Diff engine (pkg/tree/diff.go, merged-file variant with the aligned
fast path and the collect-all fallback) -/

/-- A modified entry: key with old and new values, after ModifiedPair. -/
structure ModifiedPair where
  key : Bytes
  oldValue : Bytes
  newValue : Bytes
deriving DecidableEq, Repr

/-- The diff outcome, after DiffResult: Added holds B-side pairs, Modified
holds key/old/new triples, Deleted holds keys only. -/
structure DiffResult where
  added : List KVPair
  modified : List ModifiedPair
  deleted : List Bytes
deriving DecidableEq, Repr

/-- The all-empty result the engine starts from. -/
def emptyDiff : DiffResult := ⟨[], [], []⟩

/-- Concatenate two results componentwise (proof helper for stating how the
engine accumulates). -/
def appendDiff (r1 r2 : DiffResult) : DiffResult :=
  ⟨r1.added ++ r2.added, r1.modified ++ r2.modified,
   r1.deleted ++ r2.deleted⟩

/-- The sorted-merge comparison of two pair lists, after
DiffEngine.diffPairLists: smaller A-side keys are deleted, smaller B-side
keys added, equal keys with different values modified; the Go appends to
the result slices. -/
def diffPairLists : List KVPair → List KVPair → DiffResult → DiffResult
  | [], [], res => res
  | [], q :: qs, res =>
      diffPairLists [] qs { res with added := res.added ++ [q] }
  | p :: ps, [], res =>
      diffPairLists ps [] { res with deleted := res.deleted ++ [p.key] }
  | p :: ps, q :: qs, res =>
      match bytesCompare p.key q.key with
      | .lt => diffPairLists ps (q :: qs)
          { res with deleted := res.deleted ++ [p.key] }
      | .gt => diffPairLists (p :: ps) qs
          { res with added := res.added ++ [q] }
      | .eq =>
          if p.value = q.value then diffPairLists ps qs res
          else diffPairLists ps qs
            { res with modified := res.modified ++
                [⟨p.key, p.value, q.value⟩] }

/-- The alignment test of diffInternalNodes: equal child counts and
pointwise equal child keys. -/
def keysAligned : List ChildRef → List ChildRef → Bool
  | [], [] => true
  | a :: as, b :: bs => a.key = b.key && keysAligned as bs
  | _, _ => false

mutual

/-- Collect every pair of a subtree, after DiffEngine.collectAllPairs;
fuel bounds the depth of CAS recursion as in the traverser. -/
def collectAllPairs (cas : CAS) : Nat → Node → Option (List KVPair)
  | _, .leaf ps => some ps
  | 0, .internal _ => none
  | fuel + 1, .internal rs => collectAllPairsFromChildren cas fuel rs

/-- Collect pairs below a child list, after
DiffEngine.collectAllPairsFromChildren (the same loop the Go inlines in
collectAllPairs and reaches through collectAllPairsFromHash). -/
def collectAllPairsFromChildren (cas : CAS) :
    Nat → List ChildRef → Option (List KVPair)
  | _, [] => some []
  | fuel, r :: rs => do
      let node ← loadNode cas r.hash
      let ps ← collectAllPairs cas fuel node
      let rest ← collectAllPairsFromChildren cas fuel rs
      some (ps ++ rest)

end

mutual

/-- Recursive node comparison, after DiffEngine.diffNodes: leaves merge
their pair lists, internal nodes go through diffInternalNodes, mixed
shapes collect everything from both sides and merge. -/
def diffNodes (cas : CAS) : Nat → Node → Node → DiffResult →
    Option DiffResult
  | _, .leaf psA, .leaf psB, res => some (diffPairLists psA psB res)
  | fuel, .internal rsA, .internal rsB, res =>
      diffInternalNodes cas fuel rsA rsB res
  | fuel, nA, nB, res => do
      let psA ← collectAllPairs cas fuel nA
      let psB ← collectAllPairs cas fuel nB
      some (diffPairLists psA psB res)
termination_by fuel _ _ _ => (fuel, 1, 0)

/-- Internal-node comparison, after DiffEngine.diffInternalNodes: children
that align on first keys are compared position-wise, otherwise both sides
are fully collected and merged.  (The Go also builds an allKeys map that
never influences the result; it is omitted.)  Descending into children
consumes one fuel unit. -/
def diffInternalNodes (cas : CAS) : Nat → List ChildRef → List ChildRef →
    DiffResult → Option DiffResult
  | fuel, rsA, rsB, res =>
      if keysAligned rsA rsB then
        match fuel with
        | 0 => none
        | f + 1 => diffAlignedChildren cas f rsA rsB res
      else do
        let psA ← collectAllPairsFromChildren cas fuel rsA
        let psB ← collectAllPairsFromChildren cas fuel rsB
        some (diffPairLists psA psB res)
termination_by fuel _ _ _ => (fuel, 0, 0)

/-- Position-wise walk of aligned children, after
DiffEngine.diffAlignedChildren: children with equal digests are skipped,
differing ones are loaded and compared recursively. -/
def diffAlignedChildren (cas : CAS) : Nat → List ChildRef →
    List ChildRef → DiffResult → Option DiffResult
  | _, [], _, res => some res
  | _, _ :: _, [], res => some res
  | fuel, a :: as, b :: bs, res =>
      if a.hash = b.hash then diffAlignedChildren cas fuel as bs res
      else do
        let nodeA ← loadNode cas a.hash
        let nodeB ← loadNode cas b.hash
        let res' ← diffNodes cas fuel nodeA nodeB res
        diffAlignedChildren cas fuel as bs res'
termination_by fuel rsA _ _ => (fuel, 2, rsA.length)

end

/-- The diff entry point, after DiffEngine.Diff: early exit on identical
roots, otherwise load both roots and recurse. -/
def Diff (cas : CAS) (fuel : Nat) (hashA hashB : Bytes) :
    Option DiffResult :=
  if hashA = hashB then some emptyDiff
  else do
    let nodeA ← loadNode cas hashA
    let nodeB ← loadNode cas hashB
    diffNodes cas fuel nodeA nodeB emptyDiff

/-! ## The oracle classification of two pair sequences (claim C1 wording) -/

/-- Whether some pair of the list holds the key. -/
def hasKey (ps : List KVPair) (k : Bytes) : Bool :=
  ps.any fun p => decide (p.key = k)

/-- The oracle of claim C1: Added = B-pairs whose key is absent from A (in
B order), Modified = keys of both sides with differing values (old from A,
new from B, in A order), Deleted = keys of A absent from B (in A order). -/
def oracleDiff (A B : List KVPair) : DiffResult :=
  { added := B.filter fun q => !hasKey A q.key,
    modified := A.filterMap fun p =>
      match lookupKey B p.key with
      | some v => if v = p.value then none else some ⟨p.key, p.value, v⟩
      | none => none,
    deleted := (A.filter fun p => !hasKey B p.key).map fun p => p.key }

/-- Swap the value sides of a modified entry (claim C7 wording). -/
def swapMod (m : ModifiedPair) : ModifiedPair :=
  ⟨m.key, m.newValue, m.oldValue⟩

/-! ## Diff engine variant A (the merge-walk diffInternalNodes of the
second diff.go in the source) -/

/-- Load a node and collect all its pairs, after
DiffEngine.collectAllPairsFromHash; collectPairsInRange ignores its bounds
and simply calls this. -/
def collectAllPairsFromHash (cas : CAS) (fuel : Nat) (h : Bytes) :
    Option (List KVPair) :=
  (loadNode cas h).bind (collectAllPairs cas fuel)

/-- The trailing loop of the merge walk adding every pair below the
remaining B children. -/
def addedRemaining (cas : CAS) (fuel : Nat) :
    List ChildRef → DiffResult → Option DiffResult
  | [], res => some res
  | r :: rs, res => do
      let ps ← collectAllPairsFromHash cas fuel r.hash
      addedRemaining cas fuel rs { res with added := res.added ++ ps }

/-- The trailing loop of the merge walk deleting every key below the
remaining A children. -/
def deletedRemaining (cas : CAS) (fuel : Nat) :
    List ChildRef → DiffResult → Option DiffResult
  | [], res => some res
  | r :: rs, res => do
      let ps ← collectAllPairsFromHash cas fuel r.hash
      deletedRemaining cas fuel rs
        { res with deleted := res.deleted ++ ps.map fun p => p.key }

mutual

/-- Recursive node comparison of the merge-walk variant; identical to
diffNodes except that internal nodes go through the merge walk. -/
def diffNodesA (cas : CAS) : Nat → Node → Node → DiffResult →
    Option DiffResult
  | _, .leaf psA, .leaf psB, res => some (diffPairLists psA psB res)
  | fuel, .internal rsA, .internal rsB, res =>
      diffInternalNodesA cas fuel rsA rsB res
  | fuel, nA, nB, res => do
      let psA ← collectAllPairs cas fuel nA
      let psB ← collectAllPairs cas fuel nB
      some (diffPairLists psA psB res)
termination_by fuel _ _ _ => (fuel, 1, 0)

/-- The merge-walk diffInternalNodes of the second diff.go: child lists are
walked with two indices; equal first keys compare the children (skipping
equal digests), otherwise the overlap of the leading ranges decides between
pair-level comparison and wholesale deletion/addition.  Descending consumes
one fuel unit. -/
def diffInternalNodesA (cas : CAS) : Nat → List ChildRef →
    List ChildRef → DiffResult → Option DiffResult
  | fuel, rsA, rsB, res =>
      match fuel with
      | 0 => none
      | f + 1 => diffMergeLoopA cas f rsA rsB res
termination_by fuel _ _ _ => (fuel, 0, 0)

/-- The i/j walk inside the merge-walk diffInternalNodes, with the two
trailing loops.  The upper bound of a child range is the next child's key
(absent for the last child). -/
def diffMergeLoopA (cas : CAS) : Nat → List ChildRef → List ChildRef →
    DiffResult → Option DiffResult
  | fuel, [], rsB, res => addedRemaining cas fuel rsB res
  | fuel, a :: as, [], res => deletedRemaining cas fuel (a :: as) res
  | fuel, a :: as, b :: bs, res =>
      match bytesCompare a.key b.key with
      | .eq =>
          if a.hash = b.hash then diffMergeLoopA cas fuel as bs res
          else do
            let nA ← loadNode cas a.hash
            let nB ← loadNode cas b.hash
            let res' ← diffNodesA cas fuel nA nB res
            diffMergeLoopA cas fuel as bs res'
      | .lt =>
          if (match as with
              | [] => true
              | a2 :: _ => decide (bytesCompare a2.key b.key = Ordering.gt))
              then do
            let pairsA ← collectAllPairsFromHash cas fuel a.hash
            let pairsB ← collectAllPairsFromHash cas fuel b.hash
            let beforeB := pairsA.filter fun (p : KVPair) =>
              decide (bytesCompare p.key b.key = Ordering.lt)
            let overlapA := pairsA.filter fun (p : KVPair) =>
              ! decide (bytesCompare p.key b.key = Ordering.lt)
            diffMergeLoopA cas fuel as bs (diffPairLists overlapA pairsB
              { res with deleted := res.deleted ++
                  beforeB.map fun (p : KVPair) => p.key })
          else do
            let pairs ← collectAllPairsFromHash cas fuel a.hash
            diffMergeLoopA cas fuel as (b :: bs)
              { res with deleted := res.deleted ++
                  pairs.map fun (p : KVPair) => p.key }
      | .gt =>
          if (match bs with
              | [] => true
              | b2 :: _ => decide (bytesCompare b2.key a.key = Ordering.gt))
              then do
            let pairsA ← collectAllPairsFromHash cas fuel a.hash
            let pairsB ← collectAllPairsFromHash cas fuel b.hash
            let beforeA := pairsB.filter fun (p : KVPair) =>
              decide (bytesCompare p.key a.key = Ordering.lt)
            let overlapB := pairsB.filter fun (p : KVPair) =>
              ! decide (bytesCompare p.key a.key = Ordering.lt)
            diffMergeLoopA cas fuel as bs (diffPairLists pairsA overlapB
              { res with added := res.added ++ beforeA })
          else do
            let pairs ← collectAllPairsFromHash cas fuel b.hash
            diffMergeLoopA cas fuel (a :: as) bs
              { res with added := res.added ++ pairs }
termination_by fuel rsA rsB _ => (fuel, 2, rsA.length + rsB.length)

end

/-- The variant-A diff entry point: early exit on identical roots, load
both and walk with the merge-walk engine. -/
def DiffA (cas : CAS) (fuel : Nat) (hashA hashB : Bytes) :
    Option DiffResult :=
  if hashA = hashB then some emptyDiff
  else do
    let nodeA ← loadNode cas hashA
    let nodeB ← loadNode cas hashB
    diffNodesA cas fuel nodeA nodeB emptyDiff

/-- A byte-valued digest used by the refutation of claim C4: 32 bytes of a
base-257 checksum reduced mod 2^256. -/
def smallHash (b : Bytes) : Bytes :=
  (List.range 32).map fun i =>
    (b.foldl (fun acc x => (acc * 257 + x + 1) % 2 ^ 256) (b.length + 1))
      / 256 ^ i % 256

/-! ## Branches, HEAD and the store commit path (pkg/branch/manager.go,
the branch HEAD manager and Store.Commit of the store package) -/

/-- The zero hash (types.Hash zero value, store.ZeroHash): 32 zero bytes. -/
def zeroHash : Bytes := List.replicate 32 0

/-- Read a branch reference file, after BranchManager.GetBranch; a missing
file is ErrBranchNotFound. -/
def getBranch : List (String × Bytes) → String → Option Bytes
  | [], _ => none
  | (n, h) :: rest, name => if n = name then some h else getBranch rest name

/-- Whether the branch file exists, after BranchManager.BranchExists. -/
def branchExists (bs : List (String × Bytes)) (name : String) : Bool :=
  (getBranch bs name).isSome

/-- Write a branch reference file (create or overwrite), after
BranchManager.writeBranchRef. -/
def writeBranchRef : List (String × Bytes) → String → Bytes →
    List (String × Bytes)
  | [], name, h => [(name, h)]
  | (n, h0) :: rest, name, h =>
      if n = name then (name, h) :: rest
      else (n, h0) :: writeBranchRef rest name h

/-- Update an existing branch, after BranchManager.UpdateBranch: a missing
branch is ErrBranchNotFound. -/
def updateBranch (bs : List (String × Bytes)) (name : String) (h : Bytes) :
    Option (List (String × Bytes)) :=
  if branchExists bs name then some (writeBranchRef bs name h) else none

/-- The well-formed HEAD file contents, after the two formats of
parseHeadFile and formatHeadAttached/formatHeadDetached: a branch
reference line or a raw commit hash. -/
inductive HeadFile where
  | attached (branch : String)
  | detached (hash : Bytes)
deriving DecidableEq, Repr

/-- The HEAD state reported by HeadManager.GetHead. -/
structure HeadState where
  isDetached : Bool
  branch : String
  commitHash : Bytes
deriving DecidableEq, Repr

/-- Resolve the HEAD file, after HeadManager.GetHead and parseHeadFile: an
attached HEAD resolves its branch (zero hash when the branch does not
exist yet), a detached HEAD carries the hash itself. -/
def getHead (hf : HeadFile) (bs : List (String × Bytes)) : HeadState :=
  match hf with
  | .attached name =>
      match getBranch bs name with
      | some h => ⟨false, name, h⟩
      | none => ⟨false, name, zeroHash⟩
  | .detached h => ⟨true, "", h⟩

/-- The commit hash HEAD points at, after HeadManager.GetHeadCommit. -/
def getHeadCommit (hf : HeadFile) (bs : List (String × Bytes)) : Bytes :=
  (getHead hf bs).commitHash

/-- Point HEAD directly at a commit (detached state), after
HeadManager.SetHeadToCommit writing formatHeadDetached. -/
def setHeadToCommit (h : Bytes) : HeadFile := .detached h

/-- A commit record, after types.Commit (the message kept as its bytes,
the timestamp as a natural). -/
structure Commit where
  rootHash : Bytes
  message : Bytes
  parent : Bytes
  timestamp : Nat
deriving DecidableEq, Repr

/-- Serialization of a commit for content addressing, standing in for
MarshalCommit (JSON with hex-encoded hash fields): a length-prefixed
concatenation of the four fields. -/
def marshalCommit (c : Commit) : Bytes :=
  u32be c.rootHash.length ++ c.rootHash ++
  u32be c.message.length ++ c.message ++
  u32be c.parent.length ++ c.parent ++ u32be c.timestamp

/-- Create and store a commit object, after CommitManager.CreateCommit;
the timestamp is a parameter standing for time.Now. -/
def createCommit (H : Bytes → Bytes) (cas : CAS)
    (rootHash message parent : Bytes) (ts : Nat) : Commit × Bytes × CAS :=
  let commit : Commit := ⟨rootHash, message, parent, ts⟩
  let w := casWrite H cas (marshalCommit commit)
  (commit, w.1, w.2)

/-- Ordered insertion modelling the sort inside
Store.workingStateToSortedPairs. -/
def insertPair (p : KVPair) : List KVPair → List KVPair
  | [] => [p]
  | q :: qs =>
      if bytesCompare p.key q.key = .lt then p :: q :: qs
      else q :: insertPair p qs

/-- The working state as sorted pairs, after
Store.workingStateToSortedPairs (ascending bytes.Compare order). -/
def workingStateToSortedPairs : List KVPair → List KVPair
  | [] => []
  | p :: ps => insertPair p (workingStateToSortedPairs ps)

/-- The store's mutable state: the CAS, the branch reference files, the
HEAD file, the cached HEAD hash and the working map. -/
structure StoreState where
  cas : CAS
  branches : List (String × Bytes)
  headFile : HeadFile
  head : Bytes
  workingState : List KVPair

/-- Store.Commit: build a tree from the sorted working state, store a
commit object with the cached HEAD as parent, then advance HEAD - the
current branch's pointer when HEAD is attached, the HEAD file itself when
detached. -/
def storeCommit (H : Bytes → Bytes) (c : BuzhashChunker) (fuel ts : Nat)
    (s : StoreState) (message : Bytes) : Option (Bytes × StoreState) :=
  match build H c fuel s.cas (workingStateToSortedPairs s.workingState) with
  | none => none
  | some rc =>
      let made := createCommit H rc.2 rc.1 message s.head ts
      let commitHash := made.2.1
      let cas2 := made.2.2
      let hs := getHead s.headFile s.branches
      if hs.isDetached then
        some (commitHash,
          { s with
            cas := cas2
            head := commitHash
            headFile := setHeadToCommit commitHash })
      else
        match updateBranch s.branches hs.branch commitHash with
        | none => none
        | some bs' =>
            some (commitHash,
              { s with cas := cas2, head := commitHash, branches := bs' })

/-! # Theorems -/

/-! ## Byte comparison -/

theorem bytesCompare_self (a : Bytes) : bytesCompare a a = .eq := by
  induction a with
  | nil => rfl
  | cons x xs ih => simp [bytesCompare, ih]

theorem bytesCompare_eq_iff {a b : Bytes} : bytesCompare a b = .eq ↔ a = b := by
  induction a generalizing b with
  | nil => cases b <;> simp [bytesCompare]
  | cons x xs ih =>
      cases b with
      | nil => simp [bytesCompare]
      | cons y ys =>
          by_cases h1 : x < y
          · simp [bytesCompare, h1]
            omega
          · by_cases h2 : y < x
            · simp [bytesCompare, h1, h2]
              omega
            · have hxy : x = y := by omega
              simp [bytesCompare, h1, h2, hxy, ih]

theorem bytesCompare_swap (a b : Bytes) :
    bytesCompare b a = (bytesCompare a b).swap := by
  induction a generalizing b with
  | nil => cases b <;> simp [bytesCompare, Ordering.swap]
  | cons x xs ih =>
      cases b with
      | nil => simp [bytesCompare, Ordering.swap]
      | cons y ys =>
          by_cases h1 : x < y
          · have h2 : ¬ y < x := by omega
            simp [bytesCompare, h1, h2, Ordering.swap]
          · by_cases h2 : y < x
            · simp [bytesCompare, h1, h2, Ordering.swap]
            · simp [bytesCompare, h1, h2, ih]

theorem bytesCompare_lt_trans {a b c : Bytes}
    (hab : bytesCompare a b = .lt) (hbc : bytesCompare b c = .lt) :
    bytesCompare a c = .lt := by
  induction a generalizing b c with
  | nil =>
      cases b with
      | nil => exact absurd hab (by simp [bytesCompare])
      | cons y ys => cases c with
        | nil => exact absurd hbc (by simp [bytesCompare])
        | cons z zs => simp [bytesCompare]
  | cons x xs ih =>
      cases b with
      | nil => exact absurd hab (by simp [bytesCompare])
      | cons y ys =>
          cases c with
          | nil => exact absurd hbc (by simp [bytesCompare])
          | cons z zs =>
              simp only [bytesCompare] at hab hbc ⊢
              by_cases hxy : x < y
              · by_cases hyz : y < z
                · have : x < z := by omega
                  simp [this]
                · by_cases hzy : z < y
                  · simp [hyz, hzy] at hbc
                  · have : y = z := by omega
                    subst this
                    simp [hxy]
              · by_cases hyx : y < x
                · simp [hxy, hyx] at hab
                · have hxy' : x = y := by omega
                  subst hxy'
                  by_cases hyz : x < z
                  · simp [hyz]
                  · by_cases hzy : z < x
                    · simp [hyz, hzy] at hbc
                    · simp [hxy, hyx] at hab
                      simp [hyz, hzy] at hbc ⊢
                      exact ih hab hbc

theorem bytesCompare_lt_irrefl (a : Bytes) : bytesCompare a a ≠ .lt := by
  simp [bytesCompare_self]

theorem keyLt_trans {a b c : Bytes} (h1 : keyLt a b) (h2 : keyLt b c) :
    keyLt a c := bytesCompare_lt_trans h1 h2

theorem keyLt_ne {a b : Bytes} (h : keyLt a b) : a ≠ b := by
  intro he; subst he; exact bytesCompare_lt_irrefl a h

theorem keyLt_asymm {a b : Bytes} (h : keyLt a b) : ¬ keyLt b a := by
  intro h2
  exact bytesCompare_lt_irrefl a (keyLt_trans h h2)

theorem keyLt_total (a b : Bytes) : keyLt a b ∨ a = b ∨ keyLt b a := by
  have hs := bytesCompare_swap a b
  rcases ho : bytesCompare a b with _ | _ | _
  · exact .inl ho
  · exact .inr (.inl (bytesCompare_eq_iff.mp ho))
  · refine .inr (.inr ?_)
    unfold keyLt
    rw [hs, ho]
    rfl

theorem u32be_length (n : Nat) : (u32be n).length = 4 := rfl

theorem serializeKVPair_length (p : KVPair) :
    (serializeKVPair p).length = 8 + p.key.length + p.value.length := by
  simp [serializeKVPair, u32be]
  omega

/-! ## Rotation facts -/

theorem tableAt_lt (b : Nat) : tableAt b < 2 ^ 32 := by
  unfold tableAt
  split
  · rename_i hb
    have h : ∀ i : Fin 256, buzhashTable.getD i.val 0 < 2 ^ 32 := by decide
    exact h ⟨b, hb⟩
  · positivity

theorem rotl32_lt {x : Nat} (n : Nat) (hx : x < 2 ^ 32) : rotl32 x n < 2 ^ 32 := by
  unfold rotl32
  refine Nat.or_lt_two_pow (Nat.mod_lt _ (by positivity)) ?_
  calc x >>> (32 - n % 32) ≤ x := by
        rw [Nat.shiftRight_eq_div_pow]; exact Nat.div_le_self _ _
    _ < 2 ^ 32 := hx

theorem rotl32_testBit (x n i : Nat) (hx : x < 2 ^ 32) :
    (rotl32 x n).testBit i =
      if i < 32 then x.testBit ((i + 32 - n % 32) % 32) else false := by
  have hm : n % 32 < 32 := Nat.mod_lt _ (by norm_num)
  unfold rotl32
  simp only [Nat.testBit_lor, Nat.testBit_mod_two_pow, Nat.testBit_shiftLeft,
    Nat.testBit_shiftRight]
  by_cases hi : i < 32
  · by_cases hge : n % 32 ≤ i
    · have h1 : ((i + 32 - n % 32) % 32) = i - n % 32 := by omega
      have h2 : x.testBit (32 - n % 32 + i) = false :=
        Nat.testBit_lt_two_pow
          (lt_of_lt_of_le hx (Nat.pow_le_pow_right (by norm_num) (by omega)))
      simp [hi, hge, h1, h2]
    · have h1 : ((i + 32 - n % 32) % 32) = i + 32 - n % 32 := by omega
      have h2 : 32 - n % 32 + i = i + 32 - n % 32 := by omega
      simp [hi, hge, h2, h1]
  · have h2 : x.testBit (32 - n % 32 + i) = false :=
      Nat.testBit_lt_two_pow
        (lt_of_lt_of_le hx (Nat.pow_le_pow_right (by norm_num) (by omega)))
    simp [hi, h2]

theorem rotl32_zero_left (n : Nat) : rotl32 0 n = 0 := by
  simp [rotl32]

theorem rotl32_zero_rot {x : Nat} (hx : x < 2 ^ 32) : rotl32 x 0 = x := by
  apply Nat.eq_of_testBit_eq
  intro i
  rw [rotl32_testBit x 0 i hx]
  by_cases hi : i < 32
  · rw [if_pos hi]
    congr 1
    omega
  · rw [if_neg hi]
    exact (Nat.testBit_lt_two_pow
      (lt_of_lt_of_le hx (Nat.pow_le_pow_right (by norm_num) (by omega)))).symm

theorem rotl32_sixtyfour {x : Nat} (hx : x < 2 ^ 32) : rotl32 x 64 = x := by
  have h : rotl32 x 64 = rotl32 x 0 := by
    unfold rotl32
    norm_num
  rw [h, rotl32_zero_rot hx]

theorem rotl32_xor (x y n : Nat) (hx : x < 2 ^ 32) (hy : y < 2 ^ 32) :
    rotl32 (x ^^^ y) n = rotl32 x n ^^^ rotl32 y n := by
  apply Nat.eq_of_testBit_eq
  intro i
  rw [Nat.testBit_xor, rotl32_testBit _ n i (Nat.xor_lt_two_pow hx hy),
    rotl32_testBit x n i hx, rotl32_testBit y n i hy]
  by_cases hi : i < 32 <;> simp [hi]

theorem rotl32_succ (x n : Nat) (hx : x < 2 ^ 32) :
    rotl32 (rotl32 x n) 1 = rotl32 x (n + 1) := by
  apply Nat.eq_of_testBit_eq
  intro i
  rw [rotl32_testBit _ 1 i (rotl32_lt n hx), rotl32_testBit x (n + 1) i hx]
  by_cases hi : i < 32
  · rw [if_pos hi, if_pos hi, rotl32_testBit x n _ hx,
      if_pos (by omega : (i + 32 - 1 % 32) % 32 < 32)]
    congr 1
    omega
  · simp [hi]

theorem xorLeftComm (a b c : Nat) : a ^^^ (b ^^^ c) = b ^^^ (a ^^^ c) := by
  rw [← Nat.xor_assoc, Nat.xor_comm a b, Nat.xor_assoc]

/-! ## Queue view of the rolling hasher -/

theorem qfeed_nil (s : QState) : qfeed s [] = s := rfl

theorem qfeed_cons (s : QState) (x : Nat) (xs : Bytes) :
    qfeed s (x :: xs) = qfeed (qroll s x) xs := rfl

theorem qfeed_append (s : QState) (xs ys : Bytes) :
    qfeed s (xs ++ ys) = qfeed (qfeed s xs) ys := by
  simp [qfeed, List.foldl_append]

theorem rollAll_nil (b : Buzhash) : b.rollAll [] = b := rfl

theorem rollAll_cons (b : Buzhash) (x : Nat) (xs : Bytes) :
    b.rollAll (x :: xs) = (b.roll x).rollAll xs := rfl

theorem rollAll_append (b : Buzhash) (xs ys : Bytes) :
    b.rollAll (xs ++ ys) = (b.rollAll xs).rollAll ys := by
  simp [Buzhash.rollAll, List.foldl_append]

theorem roll_queue (b : Buzhash) (x : Nat) (hp : b.pos < b.window.length) :
    (b.roll x).hash = (qroll ⟨b.hash, b.queue⟩ x).hash ∧
    (b.roll x).queue = (qroll ⟨b.hash, b.queue⟩ x).window ∧
    (b.roll x).pos < (b.roll x).window.length := by
  have hTlen : (b.window.take b.pos).length = b.pos := by
    rw [List.length_take]; omega
  have hdropc : b.window.drop b.pos
      = b.window[b.pos] :: b.window.drop (b.pos + 1) := List.drop_eq_getElem_cons hp
  have hqueue : b.queue = b.window[b.pos] :: (b.window.drop (b.pos + 1) ++ b.window.take b.pos) := by
    unfold Buzhash.queue
    rw [hdropc, List.cons_append]
  have hout : b.window.getD b.pos 0 = b.window[b.pos] := by
    simp [List.getD_eq_getElem?_getD, List.getElem?_eq_getElem hp]
  have hset : b.window.set b.pos x
      = b.window.take b.pos ++ x :: b.window.drop (b.pos + 1) :=
    List.set_eq_take_cons_drop x hp
  have hsetlen : (b.window.set b.pos x).length = b.window.length := by simp
  have hqlen : b.queue.length = b.window.length := by
    unfold Buzhash.queue
    rw [List.length_append, List.length_drop, List.length_take]
    omega
  have hrollhash : (b.roll x).hash
      = rotl32 b.hash 1 ^^^ rotl32 (tableAt (b.window.getD b.pos 0)) b.window.length
        ^^^ tableAt x := rfl
  have hrollwin : (b.roll x).window = b.window.set b.pos x := rfl
  have hrollpos : (b.roll x).pos = (b.pos + 1) % b.window.length := rfl
  have hqrollhash : (qroll ⟨b.hash, b.queue⟩ x).hash
      = rotl32 b.hash 1 ^^^ rotl32 (tableAt (b.queue.headD 0)) b.queue.length
        ^^^ tableAt x := rfl
  have hqrollwin : (qroll ⟨b.hash, b.queue⟩ x).window = b.queue.tail ++ [x] := rfl
  have hhead : b.queue.headD 0 = b.window[b.pos] := by rw [hqueue]; rfl
  have htail : b.queue.tail = b.window.drop (b.pos + 1) ++ b.window.take b.pos := by
    rw [hqueue]; rfl
  refine ⟨?_, ?_, ?_⟩
  · rw [hrollhash, hqrollhash, hout, hhead, hqlen]
  · show (b.roll x).window.drop (b.roll x).pos ++ (b.roll x).window.take (b.roll x).pos
        = (qroll ⟨b.hash, b.queue⟩ x).window
    rw [hrollwin, hrollpos, hqrollwin, htail, hset]
    have hsplit : b.window.take b.pos ++ x :: b.window.drop (b.pos + 1)
        = (b.window.take b.pos ++ [x]) ++ b.window.drop (b.pos + 1) := by simp
    by_cases hend : b.pos + 1 < b.window.length
    · have hmod : (b.pos + 1) % b.window.length = b.pos + 1 := Nat.mod_eq_of_lt hend
      rw [hmod, hsplit, List.drop_left' (by simp [hTlen]), List.take_left' (by simp [hTlen])]
      simp
    · have hpe : b.pos + 1 = b.window.length := by omega
      have hmod : (b.pos + 1) % b.window.length = 0 := by
        rw [hpe, Nat.mod_self]
      have hD : b.window.drop (b.pos + 1) = [] := by
        apply List.drop_eq_nil_of_le
        omega
      rw [hmod, List.drop_zero, List.take_zero, List.append_nil, hD]
      simp
  · rw [hrollpos, hrollwin, hsetlen]
    exact Nat.mod_lt _ (by omega)

theorem rollAll_queue (bs : Bytes) (b : Buzhash) (hp : b.pos < b.window.length) :
    (b.rollAll bs).hash = (qfeed ⟨b.hash, b.queue⟩ bs).hash := by
  induction bs generalizing b with
  | nil => rfl
  | cons x xs ih =>
      rw [rollAll_cons, qfeed_cons]
      obtain ⟨h1, h2, h3⟩ := roll_queue b x hp
      rw [ih (b.roll x) h3]
      congr 1
      cases hq : qroll ⟨b.hash, b.queue⟩ x with
      | mk qh qw =>
          rw [hq] at h1 h2
          simp at h1 h2
          simp [h1, h2]

/-- Hash-difference cancellation: two states whose windows agree except at
one slot, and whose hashes differ by the rotated table difference of that
slot, converge to the same state once the differing slot has been ejected. -/
theorem qfeed_cancel (z : List Nat) :
    ∀ (q : List Nat) (u : Bytes) (h1 h2 a c : Nat),
    z.length + q.length + 1 = 64 → z.length + 1 ≤ u.length →
    h1 < 2 ^ 32 → h2 < 2 ^ 32 →
    h1 ^^^ h2 = rotl32 (tableAt a ^^^ tableAt c) q.length →
    qfeed ⟨h1, z ++ a :: q⟩ u = qfeed ⟨h2, z ++ c :: q⟩ u := by
  induction z with
  | nil =>
      intro q u h1 h2 a c hlen hu hb1 hb2 hx
      cases u with
      | nil => simp at hu
      | cons d u' =>
          rw [qfeed_cons, qfeed_cons]
          have hqlen : q.length = 63 := by simpa using hlen
          have hwinA : (a :: q).length = 64 := by simp [hqlen]
          have hwinC : (c :: q).length = 64 := by simp [hqlen]
          congr 1
          simp only [qroll, List.nil_append, List.headD_cons, List.tail_cons]
          rw [hwinA, hwinC]
          have hTa := tableAt_lt a
          have hTc := tableAt_lt c
          have hX : tableAt a ^^^ tableAt c < 2 ^ 32 := Nat.xor_lt_two_pow hTa hTc
          have h1eq : h1 = (rotl32 (tableAt a ^^^ tableAt c) q.length) ^^^ h2 := by
            have := congrArg (· ^^^ h2) hx
            simpa [Nat.xor_assoc] using this
          have hrot63 : rotl32 (tableAt a ^^^ tableAt c) q.length < 2 ^ 32 :=
            rotl32_lt _ hX
          have hstep : rotl32 h1 1 = rotl32 (rotl32 (tableAt a ^^^ tableAt c) q.length) 1 ^^^ rotl32 h2 1 := by
            rw [h1eq, rotl32_xor _ _ _ hrot63 hb2]
          have hrot64 : rotl32 (rotl32 (tableAt a ^^^ tableAt c) q.length) 1
              = tableAt a ^^^ tableAt c := by
            rw [rotl32_succ _ _ hX, hqlen]
            exact rotl32_sixtyfour hX
          rw [rotl32_sixtyfour hTa, rotl32_sixtyfour hTc, hstep, hrot64]
          simp [Nat.xor_assoc, Nat.xor_comm, xorLeftComm, Nat.xor_self,
            Nat.xor_zero, Nat.zero_xor, Nat.xor_cancel_left, Nat.xor_cancel_right]
  | cons e z' ih =>
      intro q u h1 h2 a c hlen hu hb1 hb2 hx
      cases u with
      | nil => simp at hu
      | cons d u' =>
          rw [qfeed_cons, qfeed_cons]
          have hwlen : (e :: (z' ++ a :: q)).length = 64 := by
            simp at hlen ⊢
            omega
          have hwlen' : (e :: (z' ++ c :: q)).length = 64 := by
            simp at hlen ⊢
            omega
          simp only [qroll, List.cons_append, List.headD_cons, List.tail_cons]
          rw [hwlen, hwlen']
          have hTe := tableAt_lt e
          have hTd := tableAt_lt d
          have hb1' : rotl32 h1 1 ^^^ rotl32 (tableAt e) 64 ^^^ tableAt d < 2 ^ 32 :=
            Nat.xor_lt_two_pow (Nat.xor_lt_two_pow (rotl32_lt 1 hb1) (rotl32_lt 64 hTe)) hTd
          have hb2' : rotl32 h2 1 ^^^ rotl32 (tableAt e) 64 ^^^ tableAt d < 2 ^ 32 :=
            Nat.xor_lt_two_pow (Nat.xor_lt_two_pow (rotl32_lt 1 hb2) (rotl32_lt 64 hTe)) hTd
          have hw1 : (z' ++ a :: q) ++ [d] = z' ++ a :: (q ++ [d]) := by simp
          have hw2 : (z' ++ c :: q) ++ [d] = z' ++ c :: (q ++ [d]) := by simp
          rw [hw1, hw2]
          apply ih (q ++ [d]) u' _ _ a c
          · simp at hlen ⊢
            omega
          · simp at hu ⊢
            omega
          · exact hb1'
          · exact hb2'
          · have hX : tableAt a ^^^ tableAt c < 2 ^ 32 :=
              Nat.xor_lt_two_pow (tableAt_lt a) (tableAt_lt c)
            have hxor : (rotl32 h1 1 ^^^ rotl32 (tableAt e) 64 ^^^ tableAt d)
                ^^^ (rotl32 h2 1 ^^^ rotl32 (tableAt e) 64 ^^^ tableAt d)
                = rotl32 h1 1 ^^^ rotl32 h2 1 := by
              simp [Nat.xor_assoc, Nat.xor_comm, xorLeftComm, Nat.xor_self,
                Nat.xor_zero, Nat.zero_xor, Nat.xor_cancel_left, Nat.xor_cancel_right]
            rw [hxor, ← rotl32_xor _ _ _ hb1 hb2, hx, rotl32_succ _ _ hX]
            simp

/-- Prepending one byte to a stream of at least 64 further bytes does not
change the final queue-view state. -/
theorem qfeed_peel (a : Nat) (u : Bytes) (hu : 64 ≤ u.length) :
    qfeed ⟨0, List.replicate 64 0⟩ (a :: u) = qfeed ⟨0, List.replicate 64 0⟩ u := by
  rw [qfeed_cons]
  have hrep : (List.replicate 64 (0 : Nat)) = List.replicate 63 0 ++ 0 :: [] := by
    rw [← List.replicate_succ']
  have hstep : qroll ⟨0, List.replicate 64 0⟩ a
      = ⟨tableAt 0 ^^^ tableAt a, List.replicate 63 0 ++ a :: []⟩ := by
    simp only [qroll, QState.mk.injEq]
    refine ⟨?_, ?_⟩
    · rw [rotl32_zero_left]
      have h0 : (List.replicate 64 (0 : Nat)).headD 0 = 0 := by simp
      rw [h0]
      have h64 : (List.replicate 64 (0 : Nat)).length = 64 := by simp
      rw [h64, rotl32_sixtyfour (tableAt_lt 0)]
      simp [Nat.zero_xor]
    · show (List.replicate 64 (0 : Nat)).tail ++ [a] = List.replicate 63 0 ++ a :: []
      simp [List.tail_replicate]
  rw [hstep]
  conv_rhs => rw [hrep]
  refine qfeed_cancel (List.replicate 63 0) [] u
    (tableAt 0 ^^^ tableAt a) 0 a 0 ?_ ?_ ?_ ?_ ?_
  · simp
  · simpa using hu
  · exact Nat.xor_lt_two_pow (tableAt_lt 0) (tableAt_lt a)
  · norm_num
  · simp only [List.length_nil]
    rw [rotl32_zero_rot (Nat.xor_lt_two_pow (tableAt_lt a) (tableAt_lt 0))]
    rw [Nat.xor_zero]
    exact Nat.xor_comm _ _

/-- Feeding any stream from the initial state reaches the same state as
feeding only its last 64 bytes. -/
theorem qfeed_drop (bs : Bytes) :
    qfeed ⟨0, List.replicate 64 0⟩ bs
      = qfeed ⟨0, List.replicate 64 0⟩ (bs.drop (bs.length - 64)) := by
  induction bs with
  | nil => rfl
  | cons a t ih =>
      by_cases h : 64 ≤ t.length
      · rw [qfeed_peel a t h, ih]
        congr 1
        have h1 : (a :: t).length - 64 = (t.length - 64) + 1 := by
          simp
          omega
        rw [h1, List.drop_succ_cons]
      · have h0 : (a :: t).length - 64 = 0 := by
          simp
          omega
        rw [h0, List.drop_zero]

/-- C5: after a Reset, the hash value produced by any sequence of Rolls
equals the one obtained by feeding only the window contents — the last 64
bytes of the sequence, or the whole sequence over the zero-filled window
when it is shorter — into a freshly reset hasher. -/
theorem roll_hash_eq_window_hash (b : Buzhash) (bs : Bytes)
    (hw : b.window.length = 64) :
    (b.reset.rollAll bs).hash
      = (b.reset.rollAll (bs.drop (bs.length - 64))).hash := by
  have hq : b.reset.queue = List.replicate 64 0 := by
    unfold Buzhash.reset Buzhash.queue
    simp [hw]
  have hp : b.reset.pos < b.reset.window.length := by
    unfold Buzhash.reset
    simp [hw]
  have h0 : b.reset.hash = 0 := rfl
  rw [rollAll_queue bs _ hp, rollAll_queue _ _ hp, h0, hq, qfeed_drop]

theorem roll_hash_eq_window_hash_witness :
    (newBuzhash 4096 512 16384).window.length = 64 ∧
    ((newBuzhash 4096 512 16384).reset.rollAll (List.range 70)).hash
      = ((newBuzhash 4096 512 16384).reset.rollAll
          ((List.range 70).drop ((List.range 70).length - 64))).hash :=
  ⟨by decide, roll_hash_eq_window_hash _ _ (by decide)⟩

/-! ## Boundary flag bookkeeping (claim C6) -/

theorem rollAll_targetSize (b : Buzhash) (bs : Bytes) :
    (b.rollAll bs).targetSize = b.targetSize := by
  induction bs generalizing b with
  | nil => rfl
  | cons x xs ih => rw [rollAll_cons, ih]; rfl

theorem rollAll_minSize (b : Buzhash) (bs : Bytes) :
    (b.rollAll bs).minSize = b.minSize := by
  induction bs generalizing b with
  | nil => rfl
  | cons x xs ih => rw [rollAll_cons, ih]; rfl

theorem rollAll_maxSize (b : Buzhash) (bs : Bytes) :
    (b.rollAll bs).maxSize = b.maxSize := by
  induction bs generalizing b with
  | nil => rfl
  | cons x xs ih => rw [rollAll_cons, ih]; rfl

theorem rollAll_count (b : Buzhash) (bs : Bytes) :
    (b.rollAll bs).count = b.count + bs.length := by
  induction bs generalizing b with
  | nil => rfl
  | cons x xs ih =>
      rw [rollAll_cons, ih]
      show b.count + 1 + xs.length = b.count + (xs.length + 1)
      omega

/-- The sticky flag after feeding a whole stream from a fresh state is set
exactly when some roll at or past the minimum size hit the target. -/
theorem rollAll_boundaryHit_iff (b0 : Buzhash) (bs : Bytes)
    (hc : b0.count = 0) (hf : b0.boundaryHit = false) :
    ((b0.rollAll bs).boundaryHit = true ↔
      ∃ i, i < bs.length ∧ b0.minSize ≤ i + 1 ∧
        (b0.rollAll (bs.take (i + 1))).hash % b0.targetSize = 0) := by
  induction bs using List.reverseRecOn with
  | nil => simp [rollAll_nil, hf]
  | append_singleton ys y ih =>
      have hcount : (b0.rollAll ys).count = ys.length := by
        rw [rollAll_count, hc, Nat.zero_add]
      have hmin : (b0.rollAll ys).minSize = b0.minSize := rollAll_minSize b0 ys
      have htgt : (b0.rollAll ys).targetSize = b0.targetSize := rollAll_targetSize b0 ys
      have htake : ∀ i, i < ys.length → (ys ++ [y]).take (i + 1) = ys.take (i + 1) := by
        intro i hi
        exact List.take_append_of_le_length (by omega)
      have htakeAll : (ys ++ [y]).take (ys.length + 1) = ys ++ [y] := by
        apply List.take_of_length_le
        simp
      have hflag : (b0.rollAll (ys ++ [y])).boundaryHit
          = if (b0.rollAll ys).minSize ≤ (b0.rollAll ys).count + 1 ∧
               (b0.rollAll (ys ++ [y])).hash % (b0.rollAll ys).targetSize = 0
            then true else (b0.rollAll ys).boundaryHit := by
        rw [rollAll_append]
        rfl
      rw [hflag, hmin, htgt, hcount]
      by_cases hcond : b0.minSize ≤ ys.length + 1 ∧
          (b0.rollAll (ys ++ [y])).hash % b0.targetSize = 0
      · rw [if_pos hcond]
        simp only [true_iff]
        refine ⟨ys.length, by simp, hcond.1, ?_⟩
        rw [htakeAll]
        exact hcond.2
      · rw [if_neg hcond, ih]
        constructor
        · rintro ⟨i, hi, h3, h4⟩
          exact ⟨i, by simp; omega, h3, by rw [htake i hi]; exact h4⟩
        · rintro ⟨i, hi, h3, h4⟩
          have hi' : i < ys.length + 1 := by simpa using hi
          by_cases him : i < ys.length
          · exact ⟨i, him, h3, by rw [htake i him] at h4; exact h4⟩
          · exfalso
            have hieq : i = ys.length := by omega
            subst hieq
            rw [htakeAll] at h4
            exact hcond ⟨h3, h4⟩

/-- C6 counterexample: with target 2, min 2, max 10 and input bytes 0 then 4,
the first roll hashes to 0 — a hit of h mod target = 0 — but occurs while the
count is still below MinSize, so IsBoundary reports false even though the
count now lies between MinSize and MaxSize. -/
theorem isBoundary_hit_below_min_counterexample :
    2 ≤ ((newBuzhash 2 2 10).rollAll [0, 4]).count ∧
    ((newBuzhash 2 2 10).rollAll [0, 4]).count < 10 ∧
    ((newBuzhash 2 2 10).rollAll ([0, 4].take 1)).hash % 2 = 0 ∧
    ((newBuzhash 2 2 10).rollAll [0, 4]).isBoundary = false := by
  refine ⟨by decide, by decide, ?_, by decide⟩
  decide

/-- C6 (amended): with the byte count between MinSize and MaxSize,
IsBoundary reports true exactly when the hash satisfied h mod TargetSize = 0
at some roll at which the count had already reached MinSize. -/
theorem isBoundary_iff_boundary_hit (t m M : Nat) (bs : Bytes)
    (h1 : m ≤ ((newBuzhash t m M).rollAll bs).count)
    (h2 : ((newBuzhash t m M).rollAll bs).count < M) :
    (((newBuzhash t m M).rollAll bs).isBoundary = true ↔
      ∃ i, i < bs.length ∧ m ≤ i + 1 ∧
        ((newBuzhash t m M).rollAll (bs.take (i + 1))).hash % t = 0) := by
  have hmin : ((newBuzhash t m M).rollAll bs).minSize = m :=
    rollAll_minSize _ _
  have hmax : ((newBuzhash t m M).rollAll bs).maxSize = M :=
    rollAll_maxSize _ _
  have hbd : ((newBuzhash t m M).rollAll bs).isBoundary
      = ((newBuzhash t m M).rollAll bs).boundaryHit := by
    unfold Buzhash.isBoundary
    rw [hmin, hmax, if_neg (by omega), if_neg (by omega)]
  rw [hbd]
  have := rollAll_boundaryHit_iff (newBuzhash t m M) bs rfl rfl
  simpa using this

theorem isBoundary_iff_boundary_hit_witness :
    (1 ≤ ((newBuzhash 1 1 10).rollAll [0, 0]).count ∧
     ((newBuzhash 1 1 10).rollAll [0, 0]).count < 10) ∧
    (((newBuzhash 1 1 10).rollAll [0, 0]).isBoundary = true ↔
      ∃ i, i < ([0, 0] : Bytes).length ∧ 1 ≤ i + 1 ∧
        ((newBuzhash 1 1 10).rollAll (([0, 0] : Bytes).take (i + 1))).hash % 1 = 0) :=
  ⟨⟨by decide, by decide⟩,
   isBoundary_iff_boundary_hit 1 1 10 [0, 0] (by decide) (by decide)⟩

/-! ## Zero table tail and hash independence (claim C10) -/

theorem relByte_refl (x : Nat) : RelByte x x := .inl rfl

theorem tableAt_eq_of_relByte {x y : Nat} (h : RelByte x y) :
    tableAt x = tableAt y := by
  rcases h with rfl | ⟨hx1, hx2, hy1, hy2⟩
  · rfl
  · have hz : ∀ i : Fin 256, 64 ≤ i.val → buzhashTable.getD i.val 0 = 0 := by decide
    unfold tableAt
    rw [if_pos hx2, if_pos hy2, hz ⟨x, hx2⟩ hx1, hz ⟨y, hy2⟩ hy1]

theorem forall₂_getD {R : Nat → Nat → Prop} {l1 l2 : List Nat}
    (h : List.Forall₂ R l1 l2) (d : Nat) (hd : R d d) (n : Nat) :
    R (l1.getD n d) (l2.getD n d) := by
  induction h generalizing n with
  | nil => simpa using hd
  | cons hab htl ih =>
      cases n with
      | zero => simpa using hab
      | succ k => simpa using ih k

theorem forall₂_set {R : Nat → Nat → Prop} {l1 l2 : List Nat}
    (h : List.Forall₂ R l1 l2) {a b : Nat} (hab : R a b) (n : Nat) :
    List.Forall₂ R (l1.set n a) (l2.set n b) := by
  induction h generalizing n with
  | nil => simp
  | cons hxy htl ih =>
      cases n with
      | zero => exact List.Forall₂.cons hab htl
      | succ k => exact List.Forall₂.cons hxy (ih k)

theorem buzRel_roll {b1 b2 : Buzhash} (hb : BuzRel b1 b2) {x y : Nat}
    (hxy : RelByte x y) : BuzRel (b1.roll x) (b2.roll y) := by
  obtain ⟨ht, hm, hM, hh, hp, hc, hf, hw⟩ := hb
  have hlen : b1.window.length = b2.window.length := hw.length_eq
  have hout : RelByte (b1.window.getD b1.pos 0) (b2.window.getD b2.pos 0) := by
    rw [hp]
    exact forall₂_getD hw 0 (relByte_refl 0) b2.pos
  have hhash : (b1.roll x).hash = (b2.roll y).hash := by
    show rotl32 b1.hash 1 ^^^ rotl32 (tableAt (b1.window.getD b1.pos 0)) b1.window.length
        ^^^ tableAt x
      = rotl32 b2.hash 1 ^^^ rotl32 (tableAt (b2.window.getD b2.pos 0)) b2.window.length
        ^^^ tableAt y
    rw [hh, hlen, tableAt_eq_of_relByte hout, tableAt_eq_of_relByte hxy]
  refine ⟨ht, hm, hM, hhash, ?_, ?_, ?_, ?_⟩
  · show (b1.pos + 1) % b1.window.length = (b2.pos + 1) % b2.window.length
    rw [hp, hlen]
  · show b1.count + 1 = b2.count + 1
    rw [hc]
  · show (if b1.minSize ≤ b1.count + 1 ∧ (b1.roll x).hash % b1.targetSize = 0
          then true else b1.boundaryHit)
      = (if b2.minSize ≤ b2.count + 1 ∧ (b2.roll y).hash % b2.targetSize = 0
          then true else b2.boundaryHit)
    rw [hm, hc, hhash, ht, hf]
  · show List.Forall₂ RelByte (b1.window.set b1.pos x) (b2.window.set b2.pos y)
    rw [hp]
    exact forall₂_set hw hxy b2.pos

theorem buzRel_rollAll {b1 b2 : Buzhash} (hb : BuzRel b1 b2)
    {bs1 bs2 : Bytes} (hbs : List.Forall₂ RelByte bs1 bs2) :
    BuzRel (b1.rollAll bs1) (b2.rollAll bs2) := by
  induction hbs generalizing b1 b2 with
  | nil => exact hb
  | cons hxy htl ih =>
      rw [rollAll_cons, rollAll_cons]
      exact ih (buzRel_roll hb hxy)

theorem buzRel_refl (b : Buzhash) : BuzRel b b :=
  ⟨rfl, rfl, rfl, rfl, rfl, rfl, rfl,
   List.forall₂_same.mpr fun x _ => relByte_refl x⟩

theorem buzRel_isBoundary {b1 b2 : Buzhash} (hb : BuzRel b1 b2) :
    b1.isBoundary = b2.isBoundary := by
  obtain ⟨ht, hm, hM, hh, hp, hc, hf, hw⟩ := hb
  unfold Buzhash.isBoundary
  rw [hm, hM, hc, hf]

theorem buzRel_reset {b1 b2 : Buzhash} (hb : BuzRel b1 b2) :
    BuzRel b1.reset b2.reset := by
  obtain ⟨ht, hm, hM, hh, hp, hc, hf, hw⟩ := hb
  have hlen : b1.window.length = b2.window.length := hw.length_eq
  refine ⟨ht, hm, hM, rfl, rfl, rfl, rfl, ?_⟩
  show List.Forall₂ RelByte (List.replicate b1.window.length 0)
      (List.replicate b2.window.length 0)
  rw [hlen]
  exact List.forall₂_same.mpr fun x _ => relByte_refl x

theorem chunkLoop_rel {h1 h2 : Buzhash} (hb : BuzRel h1 h2)
    {cur1 cur2 : List KVPair} (hcur : cur1.length = cur2.length) :
    ∀ {rest1 rest2 : List KVPair},
      List.Forall₂ (fun p q =>
        List.Forall₂ RelByte (serializeKVPair p) (serializeKVPair q)) rest1 rest2 →
      (chunkLoop h1 cur1 rest1).map List.length
        = (chunkLoop h2 cur2 rest2).map List.length := by
  intro rest1 rest2 hrel
  induction hrel generalizing h1 h2 cur1 cur2 with
  | nil =>
      simp only [chunkLoop]
      have hemp : cur1.isEmpty = cur2.isEmpty := by
        cases cur1 <;> cases cur2 <;> simp_all
      rw [hemp]
      by_cases hc : cur2.isEmpty = true
      · rw [if_pos hc, if_pos hc]
      · rw [if_neg hc, if_neg hc]
        simp [hcur]
  | @cons p q rest1' rest2' hpq htl ih =>
      simp only [chunkLoop]
      have hroll : BuzRel (h1.rollAll (serializeKVPair p))
          (h2.rollAll (serializeKVPair q)) := buzRel_rollAll hb hpq
      rw [buzRel_isBoundary hroll]
      by_cases hB : (h2.rollAll (serializeKVPair q)).isBoundary = true
      · rw [if_pos hB, if_pos hB]
        simp only [List.map_cons]
        rw [ih (buzRel_reset hroll) rfl]
        congr 1
        simp [hcur]
      · rw [if_neg hB, if_neg hB]
        exact ih hroll (by simp [hcur])

/-- C10: entries 64 through 255 of the buzhash table are zero; consequently
any two equal-length byte streams differing only at positions where both
streams hold bytes in 64..255 produce the same hash at every roll and the
same boundary verdicts, so the chunker cuts chunks of the same sizes for
pair sequences whose serializations are so related. -/
theorem buzhash_table_zero_tail :
    (∀ i, 64 ≤ i → i < 256 → buzhashTable.getD i 0 = 0) ∧
    (∀ (b0 : Buzhash) (bs1 bs2 : Bytes), List.Forall₂ RelByte bs1 bs2 →
      ∀ n, (b0.rollAll (bs1.take n)).hash = (b0.rollAll (bs2.take n)).hash ∧
        (b0.rollAll (bs1.take n)).isBoundary = (b0.rollAll (bs2.take n)).isBoundary) ∧
    (∀ (c : BuzhashChunker) (ps1 ps2 : List KVPair),
      List.Forall₂ (fun p q =>
        List.Forall₂ RelByte (serializeKVPair p) (serializeKVPair q)) ps1 ps2 →
      (c.chunk ps1).map List.length = (c.chunk ps2).map List.length) := by
  refine ⟨?_, ?_, ?_⟩
  · intro i h64 h256
    have hz : ∀ i : Fin 256, 64 ≤ i.val → buzhashTable.getD i.val 0 = 0 := by decide
    exact hz ⟨i, h256⟩ h64
  · intro b0 bs1 bs2 hrel n
    have h := buzRel_rollAll (buzRel_refl b0) (List.forall₂_take n hrel)
    exact ⟨h.2.2.2.1, buzRel_isBoundary h⟩
  · intro c ps1 ps2 hrel
    unfold BuzhashChunker.chunk
    have hemp : ps1.isEmpty = ps2.isEmpty := by
      cases hrel <;> rfl
    rw [hemp]
    by_cases hc : ps2.isEmpty = true
    · rw [if_pos hc, if_pos hc]
    · rw [if_neg hc, if_neg hc]
      exact chunkLoop_rel (buzRel_refl _) rfl hrel

theorem buzhash_table_zero_tail_witness :
    buzhashTable.getD 100 0 = 0 ∧
    ((newBuzhash 4096 512 16384).rollAll (([64] : Bytes).take 1)).hash
      = ((newBuzhash 4096 512 16384).rollAll (([65] : Bytes).take 1)).hash ∧
    (defaultChunker.chunk [⟨[1], [64]⟩]).map List.length
      = (defaultChunker.chunk [⟨[1], [65]⟩]).map List.length :=
  ⟨buzhash_table_zero_tail.1 100 (by decide) (by decide),
   (buzhash_table_zero_tail.2.1 (newBuzhash 4096 512 16384) [64] [65]
     (List.Forall₂.cons (by decide) List.Forall₂.nil) 1).1,
   buzhash_table_zero_tail.2.2 defaultChunker [⟨[1], [64]⟩] [⟨[1], [65]⟩]
     (List.Forall₂.cons (by decide) List.Forall₂.nil)⟩

/-! ## Node codec: encode-side facts and the round trip -/

theorem readU32_encode (n : Nat) (rest : Bytes) :
    readU32 (u32be n ++ rest) = some (n % 2 ^ 32, rest) := by
  simp only [u32be, readU32, List.cons_append, List.nil_append]
  congr 2
  omega

theorem readN_encode (xs rest : Bytes) :
    readN xs.length (xs ++ rest) = some (xs, rest) := by
  unfold readN
  rw [if_pos (by simp)]
  rw [List.take_left, List.drop_left]

theorem readN_encode' {n : Nat} (xs rest : Bytes) (h : xs.length = n) :
    readN n (xs ++ rest) = some (xs, rest) := by
  subst h
  exact readN_encode xs rest

theorem serializeKVPair_decomp (p : KVPair) (tail : Bytes) :
    serializeKVPair p ++ tail
      = u32be p.key.length ++ (p.key ++ (u32be p.value.length ++ (p.value ++ tail))) := by
  simp [serializeKVPair, List.append_assoc]

theorem readLeafPairs_encode (ps : List KVPair) (rest : Bytes)
    (hwf : ∀ p ∈ ps, wfPair p) :
    readLeafPairs ps.length ((ps.map serializeKVPair).flatten ++ rest)
      = some (ps, rest) := by
  induction ps with
  | nil => simp [readLeafPairs]
  | cons p ps ih =>
      have hp : wfPair p := hwf p (by simp)
      have hlen : (p :: ps).length = ps.length + 1 := rfl
      rw [hlen]
      show readLeafPairs (ps.length + 1)
          ((serializeKVPair p :: ps.map serializeKVPair).flatten ++ rest) = _
      rw [List.flatten_cons, List.append_assoc, serializeKVPair_decomp]
      unfold readLeafPairs
      rw [readU32_encode, Nat.mod_eq_of_lt hp.1]
      simp only [Option.bind_eq_bind, Option.some_bind]
      rw [readN_encode]
      simp only [Option.some_bind]
      rw [readU32_encode, Nat.mod_eq_of_lt hp.2]
      simp only [Option.some_bind]
      rw [readN_encode]
      simp only [Option.some_bind]
      rw [ih (fun q hq => hwf q (by simp [hq]))]
      simp

theorem serializeChildRef_decomp (r : ChildRef) (tail : Bytes) :
    serializeChildRef r ++ tail
      = u32be r.key.length ++ (r.key ++ (r.hash ++ tail)) := by
  simp [serializeChildRef, List.append_assoc]

theorem readChildRefs_encode (rs : List ChildRef) (rest : Bytes)
    (hwf : ∀ r ∈ rs, wfRef r) :
    readChildRefs rs.length ((rs.map serializeChildRef).flatten ++ rest)
      = some (rs, rest) := by
  induction rs with
  | nil => simp [readChildRefs]
  | cons r rs ih =>
      have hr : wfRef r := hwf r (by simp)
      have hlen : (r :: rs).length = rs.length + 1 := rfl
      rw [hlen]
      show readChildRefs (rs.length + 1)
          ((serializeChildRef r :: rs.map serializeChildRef).flatten ++ rest) = _
      rw [List.flatten_cons, List.append_assoc, serializeChildRef_decomp]
      unfold readChildRefs
      rw [readU32_encode, Nat.mod_eq_of_lt hr.1]
      simp only [Option.bind_eq_bind, Option.some_bind]
      rw [readN_encode]
      simp only [Option.some_bind]
      rw [readN_encode' _ _ hr.2]
      simp only [Option.some_bind]
      rw [ih (fun q hq => hwf q (by simp [hq]))]
      simp

theorem serializeLeafNode_length (ps : List KVPair) :
    5 ≤ (serializeLeafNode ps).length := by
  simp [serializeLeafNode, u32be]

theorem serializeInternalNode_length (rs : List ChildRef) :
    5 ≤ (serializeInternalNode rs).length := by
  simp [serializeInternalNode, u32be]

theorem deserializeLeafNode_encode (ps : List KVPair)
    (hcount : ps.length < 2 ^ 32) (hwf : ∀ p ∈ ps, wfPair p) :
    deserializeLeafNode (serializeLeafNode ps) = some ps := by
  have h5 := serializeLeafNode_length ps
  unfold deserializeLeafNode
  rw [if_neg (by omega)]
  show (if (1 : Nat) = 1 then _ else none) = _
  rw [if_pos rfl]
  have hdec : u32be ps.length ++ (ps.map serializeKVPair).flatten
      = u32be ps.length ++ ((ps.map serializeKVPair).flatten ++ []) := by simp
  rw [hdec, readU32_encode, Nat.mod_eq_of_lt hcount]
  simp only [Option.bind_eq_bind, Option.some_bind]
  rw [readLeafPairs_encode ps [] hwf]
  simp

theorem deserializeInternalNode_encode (rs : List ChildRef)
    (hcount : rs.length < 2 ^ 32) (hwf : ∀ r ∈ rs, wfRef r) :
    deserializeInternalNode (serializeInternalNode rs) = some rs := by
  have h5 := serializeInternalNode_length rs
  unfold deserializeInternalNode
  rw [if_neg (by omega)]
  show (if (2 : Nat) = 2 then _ else none) = _
  rw [if_pos rfl]
  have hdec : u32be rs.length ++ (rs.map serializeChildRef).flatten
      = u32be rs.length ++ ((rs.map serializeChildRef).flatten ++ []) := by simp
  rw [hdec, readU32_encode, Nat.mod_eq_of_lt hcount]
  simp only [Option.bind_eq_bind, Option.some_bind]
  rw [readChildRefs_encode rs [] hwf]
  simp

theorem deserializeNode_cons (t : Nat) (rest : Bytes) :
    deserializeNode (t :: rest)
      = if t = 1 then (deserializeLeafNode (t :: rest)).map .leaf
        else if t = 2 then (deserializeInternalNode (t :: rest)).map .internal
        else none := rfl

/-- Round trip: decoding a canonical encoding returns the encoded node. -/
theorem deserializeNode_encode (n : Node) (hwf : wfNode n) :
    deserializeNode (serializeNode n) = some n := by
  cases n with
  | leaf ps =>
      have hser : serializeNode (.leaf ps)
          = 1 :: (u32be ps.length ++ (ps.map serializeKVPair).flatten) := rfl
      rw [hser, deserializeNode_cons, if_pos rfl]
      have h := deserializeLeafNode_encode ps hwf.1 hwf.2
      unfold serializeLeafNode at h
      rw [h]
      rfl
  | internal rs =>
      have hser : serializeNode (.internal rs)
          = 2 :: (u32be rs.length ++ (rs.map serializeChildRef).flatten) := rfl
      rw [hser, deserializeNode_cons, if_neg (by norm_num), if_pos rfl]
      have h := deserializeInternalNode_encode rs hwf.1 hwf.2
      unfold serializeInternalNode at h
      rw [h]
      rfl

/-! ## Node codec: prefix stability and canonicality -/

theorem readU32_mono {d : Bytes} {v : Nat} {rem : Bytes}
    (h : readU32 d = some (v, rem)) (ext : Bytes) :
    readU32 (d ++ ext) = some (v, rem ++ ext) := by
  rcases d with _ | ⟨a, _ | ⟨b, _ | ⟨c, _ | ⟨e, rest⟩⟩⟩⟩ <;> simp [readU32] at h ⊢
  exact ⟨h.1, by rw [h.2]⟩

theorem readN_mono {n : Nat} {d xs rem : Bytes}
    (h : readN n d = some (xs, rem)) (ext : Bytes) :
    readN n (d ++ ext) = some (xs, rem ++ ext) := by
  unfold readN at h ⊢
  split at h
  · rename_i hle
    simp at h
    rw [if_pos (by simp; omega)]
    rw [List.take_append_of_le_length hle, List.drop_append_of_le_length hle]
    rw [h.1, h.2]
  · simp at h

theorem readLeafPairs_mono {c : Nat} {d : Bytes} {ps : List KVPair} {rem : Bytes}
    (h : readLeafPairs c d = some (ps, rem)) (ext : Bytes) :
    readLeafPairs c (d ++ ext) = some (ps, rem ++ ext) := by
  induction c generalizing d ps rem with
  | zero =>
      unfold readLeafPairs at h ⊢
      simp at h
      simp [h.1, h.2]
  | succ k ih =>
      unfold readLeafPairs at h ⊢
      rcases h1 : readU32 d with _ | ⟨klen, d1⟩
      · rw [h1] at h; simp at h
      · rw [h1] at h
        simp only [Option.bind_eq_bind, Option.some_bind] at h
        rcases h2 : readN klen d1 with _ | ⟨key, d2⟩
        · rw [h2] at h; simp at h
        · rw [h2] at h
          simp only [Option.some_bind] at h
          rcases h3 : readU32 d2 with _ | ⟨vlen, d3⟩
          · rw [h3] at h; simp at h
          · rw [h3] at h
            simp only [Option.some_bind] at h
            rcases h4 : readN vlen d3 with _ | ⟨value, d4⟩
            · rw [h4] at h; simp at h
            · rw [h4] at h
              simp only [Option.some_bind] at h
              rcases h5 : readLeafPairs k d4 with _ | ⟨ps', d5⟩
              · rw [h5] at h; simp at h
              · rw [h5] at h
                simp only [Option.some_bind] at h
                rw [readU32_mono h1 ext]
                simp only [Option.bind_eq_bind, Option.some_bind]
                rw [readN_mono h2 ext]
                simp only [Option.some_bind]
                rw [readU32_mono h3 ext]
                simp only [Option.some_bind]
                rw [readN_mono h4 ext]
                simp only [Option.some_bind]
                rw [ih h5]
                simp only [Option.some_bind]
                simp at h
                simp [h.1, h.2]

theorem readChildRefs_mono {c : Nat} {d : Bytes} {rs : List ChildRef} {rem : Bytes}
    (h : readChildRefs c d = some (rs, rem)) (ext : Bytes) :
    readChildRefs c (d ++ ext) = some (rs, rem ++ ext) := by
  induction c generalizing d rs rem with
  | zero =>
      unfold readChildRefs at h ⊢
      simp at h
      simp [h.1, h.2]
  | succ k ih =>
      unfold readChildRefs at h ⊢
      rcases h1 : readU32 d with _ | ⟨klen, d1⟩
      · rw [h1] at h; simp at h
      · rw [h1] at h
        simp only [Option.bind_eq_bind, Option.some_bind] at h
        rcases h2 : readN klen d1 with _ | ⟨key, d2⟩
        · rw [h2] at h; simp at h
        · rw [h2] at h
          simp only [Option.some_bind] at h
          rcases h3 : readN 32 d2 with _ | ⟨hsh, d3⟩
          · rw [h3] at h; simp at h
          · rw [h3] at h
            simp only [Option.some_bind] at h
            rcases h4 : readChildRefs k d3 with _ | ⟨rs', d4⟩
            · rw [h4] at h; simp at h
            · rw [h4] at h
              simp only [Option.some_bind] at h
              rw [readU32_mono h1 ext]
              simp only [Option.bind_eq_bind, Option.some_bind]
              rw [readN_mono h2 ext]
              simp only [Option.some_bind]
              rw [readN_mono h3 ext]
              simp only [Option.some_bind]
              rw [ih h4]
              simp only [Option.some_bind]
              simp at h
              simp [h.1, h.2]

theorem deserializeLeafNode_cons (t : Nat) (rest : Bytes) :
    deserializeLeafNode (t :: rest)
      = if (t :: rest).length < 5 then none
        else if t = 1 then
          (readU32 rest).bind fun x =>
            (readLeafPairs x.1 x.2).bind fun y =>
              if y.2.isEmpty then some y.1 else none
        else none := by
  unfold deserializeLeafNode
  split
  · rfl
  · show (match t :: rest with
      | t :: rest =>
          if t = 1 then _ else none
      | [] => none) = _
    rfl

theorem deserializeInternalNode_cons (t : Nat) (rest : Bytes) :
    deserializeInternalNode (t :: rest)
      = if (t :: rest).length < 5 then none
        else if t = 2 then
          (readU32 rest).bind fun x =>
            (readChildRefs x.1 x.2).bind fun y =>
              if y.2.isEmpty then some y.1 else none
        else none := by
  unfold deserializeInternalNode
  split
  · rfl
  · show (match t :: rest with
      | t :: rest =>
          if t = 2 then _ else none
      | [] => none) = _
    rfl

/-- A successfully decoded input followed by any nonempty extension is
rejected: the parse consumes the same content and then sees trailing bytes. -/
theorem deserializeNode_append_ne_nil {d : Bytes} {n : Node}
    (h : deserializeNode d = some n) {ext : Bytes} (hext : ext ≠ []) :
    deserializeNode (d ++ ext) = none := by
  rcases d with _ | ⟨t, rest⟩
  · simp [deserializeNode] at h
  · rw [List.cons_append, deserializeNode_cons]
    rw [deserializeNode_cons] at h
    by_cases ht1 : t = 1
    · rw [if_pos ht1] at h ⊢
      rcases hleaf : deserializeLeafNode (t :: rest) with _ | ps
      · rw [hleaf] at h; simp at h
      · rw [deserializeLeafNode_cons] at hleaf
        rw [deserializeLeafNode_cons]
        split at hleaf
        · simp at hleaf
        · rename_i hlen5
          rw [if_neg (by simp at hlen5 ⊢; omega)]
          rw [if_pos ht1]
          rcases h1 : readU32 rest with _ | ⟨count, d1⟩
          · rw [h1] at hleaf; simp at hleaf
          · rw [h1] at hleaf
            simp only [Option.some_bind] at hleaf
            rcases h2 : readLeafPairs count d1 with _ | ⟨ps', d2⟩
            · rw [h2] at hleaf; simp at hleaf
            · rw [h2] at hleaf
              simp only [Option.some_bind] at hleaf
              have hd2nil : d2 = [] := by
                rcases d2 with _ | ⟨w, ws⟩
                · rfl
                · rw [if_neg (by simp)] at hleaf
                  simp at hleaf
              rw [readU32_mono h1 ext]
              simp only [Option.some_bind]
              rw [readLeafPairs_mono h2 ext]
              simp only [Option.some_bind]
              rw [hd2nil]
              rw [if_neg (by cases ext <;> simp_all)]
              simp
    · rw [if_neg ht1] at h ⊢
      by_cases ht2 : t = 2
      · rw [if_pos ht2] at h ⊢
        rcases hint : deserializeInternalNode (t :: rest) with _ | rs
        · rw [hint] at h; simp at h
        · rw [deserializeInternalNode_cons] at hint
          rw [deserializeInternalNode_cons]
          split at hint
          · simp at hint
          · rename_i hlen5
            rw [if_neg (by simp at hlen5 ⊢; omega)]
            rw [if_pos ht2]
            rcases h1 : readU32 rest with _ | ⟨count, d1⟩
            · rw [h1] at hint; simp at hint
            · rw [h1] at hint
              simp only [Option.some_bind] at hint
              rcases h2 : readChildRefs count d1 with _ | ⟨rs', d2⟩
              · rw [h2] at hint; simp at hint
              · rw [h2] at hint
                simp only [Option.some_bind] at hint
                have hd2nil : d2 = [] := by
                  rcases d2 with _ | ⟨w, ws⟩
                  · rfl
                  · rw [if_neg (by simp)] at hint
                    simp at hint
                rw [readU32_mono h1 ext]
                simp only [Option.some_bind]
                rw [readChildRefs_mono h2 ext]
                simp only [Option.some_bind]
                rw [hd2nil]
                rw [if_neg (by cases ext <;> simp_all)]
                simp
      · rw [if_neg ht2] at h
        simp at h

theorem isByteString_append_left {a b : Bytes} (h : isByteString (a ++ b)) :
    isByteString a := fun x hx => h x (List.mem_append_left b hx)

theorem isByteString_append_right {a b : Bytes} (h : isByteString (a ++ b)) :
    isByteString b := fun x hx => h x (List.mem_append_right a hx)

theorem readU32_canonical {d : Bytes} {v : Nat} {rem : Bytes}
    (hbs : isByteString d) (h : readU32 d = some (v, rem)) :
    d = u32be v ++ rem ∧ v < 2 ^ 32 := by
  rcases d with _ | ⟨a, _ | ⟨b, _ | ⟨c, _ | ⟨e, rest⟩⟩⟩⟩ <;> simp [readU32] at h
  obtain ⟨hv, hrem⟩ := h
  have ha : a < 256 := hbs a (by simp)
  have hb : b < 256 := hbs b (by simp)
  have hc : c < 256 := hbs c (by simp)
  have he : e < 256 := hbs e (by simp)
  subst hrem
  constructor
  · rw [← hv]
    simp only [u32be, List.cons_append, List.nil_append, List.cons.injEq]
    refine ⟨by omega, by omega, by omega, by omega, trivial⟩
  · omega

theorem readN_canonical {n : Nat} {d xs rem : Bytes}
    (h : readN n d = some (xs, rem)) :
    d = xs ++ rem ∧ xs.length = n := by
  unfold readN at h
  split at h
  · rename_i hle
    simp at h
    obtain ⟨h1, h2⟩ := h
    subst h1
    subst h2
    exact ⟨(List.take_append_drop n d).symm, by rw [List.length_take]; omega⟩
  · simp at h

theorem readLeafPairs_canonical {c : Nat} {d : Bytes} {ps : List KVPair} {rem : Bytes}
    (hbs : isByteString d) (h : readLeafPairs c d = some (ps, rem)) :
    d = (ps.map serializeKVPair).flatten ++ rem ∧ ps.length = c ∧
      ∀ p ∈ ps, wfPair p := by
  induction c generalizing d ps rem with
  | zero =>
      unfold readLeafPairs at h
      simp at h
      obtain ⟨h1, h2⟩ := h
      subst h1
      subst h2
      simp
  | succ k ih =>
      unfold readLeafPairs at h
      rcases h1 : readU32 d with _ | ⟨klen, d1⟩ <;> rw [h1] at h
      · simp at h
      simp only [Option.bind_eq_bind, Option.some_bind] at h
      rcases h2 : readN klen d1 with _ | ⟨key, d2⟩ <;> rw [h2] at h
      · simp at h
      simp only [Option.some_bind] at h
      rcases h3 : readU32 d2 with _ | ⟨vlen, d3⟩ <;> rw [h3] at h
      · simp at h
      simp only [Option.some_bind] at h
      rcases h4 : readN vlen d3 with _ | ⟨value, d4⟩ <;> rw [h4] at h
      · simp at h
      simp only [Option.some_bind] at h
      rcases h5 : readLeafPairs k d4 with _ | ⟨ps', d5⟩ <;> rw [h5] at h
      · simp at h
      simp only [Option.some_bind] at h
      simp at h
      obtain ⟨hps, hrem⟩ := h
      obtain ⟨hd, hklen⟩ := readU32_canonical hbs h1
      have hbs1 : isByteString d1 := isByteString_append_right (hd ▸ hbs)
      obtain ⟨hd1, hkeylen⟩ := readN_canonical h2
      have hbs2 : isByteString d2 :=
        isByteString_append_right (hd1 ▸ hbs1)
      obtain ⟨hd2, hvlen⟩ := readU32_canonical hbs2 h3
      have hbs3 : isByteString d3 := isByteString_append_right (hd2 ▸ hbs2)
      obtain ⟨hd3, hvallen⟩ := readN_canonical h4
      have hbs4 : isByteString d4 := isByteString_append_right (hd3 ▸ hbs3)
      obtain ⟨hd4, hlen', hwf'⟩ := ih hbs4 h5
      subst hps
      subst hrem
      refine ⟨?_, by simp [hlen'], ?_⟩
      · rw [hd, hd1, hd2, hd3, hd4]
        rw [List.map_cons, List.flatten_cons, List.append_assoc,
          serializeKVPair_decomp]
        simp only [hkeylen, hvallen]
      · intro p hp
        rcases List.mem_cons.mp hp with hp | hp
        · subst hp
          exact ⟨by show key.length < 2 ^ 32; omega,
                 by show value.length < 2 ^ 32; omega⟩
        · exact hwf' p hp

theorem readChildRefs_canonical {c : Nat} {d : Bytes} {rs : List ChildRef} {rem : Bytes}
    (hbs : isByteString d) (h : readChildRefs c d = some (rs, rem)) :
    d = (rs.map serializeChildRef).flatten ++ rem ∧ rs.length = c ∧
      ∀ r ∈ rs, wfRef r := by
  induction c generalizing d rs rem with
  | zero =>
      unfold readChildRefs at h
      simp at h
      obtain ⟨h1, h2⟩ := h
      subst h1
      subst h2
      simp
  | succ k ih =>
      unfold readChildRefs at h
      rcases h1 : readU32 d with _ | ⟨klen, d1⟩ <;> rw [h1] at h
      · simp at h
      simp only [Option.bind_eq_bind, Option.some_bind] at h
      rcases h2 : readN klen d1 with _ | ⟨key, d2⟩ <;> rw [h2] at h
      · simp at h
      simp only [Option.some_bind] at h
      rcases h3 : readN 32 d2 with _ | ⟨hsh, d3⟩ <;> rw [h3] at h
      · simp at h
      simp only [Option.some_bind] at h
      rcases h4 : readChildRefs k d3 with _ | ⟨rs', d4⟩ <;> rw [h4] at h
      · simp at h
      simp only [Option.some_bind] at h
      simp at h
      obtain ⟨hrs, hrem⟩ := h
      obtain ⟨hd, hklen⟩ := readU32_canonical hbs h1
      have hbs1 : isByteString d1 := isByteString_append_right (hd ▸ hbs)
      obtain ⟨hd1, hkeylen⟩ := readN_canonical h2
      have hbs2 : isByteString d2 := isByteString_append_right (hd1 ▸ hbs1)
      obtain ⟨hd2, hshlen⟩ := readN_canonical h3
      have hbs3 : isByteString d3 := isByteString_append_right (hd2 ▸ hbs2)
      obtain ⟨hd3, hlen', hwf'⟩ := ih hbs3 h4
      subst hrs
      subst hrem
      refine ⟨?_, by simp [hlen'], ?_⟩
      · rw [hd, hd1, hd2, hd3]
        rw [List.map_cons, List.flatten_cons, List.append_assoc,
          serializeChildRef_decomp]
        simp only [hkeylen]
      · intro r hr
        rcases List.mem_cons.mp hr with hr | hr
        · subst hr
          exact ⟨by show key.length < 2 ^ 32; omega,
                 by show hsh.length = 32; omega⟩
        · exact hwf' r hr

theorem deserializeLeafNode_canonical {d : Bytes} {ps : List KVPair}
    (hbs : isByteString d) (h : deserializeLeafNode d = some ps) :
    d = serializeLeafNode ps ∧ wfNode (.leaf ps) := by
  rcases d with _ | ⟨t, rest⟩
  · simp [deserializeLeafNode] at h
  · rw [deserializeLeafNode_cons] at h
    split at h
    · simp at h
    · split at h
      · rename_i ht1
        subst ht1
        rcases h1 : readU32 rest with _ | ⟨count, d1⟩ <;> rw [h1] at h
        · simp at h
        simp only [Option.some_bind] at h
        rcases h2 : readLeafPairs count d1 with _ | ⟨ps', d2⟩ <;> rw [h2] at h
        · simp at h
        simp only [Option.some_bind] at h
        have hbrest : isByteString rest := fun x hx => hbs x (by simp [hx])
        rcases d2 with _ | ⟨w, ws⟩
        · simp at h
          subst h
          obtain ⟨hd, hcount⟩ := readU32_canonical hbrest h1
          have hbs1 : isByteString d1 := isByteString_append_right (hd ▸ hbrest)
          obtain ⟨hd1, hlen, hwf⟩ := readLeafPairs_canonical hbs1 h2
          refine ⟨?_, ?_, hwf⟩
          · rw [List.append_nil] at hd1
            unfold serializeLeafNode
            rw [hd, hd1, hlen]
          · rw [hlen]
            exact hcount
        · rw [if_neg (by simp)] at h
          simp at h
      · simp at h

theorem deserializeInternalNode_canonical {d : Bytes} {rs : List ChildRef}
    (hbs : isByteString d) (h : deserializeInternalNode d = some rs) :
    d = serializeInternalNode rs ∧ wfNode (.internal rs) := by
  rcases d with _ | ⟨t, rest⟩
  · simp [deserializeInternalNode] at h
  · rw [deserializeInternalNode_cons] at h
    split at h
    · simp at h
    · split at h
      · rename_i ht2
        subst ht2
        rcases h1 : readU32 rest with _ | ⟨count, d1⟩ <;> rw [h1] at h
        · simp at h
        simp only [Option.some_bind] at h
        rcases h2 : readChildRefs count d1 with _ | ⟨rs', d2⟩ <;> rw [h2] at h
        · simp at h
        simp only [Option.some_bind] at h
        have hbrest : isByteString rest := fun x hx => hbs x (by simp [hx])
        rcases d2 with _ | ⟨w, ws⟩
        · simp at h
          subst h
          obtain ⟨hd, hcount⟩ := readU32_canonical hbrest h1
          have hbs1 : isByteString d1 := isByteString_append_right (hd ▸ hbrest)
          obtain ⟨hd1, hlen, hwf⟩ := readChildRefs_canonical hbs1 h2
          refine ⟨?_, ?_, hwf⟩
          · rw [List.append_nil] at hd1
            unfold serializeInternalNode
            rw [hd, hd1, hlen]
          · rw [hlen]
            exact hcount
        · rw [if_neg (by simp)] at h
          simp at h
      · simp at h

/-- C9: node decoding accepts exactly the canonical encodings.  Any accepted
input is byte-for-byte the serialization of the returned node; empty input
and unknown tag bytes are rejected; a canonical encoding followed by
trailing bytes is rejected; and any strict prefix of a canonical encoding —
insufficient bytes for some declared field — is rejected.  All failures are
the data-corruption error, the codec's only error. -/
theorem deserializeNode_rejects_malformed :
    (∀ (d : Bytes) (n : Node), isByteString d → deserializeNode d = some n →
        serializeNode n = d ∧ wfNode n) ∧
    (∀ d : Bytes, (∀ t, d.head? = some t → t ≠ 1 ∧ t ≠ 2) →
        deserializeNode d = none) ∧
    (∀ (n : Node) (rest : Bytes), wfNode n → rest ≠ [] →
        deserializeNode (serializeNode n ++ rest) = none) ∧
    (∀ (n : Node) (k : Nat), wfNode n → k < (serializeNode n).length →
        deserializeNode ((serializeNode n).take k) = none) := by
  refine ⟨?_, ?_, ?_, ?_⟩
  · intro d n hbs h
    rcases d with _ | ⟨t, rest⟩
    · simp [deserializeNode] at h
    · rw [deserializeNode_cons] at h
      by_cases ht1 : t = 1
      · rw [if_pos ht1] at h
        rcases hleaf : deserializeLeafNode (t :: rest) with _ | ps <;> rw [hleaf] at h
        · simp at h
        · simp at h
          obtain ⟨hd, hwf⟩ := deserializeLeafNode_canonical hbs hleaf
          subst h
          exact ⟨by subst ht1; exact hd.symm, hwf⟩
      · rw [if_neg ht1] at h
        by_cases ht2 : t = 2
        · rw [if_pos ht2] at h
          rcases hint : deserializeInternalNode (t :: rest) with _ | rs <;> rw [hint] at h
          · simp at h
          · simp at h
            obtain ⟨hd, hwf⟩ := deserializeInternalNode_canonical hbs hint
            subst h
            exact ⟨by subst ht2; exact hd.symm, hwf⟩
        · rw [if_neg ht2] at h
          simp at h
  · intro d htag
    rcases d with _ | ⟨t, rest⟩
    · rfl
    · have := htag t (by simp)
      rw [deserializeNode_cons, if_neg this.1, if_neg this.2]
  · intro n rest hwf hrest
    exact deserializeNode_append_ne_nil (deserializeNode_encode n hwf) hrest
  · intro n k hwf hk
    rcases hdec : deserializeNode ((serializeNode n).take k) with _ | m
    · rfl
    · exfalso
      have hdropne : (serializeNode n).drop k ≠ [] := by
        intro hnil
        have := congrArg List.length hnil
        simp at this
        omega
      have hnone := deserializeNode_append_ne_nil hdec hdropne
      rw [List.take_append_drop] at hnone
      rw [deserializeNode_encode n hwf] at hnone
      simp at hnone

theorem deserializeNode_rejects_malformed_witness :
    (serializeNode (.leaf []) = [1, 0, 0, 0, 0] ∧ wfNode (.leaf [])) ∧
    deserializeNode [7, 0, 0, 0, 0] = none ∧
    deserializeNode (serializeNode (.leaf []) ++ [0]) = none ∧
    deserializeNode ((serializeNode (.leaf [])).take 2) = none :=
  ⟨deserializeNode_rejects_malformed.1 [1, 0, 0, 0, 0] (.leaf [])
      (by decide) (by decide),
   deserializeNode_rejects_malformed.2.1 [7, 0, 0, 0, 0]
      (by intro t ht; simp at ht; omega),
   deserializeNode_rejects_malformed.2.2.1 (.leaf []) [0] (by decide) (by decide),
   deserializeNode_rejects_malformed.2.2.2 (.leaf []) 2 (by decide) (by decide)⟩

/-! ## CAS facts -/

theorem casRead_wf {H : Bytes → Bytes} {cas : CAS} (hwf : casWF H cas)
    {h v : Bytes} (hr : casRead cas h = some v) : h = H v := by
  induction cas with
  | nil => simp [casRead] at hr
  | cons e rest ih =>
      obtain ⟨k, w⟩ := e
      simp only [casRead] at hr
      by_cases hk : k = h
      · rw [if_pos hk] at hr
        obtain rfl : w = v := by injection hr
        have hk2 : k = H w := hwf (k, w) (List.mem_cons_self _ _)
        rw [← hk]; exact hk2
      · rw [if_neg hk] at hr
        exact ih (fun e he => hwf e (List.mem_cons_of_mem _ he)) hr

theorem casWrite_fst (H : Bytes → Bytes) (cas : CAS) (data : Bytes) :
    (casWrite H cas data).1 = H data := by
  simp only [casWrite]
  cases hr : casRead cas (H data) <;> rfl

theorem casRead_write_self {H : Bytes → Bytes} (hInj : Function.Injective H)
    {cas : CAS} (hwf : casWF H cas) (data : Bytes) :
    casRead (casWrite H cas data).2 (H data) = some data := by
  simp only [casWrite]
  cases hr : casRead cas (H data) with
  | none => simp [casRead]
  | some v =>
      have hd : data = v := hInj (casRead_wf hwf hr)
      show casRead cas (H data) = some data
      rw [hr]
      exact congrArg some hd.symm

theorem casExtends_refl (cas : CAS) : casExtends cas cas := fun _ _ h => h

theorem casExtends_trans {a b c : CAS} (h1 : casExtends a b)
    (h2 : casExtends b c) : casExtends a c :=
  fun h v hr => h2 h v (h1 h v hr)

theorem casExtends_write (H : Bytes → Bytes) (cas : CAS) (data : Bytes) :
    casExtends cas (casWrite H cas data).2 := by
  intro h v hr
  simp only [casWrite]
  cases hq : casRead cas (H data) with
  | some w => exact hr
  | none =>
      show casRead ((H data, data) :: cas) h = some v
      simp only [casRead]
      by_cases hh : H data = h
      · rw [hh] at hq; rw [hq] at hr; cases hr
      · rw [if_neg hh]; exact hr

theorem casWF_write {H : Bytes → Bytes} {cas : CAS} (hwf : casWF H cas)
    (data : Bytes) : casWF H (casWrite H cas data).2 := by
  simp only [casWrite]
  cases hq : casRead cas (H data) with
  | some w => exact hwf
  | none =>
      intro e he
      rcases List.mem_cons.mp he with rfl | he
      · rfl
      · exact hwf e he

theorem storeNode_spec {H : Bytes → Bytes} (hInj : Function.Injective H)
    {cas : CAS} (hwf : casWF H cas) (n : Node) :
    (storeNode H cas n).1 = H (serializeNode n) ∧
    casRead (storeNode H cas n).2 (H (serializeNode n)) =
      some (serializeNode n) ∧
    casWF H (storeNode H cas n).2 ∧ casExtends cas (storeNode H cas n).2 :=
  ⟨casWrite_fst H cas (serializeNode n), casRead_write_self hInj hwf _,
   casWF_write hwf _, casExtends_write H cas (serializeNode n)⟩

theorem PT_mono_cas {c1 c2 : CAS} (hext : casExtends c1 c2)
    {h : Bytes} {ps : List KVPair} {d : Nat} (hpt : PT c1 h ps d) :
    PT c2 h ps d := by
  induction hpt with
  | leaf h ps d hread hwf => exact .leaf h ps d (hext _ _ hread) hwf
  | internal h refs pss d hread hwf hne hlen hchild hkeys ih =>
      exact .internal h refs pss d (hext _ _ hread) hwf hne hlen ih hkeys

theorem RefsInv_mono_cas {c1 c2 : CAS} (hext : casExtends c1 c2)
    {d : Nat} {refs : List ChildRef} {pss : List (List KVPair)}
    (h : RefsInv c1 d refs pss) : RefsInv c2 d refs pss :=
  h.imp fun _ _ hr => ⟨PT_mono_cas hext hr.1, hr.2.1, hr.2.2⟩

/-! ## Chunk structure -/

theorem chunkLoop_flatten (hasher : Buzhash) (cur rest : List KVPair) :
    (chunkLoop hasher cur rest).flatten = cur ++ rest := by
  induction rest generalizing hasher cur with
  | nil => cases cur <;> simp [chunkLoop]
  | cons p rest ih =>
      simp only [chunkLoop]
      split
      · simp [ih]
      · simp [ih]

theorem chunk_flatten (c : BuzhashChunker) (pairs : List KVPair) :
    (c.chunk pairs).flatten = pairs := by
  unfold BuzhashChunker.chunk
  split
  · rename_i he
    cases pairs with
    | nil => rfl
    | cons a t => simp at he
  · simpa using chunkLoop_flatten (newBuzhash c.targetSize c.minSize c.maxSize) [] pairs

theorem chunkLoop_ne_nil (hasher : Buzhash) (cur rest : List KVPair) :
    ∀ ch ∈ chunkLoop hasher cur rest, ch ≠ [] := by
  induction rest generalizing hasher cur with
  | nil =>
      intro ch hch
      simp only [chunkLoop] at hch
      split at hch
      · cases hch
      · rename_i hemp
        rcases List.mem_singleton.mp hch with rfl
        cases ch with
        | nil => simp at hemp
        | cons a t => simp
  | cons p rest ih =>
      intro ch hch
      simp only [chunkLoop] at hch
      split at hch
      · rcases List.mem_cons.mp hch with rfl | hch
        · simp
        · exact ih _ _ ch hch
      · exact ih _ _ ch hch

theorem chunk_ne_nil (c : BuzhashChunker) (pairs : List KVPair) :
    ∀ ch ∈ c.chunk pairs, ch ≠ [] := by
  unfold BuzhashChunker.chunk
  split
  · intro ch hch; cases hch
  · exact chunkLoop_ne_nil _ [] pairs

theorem chunk_mem_mem {c : BuzhashChunker} {pairs : List KVPair}
    {ch : List KVPair} (hch : ch ∈ c.chunk pairs) {p : KVPair}
    (hp : p ∈ ch) : p ∈ pairs := by
  rw [← chunk_flatten c pairs]
  exact List.mem_flatten.mpr ⟨ch, hch, hp⟩

/-! ## splitByLens facts -/

theorem splitByLens_length {α : Type} (lens : List Nat) :
    ∀ l : List α, (splitByLens l lens).length = lens.length := by
  induction lens with
  | nil => intro l; rfl
  | cons n rest ih => intro l; simp [splitByLens, ih]

theorem splitByLens_flatten {α : Type} : ∀ (lens : List Nat) (l : List α),
    lens.sum = l.length → (splitByLens l lens).flatten = l := by
  intro lens
  induction lens with
  | nil =>
      intro l h
      have hl : l = [] := List.length_eq_zero.mp (by simpa using h.symm)
      simp [splitByLens, hl]
  | cons n rest ih =>
      intro l h
      simp only [splitByLens, List.flatten_cons]
      rw [ih (l.drop n) (by simp at h ⊢; omega)]
      exact List.take_append_drop n l

theorem splitByLens_forall₂ {α β : Type} {R : α → β → Prop} :
    ∀ (lens : List Nat) {l1 : List α} {l2 : List β}, List.Forall₂ R l1 l2 →
      List.Forall₂ (List.Forall₂ R) (splitByLens l1 lens)
        (splitByLens l2 lens) := by
  intro lens
  induction lens with
  | nil => intro l1 l2 _; exact .nil
  | cons n rest ih =>
      intro l1 l2 h
      exact .cons (List.forall₂_take n h) (ih (List.forall₂_drop n h))

theorem splitByLens_map_length {α : Type} : ∀ (lens : List Nat) (l : List α),
    lens.sum = l.length → (splitByLens l lens).map List.length = lens := by
  intro lens
  induction lens with
  | nil => intro l _; rfl
  | cons n rest ih =>
      intro l h
      simp only [splitByLens, List.map_cons]
      rw [ih (l.drop n) (by simp at h ⊢; omega)]
      simp at h ⊢
      omega

theorem mem_splitByLens_sub {α : Type} : ∀ (lens : List Nat) (l : List α),
    ∀ ch ∈ splitByLens l lens, ∀ x ∈ ch, x ∈ l := by
  intro lens
  induction lens with
  | nil => intro l ch hch; cases hch
  | cons n rest ih =>
      intro l ch hch x hx
      rcases List.mem_cons.mp hch with rfl | hch
      · exact List.mem_of_mem_take hx
      · exact List.mem_of_mem_drop (ih (l.drop n) ch hch x hx)

theorem splitByLens_chunk_length_le {α : Type} : ∀ (lens : List Nat)
    (l : List α), ∀ ch ∈ splitByLens l lens, ch.length ≤ l.length := by
  intro lens
  induction lens with
  | nil => intro l ch hch; cases hch
  | cons n rest ih =>
      intro l ch hch
      rcases List.mem_cons.mp hch with rfl | hch
      · simp [List.length_take]
      · calc ch.length ≤ (l.drop n).length := ih (l.drop n) ch hch
          _ ≤ l.length := by simp

theorem mem_flatten_length_le {α : Type} (L : List (List α)) :
    ∀ ch ∈ L, ch.length ≤ L.flatten.length := by
  induction L with
  | nil => intro ch hch; cases hch
  | cons a t ih =>
      intro ch hch
      rcases List.mem_cons.mp hch with rfl | hch
      · simp
      · calc ch.length ≤ t.flatten.length := ih ch hch
          _ ≤ ((a :: t).flatten).length := by simp

theorem length_le_flatten_length {α : Type} (L : List (List α))
    (h : ∀ ch ∈ L, ch ≠ []) : L.length ≤ L.flatten.length := by
  induction L with
  | nil => simp
  | cons a t ih =>
      have ha : a ≠ [] := h a (List.mem_cons_self _ _)
      have h1 : 1 ≤ a.length := by
        cases a with
        | nil => exact absurd rfl ha
        | cons x xs => simp
      have := ih fun ch hch => h ch (List.mem_cons_of_mem _ hch)
      simp only [List.length_cons, List.flatten_cons, List.length_append]
      omega

theorem flatten_map_flatten {α : Type} (L : List (List (List α))) :
    (L.map List.flatten).flatten = L.flatten.flatten := by
  induction L <;> simp [*]

theorem firstKey_append {ps qs : List KVPair} (h : ps ≠ []) :
    firstKey (ps ++ qs) = firstKey ps := by
  cases ps with
  | nil => exact absurd rfl h
  | cons a t => rfl

/-! ## Layer construction -/

theorem buildLeafNodes_spec {H : Bytes → Bytes} (hInj : Function.Injective H) :
    ∀ (chunks : List (List KVPair)) {cas : CAS}, casWF H cas →
      casWF H (buildLeafNodes H cas chunks).2 ∧
      casExtends cas (buildLeafNodes H cas chunks).2 ∧
      List.Forall₂ (fun (ch : List KVPair) (r : ChildRef) =>
          r.key = firstKey ch ∧ r.hash = H (serializeNode (.leaf ch)) ∧
          casRead (buildLeafNodes H cas chunks).2 r.hash =
            some (serializeNode (.leaf ch)))
        chunks (buildLeafNodes H cas chunks).1 := by
  intro chunks
  induction chunks with
  | nil => intro cas hwf; exact ⟨hwf, casExtends_refl cas, .nil⟩
  | cons ch rest ih =>
      intro cas hwf
      obtain ⟨hfst, hread1, hwf1, hext1⟩ := storeNode_spec hInj hwf (.leaf ch)
      obtain ⟨hwf2, hext2, hf2⟩ := ih hwf1
      simp only [buildLeafNodes]
      refine ⟨hwf2, casExtends_trans hext1 hext2, .cons ⟨rfl, hfst, ?_⟩ hf2⟩
      rw [hfst]
      exact hext2 _ _ hread1

theorem buildInternalChunks_spec {H : Bytes → Bytes}
    (hInj : Function.Injective H) :
    ∀ (chunks : List (List ChildRef)) {cas : CAS}, casWF H cas →
      casWF H (buildInternalChunks H cas chunks).2 ∧
      casExtends cas (buildInternalChunks H cas chunks).2 ∧
      List.Forall₂ (fun (ch : List ChildRef) (r : ChildRef) =>
          r.key = firstRefKey ch ∧ r.hash = H (serializeNode (.internal ch)) ∧
          casRead (buildInternalChunks H cas chunks).2 r.hash =
            some (serializeNode (.internal ch)))
        chunks (buildInternalChunks H cas chunks).1 := by
  intro chunks
  induction chunks with
  | nil => intro cas hwf; exact ⟨hwf, casExtends_refl cas, .nil⟩
  | cons ch rest ih =>
      intro cas hwf
      obtain ⟨hfst, hread1, hwf1, hext1⟩ := storeNode_spec hInj hwf (.internal ch)
      obtain ⟨hwf2, hext2, hf2⟩ := ih hwf1
      simp only [buildInternalChunks]
      refine ⟨hwf2, casExtends_trans hext1 hext2, .cons ⟨rfl, hfst, ?_⟩ hf2⟩
      rw [hfst]
      exact hext2 _ _ hread1

theorem PT_internal_of_inv {cas : CAS} {d : Nat} {refs : List ChildRef}
    {pss : List (List KVPair)} {h : Bytes}
    (hinv : RefsInv cas d refs pss)
    (hread : casRead cas h = some (serializeNode (.internal refs)))
    (hne : refs ≠ []) (hlenb : refs.length < 2 ^ 32) :
    PT cas h pss.flatten (d + 1) := by
  have hF : List.Forall₂ (fun r ps =>
      PT cas r.hash ps d ∧ ps ≠ [] ∧ firstKey ps = r.key ∧ wfRef r)
      refs pss := hinv
  have hlen : refs.length = pss.length := hF.length_eq
  have hget := (List.forall₂_iff_get.mp hF).2
  refine .internal h refs pss d hread ⟨hlenb, ?_⟩ hne hlen ?_ ?_
  · intro r hr
    obtain ⟨⟨i, hi⟩, rfl⟩ := List.mem_iff_get.mp hr
    exact (hget i hi (hlen ▸ hi)).2.2.2
  · intro i hi
    exact (hget i hi (hlen ▸ hi)).1
  · intro i hi
    exact ⟨(hget i hi (hlen ▸ hi)).2.1, (hget i hi (hlen ▸ hi)).2.2.1⟩

theorem RefsInv_parents {H : Bytes → Bytes} (HL : ∀ b, (H b).length = 32)
    {cas₂ : CAS} {d : Nat} :
    ∀ {refChunks : List (List ChildRef)} {parents : List ChildRef}
      {pssChunks : List (List (List KVPair))},
      List.Forall₂ (fun ch r =>
        r.key = firstRefKey ch ∧ r.hash = H (serializeNode (.internal ch)) ∧
        casRead cas₂ r.hash = some (serializeNode (.internal ch)))
        refChunks parents →
      List.Forall₂ (RefsInv cas₂ d) refChunks pssChunks →
      (∀ ch ∈ refChunks, ch ≠ []) →
      (∀ ch ∈ refChunks, ch.length < 2 ^ 32) →
      RefsInv cas₂ (d + 1) parents (pssChunks.map List.flatten) := by
  intro refChunks parents pssChunks hspec
  induction hspec generalizing pssChunks with
  | nil =>
      intro hsplit _ _
      cases hsplit
      exact .nil
  | cons hS _ ih =>
      rename_i ch r chs rs _
      intro hsplit hne hbound
      cases hsplit with
      | cons hR hrestR =>
          rename_i pc pcs
          obtain ⟨hkey, hhash, hread⟩ := hS
          have hne1 : ch ≠ [] := hne ch (List.mem_cons_self _ _)
          have hb1 : ch.length < 2 ^ 32 := hbound ch (List.mem_cons_self _ _)
          have hpt : PT cas₂ r.hash pc.flatten (d + 1) :=
            PT_internal_of_inv hR (hhash ▸ hread) hne1 hb1
          have hRF : List.Forall₂ (fun r ps =>
              PT cas₂ r.hash ps d ∧ ps ≠ [] ∧ firstKey ps = r.key ∧ wfRef r)
              ch pc := hR
          obtain ⟨r0, ct, rfl⟩ : ∃ r0 ct, ch = r0 :: ct := by
            cases ch with
            | nil => exact absurd rfl hne1
            | cons a t => exact ⟨a, t, rfl⟩
          cases hRF with
          | cons h0 hrest0 =>
              rename_i p0 pt
              refine .cons ⟨hpt, ?_, ?_, ?_, ?_⟩
                (ih hrestR (fun c hc => hne c (List.mem_cons_of_mem _ hc))
                  (fun c hc => hbound c (List.mem_cons_of_mem _ hc)))
              · have hp0 : p0 ≠ [] := h0.2.1
                cases p0 with
                | nil => exact absurd rfl hp0
                | cons q qt => simp [List.flatten_cons]
              · rw [List.flatten_cons, firstKey_append h0.2.1, h0.2.2.1, hkey]
                rfl
              · rw [hkey]
                exact h0.2.2.2.1
              · rw [hhash]
                exact HL _

theorem RefsInv_leaves {H : Bytes → Bytes} (HL : ∀ b, (H b).length = 32)
    {cas₁ : CAS} :
    ∀ {chunks : List (List KVPair)} {leafRefs : List ChildRef},
      List.Forall₂ (fun ch r =>
        r.key = firstKey ch ∧ r.hash = H (serializeNode (.leaf ch)) ∧
        casRead cas₁ r.hash = some (serializeNode (.leaf ch)))
        chunks leafRefs →
      (∀ ch ∈ chunks, ch ≠ []) →
      (∀ ch ∈ chunks, wfNode (.leaf ch)) →
      RefsInv cas₁ 0 leafRefs chunks := by
  intro chunks leafRefs hspec
  induction hspec with
  | nil => intro _ _; exact .nil
  | cons hS _ ih =>
      rename_i ch r chs rs _
      intro hne hwf
      obtain ⟨hkey, hhash, hread⟩ := hS
      have hne1 : ch ≠ [] := hne ch (List.mem_cons_self _ _)
      have hwf1 : wfNode (.leaf ch) := hwf ch (List.mem_cons_self _ _)
      refine .cons ⟨.leaf r.hash ch 0 (hhash ▸ hread) hwf1, hne1, hkey.symm, ?_, ?_⟩
        (ih (fun c hc => hne c (List.mem_cons_of_mem _ hc))
          (fun c hc => hwf c (List.mem_cons_of_mem _ hc)))
      · rw [hkey]
        cases ch with
        | nil => exact absurd rfl hne1
        | cons p pt =>
            have := hwf1.2 p (List.mem_cons_self _ _)
            exact this.1
      · rw [hhash]
        exact HL _

theorem buildInternalLayers_nil (H : Bytes → Bytes) (c : BuzhashChunker) :
    ∀ fuel cas, buildInternalLayers H c fuel cas [] = none := by
  intro fuel
  induction fuel with
  | zero => intro cas; rfl
  | succ f ih =>
      intro cas
      simp only [buildInternalLayers, chunkChildRefs, List.isEmpty_nil]
      simp only [if_pos rfl, buildInternalChunks]
      exact ih cas

theorem buildInternalLayers_singleton (H : Bytes → Bytes) (c : BuzhashChunker)
    (fuel : Nat) (cas : CAS) (r : ChildRef) :
    buildInternalLayers H c fuel cas [r] = some (r.hash, cas) := by
  cases fuel <;> rfl

theorem buildInternalLayers_zero₂ (H : Bytes → Bytes) (c : BuzhashChunker)
    (cas : CAS) (r1 r2 : ChildRef) (rest : List ChildRef) :
    buildInternalLayers H c 0 cas (r1 :: r2 :: rest) = none := rfl

theorem buildInternalLayers_cons₂ (H : Bytes → Bytes) (c : BuzhashChunker)
    (f : Nat) (cas : CAS) (r1 r2 : ChildRef) (rest : List ChildRef) :
    buildInternalLayers H c (f + 1) cas (r1 :: r2 :: rest) =
      buildInternalLayers H c f
        (buildInternalChunks H cas (chunkChildRefs c (r1 :: r2 :: rest))).2
        (buildInternalChunks H cas (chunkChildRefs c (r1 :: r2 :: rest))).1 :=
  rfl

theorem layers_singleton_inv {cas : CAS} {r : ChildRef}
    {pss : List (List KVPair)} {d : Nat} (hinv : RefsInv cas d [r] pss) :
    PT cas r.hash pss.flatten d := by
  have hinvF : List.Forall₂ (fun r ps =>
      PT cas r.hash ps d ∧ ps ≠ [] ∧ firstKey ps = r.key ∧ wfRef r)
      [r] pss := hinv
  cases hinvF with
  | cons h0 htail =>
      cases htail
      simpa using h0.1

theorem buildStep_inv {H : Bytes → Bytes} (hInj : Function.Injective H)
    (HL : ∀ b, (H b).length = 32) (c : BuzhashChunker)
    {cas : CAS} {refs : List ChildRef} {pss : List (List KVPair)} {d : Nat}
    (hwf : casWF H cas) (hinv : RefsInv cas d refs pss)
    (hb : refs.length < 2 ^ 32) (hne : refs ≠ []) :
    casWF H (buildInternalChunks H cas (chunkChildRefs c refs)).2 ∧
    casExtends cas (buildInternalChunks H cas (chunkChildRefs c refs)).2 ∧
    (buildInternalChunks H cas (chunkChildRefs c refs)).1.length < 2 ^ 32 ∧
    ∃ pss₂,
      RefsInv (buildInternalChunks H cas (chunkChildRefs c refs)).2 (d + 1)
        (buildInternalChunks H cas (chunkChildRefs c refs)).1 pss₂ ∧
      pss₂.flatten = pss.flatten := by
  have hinvF : List.Forall₂ (fun r ps =>
      PT cas r.hash ps d ∧ ps ≠ [] ∧ firstKey ps = r.key ∧ wfRef r)
      refs pss := hinv
  have hlenrp : refs.length = pss.length := hinvF.length_eq
  have hcc : chunkChildRefs c refs = splitByLens refs
      ((c.chunk (refs.map fun r => KVPair.mk r.key r.hash)).map List.length) := by
    unfold chunkChildRefs
    rw [if_neg (by simp [List.isEmpty_iff, hne])]
  rw [hcc]
  set pairs := refs.map fun r => KVPair.mk r.key r.hash with hpairs
  set lens := (c.chunk pairs).map List.length with hlens
  have hsum : lens.sum = refs.length := by
    rw [hlens, ← List.length_flatten, chunk_flatten, hpairs, List.length_map]
  have hsum2 : lens.sum = pss.length := by rw [hsum, hlenrp]
  have hsplit : List.Forall₂ (RefsInv cas d) (splitByLens refs lens)
      (splitByLens pss lens) :=
    (splitByLens_forall₂ lens hinvF).imp fun _ _ x => x
  have hml : (splitByLens refs lens).map List.length = lens :=
    splitByLens_map_length lens refs hsum
  have hchne : ∀ ch ∈ splitByLens refs lens, ch ≠ [] := by
    intro ch hch
    have h1 : ch.length ∈ lens := by
      rw [← hml]; exact List.mem_map_of_mem _ hch
    rw [hlens] at h1
    obtain ⟨kc, hkc, hkl⟩ := List.mem_map.mp h1
    have hkcne := chunk_ne_nil c pairs kc hkc
    intro hnil
    cases kc with
    | nil => exact absurd rfl hkcne
    | cons a t => rw [hnil] at hkl; simp at hkl
  have hchb : ∀ ch ∈ splitByLens refs lens, ch.length < 2 ^ 32 :=
    fun ch hch =>
      lt_of_le_of_lt (splitByLens_chunk_length_le lens refs ch hch) hb
  obtain ⟨hwf₂, hext₂, hspecF⟩ :=
    buildInternalChunks_spec hInj (splitByLens refs lens) hwf
  have hsplit₂ : List.Forall₂
      (RefsInv (buildInternalChunks H cas (splitByLens refs lens)).2 d)
      (splitByLens refs lens) (splitByLens pss lens) :=
    hsplit.imp fun _ _ hx => RefsInv_mono_cas hext₂ hx
  have hpar := RefsInv_parents HL hspecF hsplit₂ hchne hchb
  have hplen : (buildInternalChunks H cas (splitByLens refs lens)).1.length
      < 2 ^ 32 := by
    have h1 := hspecF.length_eq
    have h2 : (c.chunk pairs).length ≤ (c.chunk pairs).flatten.length :=
      length_le_flatten_length _ (chunk_ne_nil c pairs)
    rw [chunk_flatten] at h2
    have h5 : pairs.length = refs.length := by
      rw [hpairs, List.length_map]
    have h3 := splitByLens_length (α := ChildRef) lens refs
    have h4 : lens.length = (c.chunk pairs).length := by
      rw [hlens, List.length_map]
    omega
  have hfl : ((splitByLens pss lens).map List.flatten).flatten = pss.flatten := by
    rw [flatten_map_flatten, splitByLens_flatten lens pss hsum2]
  exact ⟨hwf₂, hext₂, hplen, ⟨_, hpar, hfl⟩⟩

theorem buildInternalLayers_PT {H : Bytes → Bytes}
    (hInj : Function.Injective H) (HL : ∀ b, (H b).length = 32)
    (c : BuzhashChunker) :
    ∀ (fuel : Nat) (cas : CAS) (refs : List ChildRef)
      (pss : List (List KVPair)) (d : Nat) (root : Bytes) (cas' : CAS),
      casWF H cas → RefsInv cas d refs pss → refs.length < 2 ^ 32 →
      buildInternalLayers H c fuel cas refs = some (root, cas') →
      (∃ d', PT cas' root pss.flatten d') ∧ casWF H cas' ∧
        casExtends cas cas' := by
  intro fuel
  induction fuel with
  | zero =>
      intro cas refs pss d root cas' hwf hinv hb hrun
      rcases refs with _ | ⟨r1, rest1⟩
      · rw [buildInternalLayers_nil] at hrun; cases hrun
      rcases rest1 with _ | ⟨r2, rest2⟩
      · rw [buildInternalLayers_singleton] at hrun
        injection hrun with h
        injection h with h1 h2
        subst h1; subst h2
        exact ⟨⟨d, layers_singleton_inv hinv⟩, hwf, casExtends_refl _⟩
      · rw [buildInternalLayers_zero₂] at hrun; cases hrun
  | succ f ih =>
      intro cas refs pss d root cas' hwf hinv hb hrun
      rcases refs with _ | ⟨r1, rest1⟩
      · rw [buildInternalLayers_nil] at hrun; cases hrun
      rcases rest1 with _ | ⟨r2, rest2⟩
      · rw [buildInternalLayers_singleton] at hrun
        injection hrun with h
        injection h with h1 h2
        subst h1; subst h2
        exact ⟨⟨d, layers_singleton_inv hinv⟩, hwf, casExtends_refl _⟩
      · rw [buildInternalLayers_cons₂] at hrun
        obtain ⟨hwf₂, hext₂, hplen, pss₂, hinv₂, hfl⟩ :=
          buildStep_inv hInj HL c hwf hinv hb (by simp)
        obtain ⟨⟨d', hPT⟩, hwf', hext'⟩ :=
          ih _ _ pss₂ (d + 1) root cas' hwf₂ hinv₂ hplen hrun
        exact ⟨⟨d', hfl ▸ hPT⟩, hwf', casExtends_trans hext₂ hext'⟩

theorem build_PT {H : Bytes → Bytes} (hInj : Function.Injective H)
    (HL : ∀ b, (H b).length = 32) (c : BuzhashChunker)
    {fuel : Nat} {cas : CAS} {pairs : List KVPair} {root : Bytes} {cas' : CAS}
    (hwf : casWF H cas) (hps : wfPairs pairs)
    (hb : build H c fuel cas pairs = some (root, cas')) :
    (∃ d, PT cas' root pairs d) ∧ casWF H cas' ∧ casExtends cas cas' := by
  simp only [build] at hb
  split at hb
  · rename_i hemp
    have hpe : pairs = [] := by
      cases pairs with
      | nil => rfl
      | cons a t => simp at hemp
    subst hpe
    injection hb with h
    obtain ⟨hfst, hread, hwf', hext⟩ := storeNode_spec hInj hwf (.leaf [])
    have hr : root = (storeNode H cas (.leaf [])).1 := by rw [h]
    have hc : cas' = (storeNode H cas (.leaf [])).2 := by rw [h]
    subst hc
    refine ⟨⟨0, ?_⟩, hwf', hext⟩
    refine .leaf root [] 0 (by rw [hr, hfst]; exact hread) ⟨?_, ?_⟩
    · decide
    · intro p hp; cases hp
  · rename_i hemp
    obtain ⟨hwf₁, hext₁, hleafF⟩ := buildLeafNodes_spec hInj (c.chunk pairs) hwf
    have hchne := chunk_ne_nil c pairs
    have hchwf : ∀ ch ∈ c.chunk pairs, wfNode (.leaf ch) := by
      intro ch hch
      refine ⟨?_, ?_⟩
      · have h1 : ch.length ≤ (c.chunk pairs).flatten.length :=
          mem_flatten_length_le _ ch hch
        rw [chunk_flatten] at h1
        exact lt_of_le_of_lt h1 hps.1
      · intro p hp
        exact hps.2 p (chunk_mem_mem hch hp)
    have hinv : RefsInv (buildLeafNodes H cas (c.chunk pairs)).2 0
        (buildLeafNodes H cas (c.chunk pairs)).1 (c.chunk pairs) :=
      RefsInv_leaves HL hleafF hchne hchwf
    have hreflen : (buildLeafNodes H cas (c.chunk pairs)).1.length < 2 ^ 32 := by
      have h1 := hleafF.length_eq
      have h2 := length_le_flatten_length (c.chunk pairs) hchne
      rw [chunk_flatten] at h2
      have h3 := hps.1
      omega
    obtain ⟨⟨d', hPT⟩, hwf', hext'⟩ :=
      buildInternalLayers_PT hInj HL c fuel
        (buildLeafNodes H cas (c.chunk pairs)).2
        (buildLeafNodes H cas (c.chunk pairs)).1 (c.chunk pairs) 0 root cas'
        hwf₁ hinv hreflen hb
    rw [chunk_flatten] at hPT
    exact ⟨⟨d', hPT⟩, hwf', casExtends_trans hext₁ hext'⟩

theorem loadNode_of_read {cas : CAS} {h : Bytes} {n : Node}
    (hread : casRead cas h = some (serializeNode n)) (hwf : wfNode n) :
    loadNode cas h = some n := by
  simp [loadNode, hread, deserializeNode_encode _ hwf]

theorem collect_of_PT {cas : CAS} :
    ∀ (d : Nat) {h : Bytes} {ps : List KVPair}, PT cas h ps d →
      ∀ fuel, d ≤ fuel →
      ∃ node, loadNode cas h = some node ∧
        collectPairs cas fuel node = some ps := by
  intro d
  induction d using Nat.strong_induction_on with
  | _ d ih =>
      intro h ps hpt fuel hfuel
      cases hpt with
      | leaf h ps d hread hwf =>
          exact ⟨.leaf ps, loadNode_of_read hread hwf, by simp [collectPairs]⟩
      | internal h refs pss d0 hread hwf hne hlen hchild hkeys =>
          cases fuel with
          | zero => omega
          | succ f =>
              refine ⟨.internal refs, loadNode_of_read hread hwf, ?_⟩
              have hF : List.Forall₂ (fun r ps => PT cas r.hash ps d0)
                  refs pss :=
                List.forall₂_of_length_eq_of_get hlen fun i h1 h2 => hchild i h1
              have hdf : d0 ≤ f := by omega
              clear hchild hkeys hread hwf hne hlen
              simp only [collectPairs]
              induction hF with
              | nil => simp [collectChildren]
              | cons h0 htail ihF =>
                  obtain ⟨node, hln, hcp⟩ := ih d0 (by omega) h0 f hdf
                  simp [collectChildren, hln, hcp, ihF, List.flatten_cons]

/-- C2: build-then-iterate round-trip.  For a sorted unique-key sequence of
pairs with nonempty keys (and no uint32 truncation), with an injective
32-byte digest, whenever Build returns a root, GetAll on that root yields
exactly the input sequence, for every sufficient traversal depth. -/
theorem getAll_build_roundtrip {H : Bytes → Bytes}
    (hInj : Function.Injective H) (HL : ∀ b, (H b).length = 32)
    (c : BuzhashChunker) {fuel : Nat} {cas : CAS} {pairs : List KVPair}
    {root : Bytes} {cas' : CAS}
    (_hsort : SortedKeys pairs) (_hkeys : ∀ p ∈ pairs, p.key ≠ [])
    (hwf : casWF H cas) (hps : wfPairs pairs)
    (hb : build H c fuel cas pairs = some (root, cas')) :
    ∃ n, ∀ f, n ≤ f → getAll cas' f root = some pairs := by
  obtain ⟨⟨d, hPT⟩, hwf', _⟩ := build_PT hInj HL c hwf hps hb
  refine ⟨d, fun f hf => ?_⟩
  obtain ⟨node, hln, hcp⟩ := collect_of_PT d hPT f hf
  simp [getAll, hln, hcp]

/-! ## The witness digest is injective -/

theorem pair2_inj {x1 a1 x2 a2 : Nat} (h : pair2 x1 a1 = pair2 x2 a2) :
    x1 = x2 ∧ a1 = a2 := by
  unfold pair2 at h
  rcases Nat.lt_trichotomy x1 x2 with hlt | heq | hgt
  · exfalso
    have hx : 2 ^ x2 = 2 ^ x1 * 2 ^ (x2 - x1) := by
      rw [← pow_add]; congr 1; omega
    rw [hx, mul_assoc] at h
    have h2 : 2 * a1 + 1 = 2 ^ (x2 - x1) * (2 * a2 + 1) :=
      Nat.eq_of_mul_eq_mul_left (Nat.two_pow_pos x1) h
    have h3 : 2 ^ (x2 - x1) = 2 * 2 ^ (x2 - x1 - 1) := by
      rw [← pow_succ']; congr 1; omega
    rw [h3, mul_assoc] at h2
    omega
  · subst heq
    have h2 : 2 * a1 + 1 = 2 * a2 + 1 :=
      Nat.eq_of_mul_eq_mul_left (Nat.two_pow_pos x1) h
    omega
  · exfalso
    have hx : 2 ^ x1 = 2 ^ x2 * 2 ^ (x1 - x2) := by
      rw [← pow_add]; congr 1; omega
    rw [hx, mul_assoc] at h
    have h2 : 2 ^ (x1 - x2) * (2 * a1 + 1) = 2 * a2 + 1 :=
      Nat.eq_of_mul_eq_mul_left (Nat.two_pow_pos x2) h
    have h3 : 2 ^ (x1 - x2) = 2 * 2 ^ (x1 - x2 - 1) := by
      rw [← pow_succ']; congr 1; omega
    rw [h3, mul_assoc] at h2
    omega

theorem natListEnc_pos (x : Nat) (t : List Nat) :
    0 < natListEnc (x :: t) := by
  show 0 < pair2 x (natListEnc t)
  unfold pair2
  exact Nat.mul_pos (Nat.two_pow_pos x) (by omega)

theorem natListEnc_inj : ∀ {l1 l2 : List Nat},
    natListEnc l1 = natListEnc l2 → l1 = l2 := by
  intro l1
  induction l1 with
  | nil =>
      intro l2 h
      cases l2 with
      | nil => rfl
      | cons y s =>
          exfalso
          have hp := natListEnc_pos y s
          simp only [natListEnc] at h hp
          omega
  | cons x t ih =>
      intro l2 h
      cases l2 with
      | nil =>
          exfalso
          have hp := natListEnc_pos x t
          simp only [natListEnc] at h hp
          omega
      | cons y s =>
          obtain ⟨hx, ha⟩ := pair2_inj h
          rw [hx, ih ha]

theorem modelHash_inj : Function.Injective modelHash := by
  intro a b h
  unfold modelHash at h
  injection h with h1 _
  exact natListEnc_inj h1

theorem modelHash_length (b : Bytes) : (modelHash b).length = 32 := by
  simp [modelHash]

/-- Witness for C2: the round-trip evaluated on a concrete two-pair input
with the default chunker and the injective witness digest. -/
theorem getAll_build_roundtrip_witness :
    ∃ root cas',
      build modelHash defaultChunker 2 []
        [⟨[1], [2]⟩, ⟨[3], [4]⟩] = some (root, cas') ∧
      ∃ n, ∀ f, n ≤ f →
        getAll cas' f root = some [⟨[1], [2]⟩, ⟨[3], [4]⟩] := by
  have hs : (build modelHash defaultChunker 2 []
      ([⟨[1], [2]⟩, ⟨[3], [4]⟩] : List KVPair)).isSome = true := by decide
  obtain ⟨⟨root, cas'⟩, hrc⟩ := Option.isSome_iff_exists.mp hs
  refine ⟨root, cas', hrc, ?_⟩
  have hsorted : SortedKeys [⟨[1], [2]⟩, ⟨[3], [4]⟩] := by
    simp only [SortedKeys, List.chain'_cons, List.chain'_singleton, and_true]
    decide
  exact getAll_build_roundtrip modelHash_inj modelHash_length defaultChunker
    hsorted (by decide) (fun e he => absurd he (List.not_mem_nil e))
    (by decide) hrc

/-! ## Sorted pair lists and association lookup -/

instance : IsTrans KVPair fun p q => keyLt p.key q.key :=
  ⟨fun _ _ _ h1 h2 => keyLt_trans h1 h2⟩

theorem bytesCompare_gt_iff {a b : Bytes} :
    bytesCompare a b = .gt ↔ keyLt b a := by
  unfold keyLt
  rw [bytesCompare_swap a b]
  cases bytesCompare a b <;> simp [Ordering.swap]

theorem sortedKeys_pairwise {ps : List KVPair} (hs : SortedKeys ps) :
    ps.Pairwise fun p q => keyLt p.key q.key :=
  List.chain'_iff_pairwise.mp hs

theorem sortedKeys_of_pairwise {ps : List KVPair}
    (hs : ps.Pairwise fun p q => keyLt p.key q.key) : SortedKeys ps :=
  List.chain'_iff_pairwise.mpr hs

theorem sortedKeys_sublist {l1 l2 : List KVPair} (hsub : l1.Sublist l2)
    (hs : SortedKeys l2) : SortedKeys l1 :=
  sortedKeys_of_pairwise (List.Pairwise.sublist hsub (sortedKeys_pairwise hs))

theorem sorted_get_lt {ps : List KVPair} (hs : SortedKeys ps) {i j : Nat}
    (hij : i < j) (hj : j < ps.length) :
    keyLt (ps.get ⟨i, Nat.lt_trans hij hj⟩).key (ps.get ⟨j, hj⟩).key := by
  have hp := List.pairwise_iff_get.mp (sortedKeys_pairwise hs)
  exact hp ⟨i, Nat.lt_trans hij hj⟩ ⟨j, hj⟩ hij

theorem lookupKey_none_iff {ps : List KVPair} {k : Bytes} :
    lookupKey ps k = none ↔ ∀ p ∈ ps, p.key ≠ k := by
  induction ps with
  | nil => simp [lookupKey]
  | cons p rest ih =>
      simp only [lookupKey]
      by_cases hk : p.key = k
      · simp [hk]
      · simp [hk, ih]

theorem lookupKey_mem {ps : List KVPair} {k v : Bytes}
    (h : lookupKey ps k = some v) : KVPair.mk k v ∈ ps := by
  induction ps with
  | nil => cases h
  | cons p rest ih =>
      simp only [lookupKey] at h
      by_cases hk : p.key = k
      · rw [if_pos hk] at h
        injection h with hv
        have hp : p = KVPair.mk k v := by
          cases p
          simp only at hk hv
          rw [hk, hv]
        rw [← hp]
        exact List.mem_cons_self _ _
      · rw [if_neg hk] at h
        exact List.mem_cons_of_mem _ (ih h)

theorem lookupKey_of_mem_sorted {ps : List KVPair} (hs : SortedKeys ps)
    {p : KVPair} (hp : p ∈ ps) : lookupKey ps p.key = some p.value := by
  induction ps with
  | nil => cases hp
  | cons q rest ih =>
      rcases List.mem_cons.mp hp with rfl | hp
      · simp [lookupKey]
      · have hlt : keyLt q.key p.key :=
          (List.pairwise_cons.mp (sortedKeys_pairwise hs)).1 p hp
        have hne : q.key ≠ p.key := keyLt_ne hlt
        simp only [lookupKey, if_neg hne]
        exact ih (sortedKeys_sublist (List.sublist_cons_self q rest) hs) hp

theorem lookupKey_some_get {ps : List KVPair} {k v : Bytes}
    (h : lookupKey ps k = some v) :
    ∃ j hj, (ps.get ⟨j, hj⟩).key = k ∧ (ps.get ⟨j, hj⟩).value = v := by
  obtain ⟨⟨j, hj⟩, hget⟩ := List.mem_iff_get.mp (lookupKey_mem h)
  exact ⟨j, hj, by rw [hget], by rw [hget]⟩

/-! ## Leaf binary search -/

theorem searchLeafLoop_notFound {pairs : List KVPair} {key : Bytes}
    (hmiss : ∀ p ∈ pairs, p.key ≠ key) :
    ∀ n lo hi1, hi1 - lo ≤ n → hi1 ≤ pairs.length →
      searchLeafLoop pairs key lo hi1 = none := by
  intro n
  induction n with
  | zero =>
      intro lo hi1 hn hle
      unfold searchLeafLoop
      rw [dif_neg (by omega)]
  | succ n ih =>
      intro lo hi1 hn hle
      by_cases hlt : lo < hi1
      · unfold searchLeafLoop
        rw [dif_pos hlt]
        have hmid : (lo + (hi1 - 1)) / 2 < pairs.length := by omega
        have hgetD : pairs.getD ((lo + (hi1 - 1)) / 2) ⟨[], []⟩ =
            pairs.get ⟨(lo + (hi1 - 1)) / 2, hmid⟩ := by
          rw [List.getD_eq_getElem _ _ hmid]
          rfl
        simp only [hgetD]
        have hpm : (pairs.get ⟨(lo + (hi1 - 1)) / 2, hmid⟩).key ≠ key :=
          hmiss _ (List.get_mem _ _ _)
        cases hcmp : bytesCompare
            (pairs.get ⟨(lo + (hi1 - 1)) / 2, hmid⟩).key key with
        | eq => exact absurd (bytesCompare_eq_iff.mp hcmp) hpm
        | lt => exact ih ((lo + (hi1 - 1)) / 2 + 1) hi1 (by omega) hle
        | gt => exact ih lo ((lo + (hi1 - 1)) / 2) (by omega) (by omega)
      · unfold searchLeafLoop
        rw [dif_neg hlt]

theorem searchLeafLoop_found {pairs : List KVPair} (hs : SortedKeys pairs)
    {key : Bytes} {j : Nat} {hj : j < pairs.length}
    (hkey : (pairs.get ⟨j, hj⟩).key = key) :
    ∀ n lo hi1, hi1 - lo ≤ n → hi1 ≤ pairs.length → lo ≤ j → j < hi1 →
      searchLeafLoop pairs key lo hi1 = some (pairs.get ⟨j, hj⟩).value := by
  intro n
  induction n with
  | zero => intro lo hi1 hn hle hlo hhi; omega
  | succ n ih =>
      intro lo hi1 hn hle hlo hhi
      have hlt : lo < hi1 := by omega
      unfold searchLeafLoop
      rw [dif_pos hlt]
      have hmid : (lo + (hi1 - 1)) / 2 < pairs.length := by omega
      have hgetD : pairs.getD ((lo + (hi1 - 1)) / 2) ⟨[], []⟩ =
          pairs.get ⟨(lo + (hi1 - 1)) / 2, hmid⟩ := by
        rw [List.getD_eq_getElem _ _ hmid]
        rfl
      simp only [hgetD]
      cases hcmp : bytesCompare
          (pairs.get ⟨(lo + (hi1 - 1)) / 2, hmid⟩).key key with
      | eq =>
          have heq := bytesCompare_eq_iff.mp hcmp
          have hje : (lo + (hi1 - 1)) / 2 = j := by
            by_contra hne
            rcases Nat.lt_or_ge ((lo + (hi1 - 1)) / 2) j with hl | hg
            · have := sorted_get_lt hs hl hj
              rw [heq, hkey] at this
              exact bytesCompare_lt_irrefl key this
            · have hl2 : j < (lo + (hi1 - 1)) / 2 := by omega
              have := sorted_get_lt hs hl2 hmid
              rw [heq, hkey] at this
              exact bytesCompare_lt_irrefl key this
          subst hje
          rfl
      | lt =>
          have hjm : (lo + (hi1 - 1)) / 2 < j := by
            by_contra hge
            rcases Nat.lt_or_ge j ((lo + (hi1 - 1)) / 2) with hl | hg
            · have := sorted_get_lt hs hl hmid
              rw [hkey] at this
              have hlt2 : keyLt (pairs.get ⟨(lo + (hi1 - 1)) / 2, hmid⟩).key
                  key := hcmp
              exact keyLt_asymm this hlt2
            · have hje : j = (lo + (hi1 - 1)) / 2 := by omega
              subst hje
              rw [hkey] at hcmp
              exact bytesCompare_lt_irrefl key hcmp
          exact ih ((lo + (hi1 - 1)) / 2 + 1) hi1 (by omega) hle (by omega) hhi
      | gt =>
          have hjm : j < (lo + (hi1 - 1)) / 2 := by
            have hgt : keyLt key
                (pairs.get ⟨(lo + (hi1 - 1)) / 2, hmid⟩).key :=
              bytesCompare_gt_iff.mp hcmp
            by_contra hge
            rcases Nat.lt_or_ge ((lo + (hi1 - 1)) / 2) j with hl | hg
            · have := sorted_get_lt hs hl hj
              rw [hkey] at this
              exact keyLt_asymm this hgt
            · have hje : (lo + (hi1 - 1)) / 2 = j := by omega
              subst hje
              rw [hkey] at hgt
              exact bytesCompare_lt_irrefl key hgt
          exact ih lo ((lo + (hi1 - 1)) / 2) (by omega) (by omega) hlo hjm

theorem searchLeaf_eq_lookup {pairs : List KVPair} (hs : SortedKeys pairs)
    (key : Bytes) : searchLeaf pairs key = lookupKey pairs key := by
  unfold searchLeaf
  cases hlk : lookupKey pairs key with
  | none =>
      exact searchLeafLoop_notFound
        (fun p hp hk => (lookupKey_none_iff.mp hlk p hp) hk)
        pairs.length 0 pairs.length (by omega) (by omega)
  | some v =>
      obtain ⟨j, hj, hkey, hval⟩ := lookupKey_some_get hlk
      rw [searchLeafLoop_found hs hkey pairs.length 0 pairs.length
        (by omega) (by omega) (by omega) hj]
      rw [hval]

/-! ## Child binary search -/

instance : IsTrans ChildRef fun a b => keyLt a.key b.key :=
  ⟨fun _ _ _ h1 h2 => keyLt_trans h1 h2⟩

theorem getD_eq_get {α : Type} {l : List α} {i : Nat} (d : α)
    (h : i < l.length) : l.getD i d = l.get ⟨i, h⟩ := by
  rw [List.getD_eq_getElem _ _ h]
  rfl

theorem sortedRef_getD_lt {rs : List ChildRef} (hs : SortedRefKeys rs)
    {i j : Nat} (hij : i < j) (hj : j < rs.length) :
    keyLt (rs.getD i ⟨[], []⟩).key (rs.getD j ⟨[], []⟩).key := by
  rw [getD_eq_get _ (Nat.lt_trans hij hj), getD_eq_get _ hj]
  have hp := List.pairwise_iff_get.mp (List.chain'_iff_pairwise.mp hs)
  exact hp ⟨i, Nat.lt_trans hij hj⟩ ⟨j, hj⟩ hij

theorem findChildLoop_spec {children : List ChildRef} {key : Bytes}
    (hsk : SortedRefKeys children) :
    ∀ n lo hi1 res0, hi1 - lo ≤ n → hi1 ≤ children.length →
      res0 < children.length →
      (∀ i, hi1 ≤ i → i < children.length →
        bytesCompare (children.getD i ⟨[], []⟩).key key = .gt) →
      (∀ i, i < lo → i < children.length →
        bytesCompare (children.getD i ⟨[], []⟩).key key ≠ .gt → i ≤ res0) →
      (bytesCompare (children.getD res0 ⟨[], []⟩).key key ≠ .gt ∨
        (res0 = 0 ∧ ∀ i, i < lo → i < children.length →
          bytesCompare (children.getD i ⟨[], []⟩).key key = .gt)) →
      findChildLoop children key lo hi1 res0 < children.length ∧
      (∀ i, i < children.length →
        bytesCompare (children.getD i ⟨[], []⟩).key key ≠ .gt →
        i ≤ findChildLoop children key lo hi1 res0) ∧
      ((∃ i, i < children.length ∧
          bytesCompare (children.getD i ⟨[], []⟩).key key ≠ .gt) →
        bytesCompare
          (children.getD (findChildLoop children key lo hi1 res0)
            ⟨[], []⟩).key key ≠ .gt) ∧
      ((∀ i, i < children.length →
          bytesCompare (children.getD i ⟨[], []⟩).key key = .gt) →
        findChildLoop children key lo hi1 res0 = 0) := by
  intro n
  induction n with
  | zero =>
      intro lo hi1 res0 hn hle hres hI2 hI3 hI5
      have hexit : ¬ lo < hi1 := by omega
      unfold findChildLoop
      rw [dif_neg hexit]
      refine ⟨hres, ?_, ?_, ?_⟩
      · intro i hi hP
        rcases Nat.lt_or_ge i hi1 with hl | hg
        · exact hI3 i (by omega) hi hP
        · exact absurd (hI2 i hg hi) hP
      · rintro ⟨i, hi, hP⟩
        rcases hI5 with hP0 | ⟨hz, hall⟩
        · exact hP0
        · rcases Nat.lt_or_ge i hi1 with hl | hg
          · exact absurd (hall i (by omega) hi) hP
          · exact absurd (hI2 i hg hi) hP
      · intro hall
        rcases hI5 with hP0 | ⟨hz, _⟩
        · exact absurd (hall res0 hres) hP0
        · exact hz
  | succ n ih =>
      intro lo hi1 res0 hn hle hres hI2 hI3 hI5
      by_cases hlt : lo < hi1
      · unfold findChildLoop
        rw [dif_pos hlt]
        have hmlt : (lo + (hi1 - 1)) / 2 < hi1 := by omega
        have hmlo : lo ≤ (lo + (hi1 - 1)) / 2 := by omega
        by_cases hP : bytesCompare
            (children.getD ((lo + (hi1 - 1)) / 2) ⟨[], []⟩).key key ≠ .gt
        · rw [if_pos hP]
          exact ih ((lo + (hi1 - 1)) / 2 + 1) hi1 ((lo + (hi1 - 1)) / 2)
            (by omega) hle (by omega) hI2
            (fun i h1 h2 _ => by omega) (.inl hP)
        · rw [if_neg hP]
          have hgt : bytesCompare
              (children.getD ((lo + (hi1 - 1)) / 2) ⟨[], []⟩).key key = .gt := by
            by_contra hc
            exact hP hc
          refine ih lo ((lo + (hi1 - 1)) / 2) res0 (by omega) (by omega) hres
            ?_ hI3 hI5
          intro i h1 h2
          rcases Nat.eq_or_lt_of_le h1 with rfl | hl
          · exact hgt
          · have hkey1 : keyLt key
                (children.getD ((lo + (hi1 - 1)) / 2) ⟨[], []⟩).key :=
              bytesCompare_gt_iff.mp hgt
            have hkey2 := sortedRef_getD_lt hsk hl h2
            exact bytesCompare_gt_iff.mpr (keyLt_trans hkey1 hkey2)
      · unfold findChildLoop
        rw [dif_neg hlt]
        refine ⟨hres, ?_, ?_, ?_⟩
        · intro i hi hP
          rcases Nat.lt_or_ge i hi1 with hl | hg
          · exact hI3 i (by omega) hi hP
          · exact absurd (hI2 i hg hi) hP
        · rintro ⟨i, hi, hP⟩
          rcases hI5 with hP0 | ⟨hz, hall⟩
          · exact hP0
          · rcases Nat.lt_or_ge i hi1 with hl | hg
            · exact absurd (hall i (by omega) hi) hP
            · exact absurd (hI2 i hg hi) hP
        · intro hall
          rcases hI5 with hP0 | ⟨hz, _⟩
          · exact absurd (hall res0 hres) hP0
          · exact hz

theorem findChild_spec {children : List ChildRef} {key : Bytes}
    (hsk : SortedRefKeys children) (hne : children ≠ []) :
    findChildLoop children key 0 children.length 0 < children.length ∧
    (∀ i, i < children.length →
      bytesCompare (children.getD i ⟨[], []⟩).key key ≠ .gt →
      i ≤ findChildLoop children key 0 children.length 0) ∧
    ((∃ i, i < children.length ∧
        bytesCompare (children.getD i ⟨[], []⟩).key key ≠ .gt) →
      bytesCompare
        (children.getD (findChildLoop children key 0 children.length 0)
          ⟨[], []⟩).key key ≠ .gt) ∧
    ((∀ i, i < children.length →
        bytesCompare (children.getD i ⟨[], []⟩).key key = .gt) →
      findChildLoop children key 0 children.length 0 = 0) := by
  have hlen : 0 < children.length := by
    cases children with
    | nil => exact absurd rfl hne
    | cons a t => simp
  exact findChildLoop_spec hsk children.length 0 children.length 0
    (by omega) (by omega) hlen (fun i h1 h2 => by omega)
    (fun i h1 _ _ => by omega)
    (.inr ⟨rfl, fun i h1 _ => by omega⟩)

/-! ## Block structure of sorted flattened pair lists -/

theorem blocks_cross {pss : List (List KVPair)} (hs : SortedKeys pss.flatten)
    {i j : Nat} (hij : i < j) (hj : j < pss.length)
    {p q : KVPair} (hp : p ∈ pss.get ⟨i, Nat.lt_trans hij hj⟩)
    (hq : q ∈ pss.get ⟨j, hj⟩) : keyLt p.key q.key := by
  have hPW := (List.pairwise_flatten.mp (sortedKeys_pairwise hs)).2
  exact List.pairwise_iff_get.mp hPW ⟨i, Nat.lt_trans hij hj⟩ ⟨j, hj⟩ hij
    p hp q hq

theorem blocks_sorted {pss : List (List KVPair)} (hs : SortedKeys pss.flatten)
    {b : List KVPair} (hb : b ∈ pss) : SortedKeys b :=
  sortedKeys_of_pairwise
    ((List.pairwise_flatten.mp (sortedKeys_pairwise hs)).1 b hb)

theorem firstKey_le_of_mem {b : List KVPair} (hs : SortedKeys b) {p : KVPair}
    (hp : p ∈ b) : firstKey b = p.key ∨ keyLt (firstKey b) p.key := by
  cases b with
  | nil => cases hp
  | cons h t =>
      rcases List.mem_cons.mp hp with rfl | hp
      · exact .inl rfl
      · exact .inr ((List.pairwise_cons.mp (sortedKeys_pairwise hs)).1 p hp)

theorem firstKey_mem {b : List KVPair} (hne : b ≠ []) :
    ∃ p ∈ b, p.key = firstKey b := by
  cases b with
  | nil => exact absurd rfl hne
  | cons h t => exact ⟨h, List.mem_cons_self _ _, rfl⟩

theorem sortedRefKeys_of_blocks {refs : List ChildRef}
    {pss : List (List KVPair)} (hlen : refs.length = pss.length)
    (hkeys : ∀ i (hi : i < refs.length),
      pss.get ⟨i, hlen ▸ hi⟩ ≠ [] ∧
      firstKey (pss.get ⟨i, hlen ▸ hi⟩) = (refs.get ⟨i, hi⟩).key)
    (hs : SortedKeys pss.flatten) : SortedRefKeys refs := by
  apply List.chain'_iff_pairwise.mpr
  apply List.pairwise_iff_get.mpr
  intro fi fj hij
  obtain ⟨i, hi⟩ := fi
  obtain ⟨j, hj⟩ := fj
  have hij' : i < j := hij
  obtain ⟨hnei, hfki⟩ := hkeys i hi
  obtain ⟨hnej, hfkj⟩ := hkeys j hj
  rw [← hfki, ← hfkj]
  obtain ⟨p, hp, hpk⟩ := firstKey_mem hnei
  obtain ⟨q, hq, hqk⟩ := firstKey_mem hnej
  rw [← hpk, ← hqk]
  exact blocks_cross hs hij' (hlen ▸ hj) hp hq

theorem lookup_block_of_selected {refs : List ChildRef}
    {pss : List (List KVPair)} (hlen : refs.length = pss.length)
    (hkeys : ∀ i (hi : i < refs.length),
      pss.get ⟨i, hlen ▸ hi⟩ ≠ [] ∧
      firstKey (pss.get ⟨i, hlen ▸ hi⟩) = (refs.get ⟨i, hi⟩).key)
    (hs : SortedKeys pss.flatten) (hne : refs ≠ []) (key : Bytes) :
    ∃ hres : findChildLoop refs key 0 refs.length 0 < refs.length,
      lookupKey pss.flatten key =
        lookupKey (pss.get
          ⟨findChildLoop refs key 0 refs.length 0,
            hlen ▸ hres⟩) key := by
  obtain ⟨hres, hub, hsat, _⟩ :=
    @findChild_spec _ key (sortedRefKeys_of_blocks hlen hkeys hs) hne
  refine ⟨hres, ?_⟩
  cases hflat : lookupKey pss.flatten key with
  | none =>
      symm
      rw [lookupKey_none_iff]
      intro p hp
      exact lookupKey_none_iff.mp hflat p
        (List.mem_flatten.mpr ⟨_, List.get_mem _ _ _, hp⟩)
  | some v =>
      have hmem := lookupKey_mem hflat
      obtain ⟨b, hb, hpb⟩ := List.mem_flatten.mp hmem
      obtain ⟨⟨j, hj⟩, hbj⟩ := List.mem_iff_get.mp hb
      have hpj : KVPair.mk key v ∈ pss.get ⟨j, hj⟩ := by rw [hbj]; exact hpb
      have hj' : j < refs.length := by omega
      -- the block containing the key satisfies the ≤-key test
      have hPj : bytesCompare (refs.getD j ⟨[], []⟩).key key ≠ .gt := by
        rw [getD_eq_get _ hj', ← (hkeys j hj').2]
        intro hgt
        have hklt := bytesCompare_gt_iff.mp hgt
        rcases firstKey_le_of_mem
            (blocks_sorted hs (List.get_mem pss j hj)) hpj with he | hlt
        · rw [he] at hklt
          exact bytesCompare_lt_irrefl key hklt
        · exact bytesCompare_lt_irrefl key
            (keyLt_trans hklt (by simpa using hlt))
      have hjle : j ≤ findChildLoop refs key 0 refs.length 0 :=
        hub j hj' hPj
      have hrle : findChildLoop refs key 0 refs.length 0 ≤ j := by
        by_contra hc
        have hjr : j < findChildLoop refs key 0 refs.length 0 := by omega
        have hPres := hsat ⟨j, hj', hPj⟩
        rw [getD_eq_get _ hres, ← (hkeys _ hres).2] at hPres
        obtain ⟨q, hq, hqk⟩ := firstKey_mem (hkeys _ hres).1
        have hcross := blocks_cross hs hjr (hlen ▸ hres) hpj hq
        rw [hqk] at hcross
        exact hPres (bytesCompare_gt_iff.mpr hcross)
      have hje : j = findChildLoop refs key 0 refs.length 0 := by omega
      symm
      have hfin : (⟨findChildLoop refs key 0 refs.length 0, hlen ▸ hres⟩ :
          Fin pss.length) = ⟨j, hj⟩ := Fin.ext hje.symm
      rw [hfin]
      have hl := lookupKey_of_mem_sorted
        (blocks_sorted hs (List.get_mem pss j hj)) hpj
      simpa using hl

theorem get_of_PT {cas : CAS} :
    ∀ (d : Nat) {h : Bytes} {ps : List KVPair}, PT cas h ps d →
      SortedKeys ps → ∀ fuel, d ≤ fuel → ∀ key,
      ∃ node, loadNode cas h = some node ∧
        getLoop cas fuel node key =
          (match lookupKey ps key with
           | some v => GetResult.found v
           | none => GetResult.notFound) := by
  intro d
  induction d using Nat.strong_induction_on with
  | _ d ih =>
      intro h ps hpt hs fuel hfuel key
      cases hpt with
      | leaf h ps d hread hwf =>
          refine ⟨.leaf ps, loadNode_of_read hread hwf, ?_⟩
          simp only [getLoop]
          rw [searchLeaf_eq_lookup hs]
      | internal h refs pss d0 hread hwf hne hlen hchild hkeys =>
          cases fuel with
          | zero => omega
          | succ f =>
              refine ⟨.internal refs, loadNode_of_read hread hwf, ?_⟩
              obtain ⟨hres, hlk⟩ :=
                lookup_block_of_selected hlen hkeys hs hne key
              have hchildPT := hchild _ hres
              have hbs : SortedKeys
                  (pss.get ⟨findChildLoop refs key 0 refs.length 0,
                    hlen ▸ hres⟩) :=
                blocks_sorted hs (List.get_mem pss _ _)
              obtain ⟨cnode, hln, hrec⟩ :=
                ih d0 (by omega) hchildPT hbs f (by omega) key
              have hfc : findChild refs key =
                  (refs.get ⟨findChildLoop refs key 0 refs.length 0,
                    hres⟩).hash := by
                unfold findChild
                rw [getD_eq_get _ hres]
              simp only [getLoop, hfc, hln]
              rw [hrec, hlk]

/-- C3: Get correctness.  For a sorted unique-key sequence (without uint32
truncation, with an injective 32-byte digest), whenever Build returns a
root, Get finds the value paired with the key when present and reports
KeyNotFound otherwise; and on every internal node with sorted child keys
the descent helper selects the rightmost child whose first-key is at most
the target (the first child when none qualifies). -/
theorem get_correct {H : Bytes → Bytes} (hInj : Function.Injective H)
    (HL : ∀ b, (H b).length = 32) (c : BuzhashChunker) {fuel : Nat}
    {cas : CAS} {pairs : List KVPair} {root : Bytes} {cas' : CAS}
    (hsort : SortedKeys pairs) (hwf : casWF H cas) (hps : wfPairs pairs)
    (hb : build H c fuel cas pairs = some (root, cas')) (key : Bytes) :
    (∃ n, ∀ f, n ≤ f → traverserGet cas' f root key =
      (match lookupKey pairs key with
       | some v => GetResult.found v
       | none => GetResult.notFound)) ∧
    (∀ children : List ChildRef, SortedRefKeys children → children ≠ [] →
      ∃ idx, findChild children key = (children.getD idx ⟨[], []⟩).hash ∧
        idx < children.length ∧
        (∀ i, i < children.length →
          bytesCompare (children.getD i ⟨[], []⟩).key key ≠ .gt →
          i ≤ idx) ∧
        ((∃ i, i < children.length ∧
            bytesCompare (children.getD i ⟨[], []⟩).key key ≠ .gt) →
          bytesCompare (children.getD idx ⟨[], []⟩).key key ≠ .gt) ∧
        ((∀ i, i < children.length →
            bytesCompare (children.getD i ⟨[], []⟩).key key = .gt) →
          idx = 0)) := by
  constructor
  · obtain ⟨⟨d, hPT⟩, hwf', _⟩ := build_PT hInj HL c hwf hps hb
    refine ⟨d, fun f hf => ?_⟩
    obtain ⟨node, hln, hloop⟩ := get_of_PT d hPT hsort f hf key
    simp [traverserGet, hln, hloop]
  · intro children hsk hne
    obtain ⟨h1, h2, h3, h4⟩ := @findChild_spec children key hsk hne
    exact ⟨findChildLoop children key 0 children.length 0, rfl,
      h1, h2, h3, h4⟩

/-- Witness for C3: Get evaluated on a concrete two-pair tree finds the
value stored under an existing key. -/
theorem get_correct_witness :
    ∃ root cas',
      build modelHash defaultChunker 2 []
        [⟨[1], [2]⟩, ⟨[3], [4]⟩] = some (root, cas') ∧
      ∃ n, ∀ f, n ≤ f → traverserGet cas' f root [3] = .found [4] := by
  have hsm : (build modelHash defaultChunker 2 []
      ([⟨[1], [2]⟩, ⟨[3], [4]⟩] : List KVPair)).isSome = true := by decide
  obtain ⟨⟨root, cas'⟩, hrc⟩ := Option.isSome_iff_exists.mp hsm
  have hsorted : SortedKeys [⟨[1], [2]⟩, ⟨[3], [4]⟩] := by
    simp only [SortedKeys, List.chain'_cons, List.chain'_singleton, and_true]
    decide
  obtain ⟨n, hn⟩ := (get_correct modelHash_inj modelHash_length
    defaultChunker hsorted (fun e he => absurd he (List.not_mem_nil e))
    (by decide) hrc [3]).1
  refine ⟨root, cas', hrc, n, fun f hf => ?_⟩
  rw [hn f hf]
  decide

/-! ## Oracle structure lemmas -/

theorem hasKey_nil (k : Bytes) : hasKey [] k = false := rfl

theorem hasKey_cons_ne {p : KVPair} {ps : List KVPair} {k : Bytes}
    (h : p.key ≠ k) : hasKey (p :: ps) k = hasKey ps k := by
  simp [hasKey, h]

theorem hasKey_true_iff {ps : List KVPair} {k : Bytes} :
    hasKey ps k = true ↔ ∃ p ∈ ps, p.key = k := by
  simp [hasKey]

theorem hasKey_false_iff {ps : List KVPair} {k : Bytes} :
    hasKey ps k = false ↔ ∀ p ∈ ps, p.key ≠ k := by
  rw [← Bool.not_eq_true, hasKey_true_iff]
  simp

theorem lookupKey_cons_ne {p : KVPair} {ps : List KVPair} {k : Bytes}
    (h : p.key ≠ k) : lookupKey (p :: ps) k = lookupKey ps k := by
  simp [lookupKey, h]

theorem lookupKey_append_left {xs ys : List KVPair} {k v : Bytes}
    (h : lookupKey xs k = some v) : lookupKey (xs ++ ys) k = some v := by
  induction xs with
  | nil => cases h
  | cons p rest ih =>
      simp only [lookupKey] at h ⊢
      by_cases hk : p.key = k
      · rwa [if_pos hk] at h ⊢
      · rw [if_neg hk] at h ⊢
        exact ih h

theorem lookupKey_append_right {xs ys : List KVPair} {k : Bytes}
    (h : lookupKey xs k = none) : lookupKey (xs ++ ys) k = lookupKey ys k := by
  induction xs with
  | nil => rfl
  | cons p rest ih =>
      simp only [lookupKey] at h ⊢
      by_cases hk : p.key = k
      · rw [if_pos hk] at h; cases h
      · rw [if_neg hk] at h ⊢
        exact ih h

theorem appendDiff_assoc (r1 r2 r3 : DiffResult) :
    appendDiff (appendDiff r1 r2) r3 = appendDiff r1 (appendDiff r2 r3) := by
  simp [appendDiff]

theorem appendDiff_empty_left (r : DiffResult) : appendDiff emptyDiff r = r := by
  cases r
  simp [appendDiff, emptyDiff]

theorem appendDiff_empty_right (r : DiffResult) :
    appendDiff r emptyDiff = r := by
  cases r
  simp [appendDiff, emptyDiff]

theorem oracleDiff_nil_left (B : List KVPair) :
    oracleDiff [] B = { added := B, modified := [], deleted := [] } := by
  simp [oracleDiff, hasKey]

theorem oracleDiff_nil_right (A : List KVPair) :
    oracleDiff A [] =
      { added := [], modified := [], deleted := A.map fun p => p.key } := by
  simp [oracleDiff, hasKey, lookupKey]

theorem oracle_step_lt {p : KVPair} {ps B : List KVPair}
    (hB : ∀ b ∈ B, b.key ≠ p.key) :
    oracleDiff (p :: ps) B =
      { oracleDiff ps B with
        deleted := p.key :: (oracleDiff ps B).deleted } := by
  simp only [oracleDiff]
  congr 1
  · exact List.filter_congr fun b hb => by
      rw [hasKey_cons_ne (fun he => hB b hb he.symm)]
  · rw [List.filterMap_cons]
    have hnone : lookupKey B p.key = none :=
      lookupKey_none_iff.mpr hB
    simp only [hnone]
  · have hfalse : hasKey B p.key = false := by
      rw [hasKey_false_iff]
      exact hB
    simp [hfalse]

theorem oracle_step_gt {q : KVPair} {A qs : List KVPair}
    (hA : ∀ a ∈ A, a.key ≠ q.key) :
    oracleDiff A (q :: qs) =
      { oracleDiff A qs with
        added := q :: (oracleDiff A qs).added } := by
  simp only [oracleDiff]
  congr 1
  · have hfalse : hasKey A q.key = false := by
      rw [hasKey_false_iff]
      exact hA
    simp [hfalse]
  · exact List.filterMap_congr fun a ha => by
      rw [lookupKey_cons_ne (fun he => hA a ha he.symm)]
  · refine congrArg _ (List.filter_congr fun a ha => ?_)
    rw [hasKey_cons_ne (fun he => hA a ha he.symm)]

theorem oracle_step_eq {p q : KVPair} {ps qs : List KVPair}
    (hpq : p.key = q.key)
    (hA : ∀ a ∈ ps, a.key ≠ q.key) (hB : ∀ b ∈ qs, b.key ≠ p.key) :
    oracleDiff (p :: ps) (q :: qs) =
      { oracleDiff ps qs with
        modified := (if q.value = p.value then [] else
            [⟨p.key, p.value, q.value⟩]) ++ (oracleDiff ps qs).modified } := by
  simp only [oracleDiff]
  congr 1
  · have htrue : hasKey (p :: ps) q.key = true := by
      rw [hasKey_true_iff]
      exact ⟨p, List.mem_cons_self _ _, hpq⟩
    rw [List.filter_cons_of_neg (by simp [htrue])]
    exact List.filter_congr fun b hb => by
      rw [hasKey_cons_ne (fun he => hB b hb he.symm)]
  · rw [List.filterMap_cons]
    have hlk : lookupKey (q :: qs) p.key = some q.value := by
      simp [lookupKey, hpq.symm]
    simp only [hlk]
    by_cases hv : q.value = p.value
    · simp only [if_pos hv, List.nil_append]
      refine List.filterMap_congr fun a ha => ?_
      rw [lookupKey_cons_ne (fun he => hA a ha he.symm)]
    · simp only [if_neg hv, List.singleton_append]
      refine congrArg _ (List.filterMap_congr fun a ha => ?_)
      rw [lookupKey_cons_ne (fun he => hA a ha he.symm)]
  · have htrue : hasKey (q :: qs) p.key = true := by
      rw [hasKey_true_iff]
      exact ⟨q, List.mem_cons_self _ _, hpq.symm⟩
    rw [List.filter_cons_of_neg (by simp [htrue])]
    refine congrArg _ (List.filter_congr fun a ha => ?_)
    rw [hasKey_cons_ne (fun he => hA a ha he.symm)]

theorem appendDiff_deleted_shift (res O : DiffResult) (k : Bytes) :
    appendDiff { res with deleted := res.deleted ++ [k] } O =
      appendDiff res { O with deleted := k :: O.deleted } := by
  cases res; cases O; simp [appendDiff]

theorem appendDiff_added_shift (res O : DiffResult) (q : KVPair) :
    appendDiff { res with added := res.added ++ [q] } O =
      appendDiff res { O with added := q :: O.added } := by
  cases res; cases O; simp [appendDiff]

theorem appendDiff_modified_shift (res O : DiffResult)
    (ms : List ModifiedPair) :
    appendDiff { res with modified := res.modified ++ ms } O =
      appendDiff res { O with modified := ms ++ O.modified } := by
  cases res; cases O; simp [appendDiff]

theorem diffPairLists_oracle :
    ∀ (n : Nat) (A B : List KVPair) (res : DiffResult),
      A.length + B.length ≤ n → SortedKeys A → SortedKeys B →
      diffPairLists A B res = appendDiff res (oracleDiff A B) := by
  intro n
  induction n with
  | zero =>
      intro A B res hn hsA hsB
      cases A with
      | cons p ps => simp at hn
      | nil =>
          cases B with
          | cons q qs => simp at hn
          | nil =>
              simp only [diffPairLists, oracleDiff_nil_left]
              cases res
              simp [appendDiff]
  | succ n ih =>
      intro A B res hn hsA hsB
      cases A with
      | nil =>
          cases B with
          | nil =>
              simp only [diffPairLists, oracleDiff_nil_left]
              cases res
              simp [appendDiff]
          | cons q qs =>
              simp only [diffPairLists]
              rw [ih [] qs _ (by simp at hn ⊢; omega) hsA
                (sortedKeys_sublist (List.sublist_cons_self q qs) hsB)]
              rw [oracleDiff_nil_left, oracleDiff_nil_left]
              cases res
              simp [appendDiff]
      | cons p ps =>
          have hsA' := sortedKeys_sublist (List.sublist_cons_self p ps) hsA
          cases B with
          | nil =>
              simp only [diffPairLists]
              rw [ih ps [] _ (by simp at hn ⊢; omega) hsA' hsB]
              rw [oracleDiff_nil_right, oracleDiff_nil_right]
              cases res
              simp [appendDiff]
          | cons q qs =>
              have hsB' := sortedKeys_sublist (List.sublist_cons_self q qs) hsB
              have hApw := (List.pairwise_cons.mp (sortedKeys_pairwise hsA)).1
              have hBpw := (List.pairwise_cons.mp (sortedKeys_pairwise hsB)).1
              rcases hcmp : bytesCompare p.key q.key with _ | _ | _
              · have hlt : keyLt p.key q.key := hcmp
                have hBne : ∀ b ∈ q :: qs, b.key ≠ p.key := by
                  intro b hb
                  rcases List.mem_cons.mp hb with rfl | hb
                  · exact Ne.symm (keyLt_ne hlt)
                  · exact Ne.symm (keyLt_ne (keyLt_trans hlt (hBpw b hb)))
                simp only [diffPairLists, hcmp]
                rw [ih ps (q :: qs) _ (by simp at hn ⊢; omega) hsA' hsB]
                rw [oracle_step_lt hBne]
                exact appendDiff_deleted_shift res (oracleDiff ps (q :: qs))
                  p.key
              · have hpq : p.key = q.key := bytesCompare_eq_iff.mp hcmp
                have hA : ∀ a ∈ ps, a.key ≠ q.key := by
                  intro a ha
                  have h1 : keyLt q.key a.key := hpq ▸ hApw a ha
                  exact Ne.symm (keyLt_ne h1)
                have hB : ∀ b ∈ qs, b.key ≠ p.key := by
                  intro b hb
                  have h1 : keyLt p.key b.key := by
                    rw [hpq]; exact hBpw b hb
                  exact Ne.symm (keyLt_ne h1)
                simp only [diffPairLists, hcmp]
                rw [oracle_step_eq hpq hA hB]
                by_cases hv : p.value = q.value
                · rw [if_pos hv]
                  rw [ih ps qs _ (by simp at hn ⊢; omega) hsA' hsB']
                  rw [if_pos hv.symm]
                  simp
                · rw [if_neg hv]
                  rw [ih ps qs _ (by simp at hn ⊢; omega) hsA' hsB']
                  rw [if_neg (fun he => hv he.symm)]
                  exact appendDiff_modified_shift res (oracleDiff ps qs) _
              · have hgt : keyLt q.key p.key := bytesCompare_gt_iff.mp hcmp
                have hAne : ∀ a ∈ p :: ps, a.key ≠ q.key := by
                  intro a ha
                  rcases List.mem_cons.mp ha with rfl | ha
                  · exact Ne.symm (keyLt_ne hgt)
                  · exact Ne.symm (keyLt_ne (keyLt_trans hgt (hApw a ha)))
                simp only [diffPairLists, hcmp]
                rw [ih (p :: ps) qs _ (by simp at hn ⊢; omega) hsA hsB']
                rw [oracle_step_gt hAne]
                exact appendDiff_added_shift res (oracleDiff (p :: ps) qs) q

/-! ## Stored subtrees are functional in their digest -/

theorem serializeNode_decode_eq {n1 n2 : Node} (hwf1 : wfNode n1)
    (hwf2 : wfNode n2) (h : serializeNode n1 = serializeNode n2) :
    n1 = n2 := by
  have h1 := deserializeNode_encode n1 hwf1
  have h2 := deserializeNode_encode n2 hwf2
  rw [h, h2] at h1
  injection h1 with h3
  exact h3.symm

theorem PT_functional {cas : CAS} :
    ∀ (d1 : Nat) {d2 : Nat} {h : Bytes} {ps1 ps2 : List KVPair},
      PT cas h ps1 d1 → PT cas h ps2 d2 → ps1 = ps2 := by
  intro d1
  induction d1 using Nat.strong_induction_on with
  | _ d1 ih =>
      intro d2 h ps1 ps2 h1 h2
      cases h1 with
      | leaf h ps1 d1 hread1 hwf1 =>
          cases h2 with
          | leaf _ ps2 d2 hread2 hwf2 =>
              rw [hread1] at hread2
              injection hread2 with he
              have hn := serializeNode_decode_eq hwf1 hwf2 he
              injection hn
          | internal _ refs2 pss2 d0 hread2 hwf2 hne2 hlen2 hchild2 hkeys2 =>
              rw [hread1] at hread2
              injection hread2 with he
              have hn := serializeNode_decode_eq hwf1 hwf2 he
              cases hn
      | internal h refs1 pss1 d0 hread1 hwf1 hne1 hlen1 hchild1 hkeys1 =>
          cases h2 with
          | leaf _ ps2 d2 hread2 hwf2 =>
              rw [hread1] at hread2
              injection hread2 with he
              have hn := serializeNode_decode_eq hwf1 hwf2 he
              cases hn
          | internal _ refs2 pss2 d0' hread2 hwf2 hne2 hlen2 hchild2 hkeys2 =>
              rw [hread1] at hread2
              injection hread2 with he
              have hn := serializeNode_decode_eq hwf1 hwf2 he
              injection hn with hrefs
              subst hrefs
              have hlen12 : pss1.length = pss2.length := by omega
              have hpss : pss1 = pss2 := by
                refine List.ext_get hlen12 fun i hi1 hi2 => ?_
                have hir : i < refs1.length := by omega
                exact ih d0 (by omega) (hchild1 i hir) (hchild2 i hir)
              rw [hpss]

/-! ## The diff collectors agree with the traverser collectors -/

theorem collectAll_eq (cas : CAS) : ∀ fuel,
    (∀ node, collectAllPairs cas fuel node = collectPairs cas fuel node) ∧
    (∀ rs, collectAllPairsFromChildren cas fuel rs =
      collectChildren cas fuel rs) := by
  intro fuel
  induction fuel with
  | zero =>
      have hnode : ∀ node, collectAllPairs cas 0 node =
          collectPairs cas 0 node := by
        intro node
        cases node <;> simp [collectAllPairs, collectPairs]
      refine ⟨hnode, ?_⟩
      intro rs
      induction rs with
      | nil => simp [collectAllPairsFromChildren, collectChildren]
      | cons r rest ihr =>
          simp only [collectAllPairsFromChildren, collectChildren]
          simp [hnode, ihr]
  | succ f ihf =>
      have hnode : ∀ node, collectAllPairs cas (f + 1) node =
          collectPairs cas (f + 1) node := by
        intro node
        cases node with
        | leaf ps => simp [collectAllPairs, collectPairs]
        | internal rs =>
            simp only [collectAllPairs, collectPairs]
            exact ihf.2 rs
      refine ⟨hnode, ?_⟩
      intro rs
      induction rs with
      | nil => simp [collectAllPairsFromChildren, collectChildren]
      | cons r rest ihr =>
          simp only [collectAllPairsFromChildren, collectChildren]
          simp [hnode, ihr]

/-! ## Oracle identities -/

theorem oracleDiff_self {A : List KVPair} (hs : SortedKeys A) :
    oracleDiff A A = emptyDiff := by
  simp only [oracleDiff, emptyDiff]
  congr 1
  · rw [List.filter_eq_nil_iff]
    intro q hq
    have : hasKey A q.key = true :=
      hasKey_true_iff.mpr ⟨q, hq, rfl⟩
    simp [this]
  · rw [List.filterMap_eq_nil_iff]
    intro p hp
    rw [lookupKey_of_mem_sorted hs hp]
    simp
  · have hf : (A.filter fun p => !hasKey A p.key) = [] := by
      rw [List.filter_eq_nil_iff]
      intro p hp
      have : hasKey A p.key = true :=
        hasKey_true_iff.mpr ⟨p, hp, rfl⟩
      simp [this]
    rw [hf]
    rfl

theorem hasKey_append (xs ys : List KVPair) (k : Bytes) :
    hasKey (xs ++ ys) k = (hasKey xs k || hasKey ys k) := by
  simp [hasKey]

theorem oracleDiff_append {A1 A2 B1 B2 : List KVPair}
    (hA1B2 : ∀ p ∈ A1, ∀ q ∈ B2, keyLt p.key q.key)
    (hB1A2 : ∀ p ∈ B1, ∀ q ∈ A2, keyLt p.key q.key) :
    oracleDiff (A1 ++ A2) (B1 ++ B2) =
      appendDiff (oracleDiff A1 B1) (oracleDiff A2 B2) := by
  simp only [oracleDiff, appendDiff]
  congr 1
  · rw [List.filter_append]
    congr 1
    · refine List.filter_congr fun b hb => ?_
      have h2 : hasKey A2 b.key = false := by
        rw [hasKey_false_iff]
        intro q hq he
        exact keyLt_ne (hB1A2 b hb q hq) he.symm
      rw [hasKey_append, h2]
      simp
    · refine List.filter_congr fun b hb => ?_
      have h1 : hasKey A1 b.key = false := by
        rw [hasKey_false_iff]
        intro q hq he
        exact keyLt_ne (hA1B2 q hq b hb) he
      rw [hasKey_append, h1]
      simp
  · rw [List.filterMap_append]
    congr 1
    · refine List.filterMap_congr fun a ha => ?_
      have hlk : lookupKey (B1 ++ B2) a.key = lookupKey B1 a.key := by
        cases hl1 : lookupKey B1 a.key with
        | some v => exact lookupKey_append_left hl1
        | none =>
            rw [lookupKey_append_right hl1]
            rw [lookupKey_none_iff]
            intro q hq he
            exact keyLt_ne (hA1B2 a ha q hq) he.symm
      rw [hlk]
    · refine List.filterMap_congr fun a ha => ?_
      have hl1 : lookupKey B1 a.key = none := by
        rw [lookupKey_none_iff]
        intro q hq he
        exact keyLt_ne (hB1A2 q hq a ha) he
      rw [lookupKey_append_right hl1]
  · rw [List.filter_append, List.map_append]
    congr 1
    · refine congrArg _ (List.filter_congr fun a ha => ?_)
      have h2 : hasKey B2 a.key = false := by
        rw [hasKey_false_iff]
        intro q hq he
        exact keyLt_ne (hA1B2 a ha q hq) he.symm
      rw [hasKey_append, h2]
      simp
    · refine congrArg _ (List.filter_congr fun a ha => ?_)
      have h1 : hasKey B1 a.key = false := by
        rw [hasKey_false_iff]
        intro q hq he
        exact keyLt_ne (hB1A2 q hq a ha) he
      rw [hasKey_append, h1]
      simp

/-! ## The aligned child walk matches the oracle -/

theorem keysAligned_length : ∀ {as bs : List ChildRef},
    keysAligned as bs = true → as.length = bs.length := by
  intro as
  induction as with
  | nil =>
      intro bs h
      cases bs with
      | nil => rfl
      | cons b bs' => simp [keysAligned] at h
  | cons a as' ih =>
      intro bs h
      cases bs with
      | nil => simp [keysAligned] at h
      | cons b bs' =>
          simp only [keysAligned, Bool.and_eq_true] at h
          simp [ih h.2]

theorem PT_loadNode {cas : CAS} {h : Bytes} {ps : List KVPair} {d : Nat}
    (hpt : PT cas h ps d) : ∃ node, loadNode cas h = some node := by
  cases hpt with
  | leaf h ps d hread hwf => exact ⟨_, loadNode_of_read hread hwf⟩
  | internal h refs pss d hread hwf hne hlen hchild hkeys =>
      exact ⟨_, loadNode_of_read hread hwf⟩

theorem sep_aux {pa : List KVPair} {F G : List KVPair}
    (hsApair : ∀ p ∈ pa, ∀ x ∈ F, keyLt p.key x.key)
    (hsG : SortedKeys G)
    (hfk : G ≠ [] → F ≠ [] ∧ firstKey G = firstKey F) :
    ∀ p ∈ pa, ∀ q ∈ G, keyLt p.key q.key := by
  intro p hp q hq
  have hne : G ≠ [] := List.ne_nil_of_mem hq
  obtain ⟨hFne, hfke⟩ := hfk hne
  obtain ⟨f0, hf0, hf0k⟩ := firstKey_mem hFne
  have h1 : keyLt p.key (firstKey F) := by
    rw [← hf0k]
    exact hsApair p hp f0 hf0
  rw [← hfke] at h1
  rcases firstKey_le_of_mem hsG hq with he | hlt
  · rwa [he] at h1
  · exact keyLt_trans h1 hlt

theorem tails_firstKey_link {cas : CAS} {as bs : List ChildRef}
    {pas pbs : List (List KVPair)} {dA0 dB0 : Nat}
    (hFA : List.Forall₂ (fun r ps => PT cas r.hash ps dA0 ∧ ps ≠ [] ∧
      firstKey ps = r.key) as pas)
    (hFB : List.Forall₂ (fun r ps => PT cas r.hash ps dB0 ∧ ps ≠ [] ∧
      firstKey ps = r.key) bs pbs)
    (halign : keysAligned as bs = true) :
    pbs.flatten ≠ [] →
      pas.flatten ≠ [] ∧ firstKey pbs.flatten = firstKey pas.flatten := by
  intro hne
  cases pbs with
  | nil => exact absurd rfl hne
  | cons pb1 pbs' =>
      cases hFB with
      | cons hpb1 hFB' =>
          rename_i b1 bs'
          cases as with
          | nil => simp [keysAligned] at halign
          | cons a1 as' =>
              cases hFA with
              | cons hpa1 hFA' =>
                  rename_i pa1 pas'
                  simp only [keysAligned, Bool.and_eq_true,
                    decide_eq_true_eq] at halign
                  constructor
                  · simp only [List.flatten_cons]
                    have h1 := hpa1.2.1
                    cases pa1 with
                    | nil => exact absurd rfl h1
                    | cons x xs => simp
                  · simp only [List.flatten_cons]
                    rw [firstKey_append hpb1.2.1, firstKey_append hpa1.2.1,
                      hpb1.2.2, hpa1.2.2]
                    exact halign.1.symm

theorem keysAligned_symm : ∀ {as bs : List ChildRef},
    keysAligned as bs = true → keysAligned bs as = true := by
  intro as
  induction as with
  | nil =>
      intro bs h
      cases bs with
      | nil => rfl
      | cons b bs' => simp [keysAligned] at h
  | cons a as' ih =>
      intro bs h
      cases bs with
      | nil => simp [keysAligned] at h
      | cons b bs' =>
          simp only [keysAligned, Bool.and_eq_true, decide_eq_true_eq] at h
          simp only [keysAligned, Bool.and_eq_true, decide_eq_true_eq]
          exact ⟨h.1.symm, ih h.2⟩

theorem diffAligned_oracle {cas : CAS} {f : Nat}
    (hP : ∀ (dA dB : Nat) {hA : Bytes} {psA : List KVPair} {hB : Bytes}
      {psB : List KVPair} (res : DiffResult),
      PT cas hA psA dA → PT cas hB psB dB → SortedKeys psA →
      SortedKeys psB → dA ≤ f → dB ≤ f →
      ∀ {nA nB : Node}, loadNode cas hA = some nA →
        loadNode cas hB = some nB →
        diffNodes cas f nA nB res =
          some (appendDiff res (oracleDiff psA psB))) :
    ∀ (rsA : List ChildRef) (pssA : List (List KVPair))
      (rsB : List ChildRef) (pssB : List (List KVPair))
      (res : DiffResult) (dA0 dB0 : Nat),
      List.Forall₂ (fun r ps => PT cas r.hash ps dA0 ∧ ps ≠ [] ∧
        firstKey ps = r.key) rsA pssA →
      List.Forall₂ (fun r ps => PT cas r.hash ps dB0 ∧ ps ≠ [] ∧
        firstKey ps = r.key) rsB pssB →
      keysAligned rsA rsB = true →
      SortedKeys pssA.flatten → SortedKeys pssB.flatten →
      dA0 ≤ f → dB0 ≤ f →
      diffAlignedChildren cas f rsA rsB res =
        some (appendDiff res (oracleDiff pssA.flatten pssB.flatten)) := by
  intro rsA
  induction rsA with
  | nil =>
      intro pssA rsB pssB res dA0 dB0 hFA hFB halign hsA hsB hdA hdB
      cases hFA
      cases rsB with
      | cons b bs => simp [keysAligned] at halign
      | nil =>
          cases hFB
          simp only [diffAlignedChildren, List.flatten_nil,
            oracleDiff_nil_left]
          cases res
          simp [appendDiff]
  | cons a as ihA =>
      intro pssA rsB pssB res dA0 dB0 hFA hFB halign hsA hsB hdA hdB
      cases rsB with
      | nil => simp [keysAligned] at halign
      | cons b bs =>
          simp only [keysAligned, Bool.and_eq_true, decide_eq_true_eq]
            at halign
          cases hFA with
          | cons hpa hFA' =>
              rename_i pa pas
              cases hFB with
              | cons hpb hFB' =>
                  rename_i pb pbs
                  simp only [List.flatten_cons] at hsA hsB ⊢
                  have hsa : SortedKeys pa :=
                    sortedKeys_sublist (List.sublist_append_left _ _) hsA
                  have hsb : SortedKeys pb :=
                    sortedKeys_sublist (List.sublist_append_left _ _) hsB
                  have hsA' : SortedKeys pas.flatten :=
                    sortedKeys_sublist (List.sublist_append_right _ _) hsA
                  have hsB' : SortedKeys pbs.flatten :=
                    sortedKeys_sublist (List.sublist_append_right _ _) hsB
                  have hsepA : ∀ p ∈ pa, ∀ x ∈ pas.flatten,
                      keyLt p.key x.key := by
                    have hpw := sortedKeys_pairwise hsA
                    rw [List.pairwise_append] at hpw
                    exact hpw.2.2
                  have hsepB : ∀ p ∈ pb, ∀ x ∈ pbs.flatten,
                      keyLt p.key x.key := by
                    have hpw := sortedKeys_pairwise hsB
                    rw [List.pairwise_append] at hpw
                    exact hpw.2.2
                  have hsep1 : ∀ p ∈ pa, ∀ q ∈ pbs.flatten,
                      keyLt p.key q.key :=
                    sep_aux hsepA hsB'
                      (tails_firstKey_link hFA' hFB' halign.2)
                  have hsep2 : ∀ p ∈ pb, ∀ q ∈ pas.flatten,
                      keyLt p.key q.key :=
                    sep_aux hsepB hsA'
                      (tails_firstKey_link hFB' hFA'
                        (keysAligned_symm halign.2))
                  simp only [diffAlignedChildren]
                  by_cases hhash : a.hash = b.hash
                  · rw [if_pos hhash]
                    have hpbA : PT cas a.hash pb dB0 := by
                      rw [hhash]
                      exact hpb.1
                    have hpe : pa = pb := PT_functional dA0 hpa.1 hpbA
                    rw [ihA pas bs pbs res dA0 dB0 hFA' hFB' halign.2
                      hsA' hsB' hdA hdB]
                    refine congrArg some ?_
                    rw [oracleDiff_append hsep1 hsep2, ← hpe,
                      oracleDiff_self hsa, appendDiff_empty_left]
                  · rw [if_neg hhash]
                    obtain ⟨nA', hlnA⟩ := PT_loadNode hpa.1
                    obtain ⟨nB', hlnB⟩ := PT_loadNode hpb.1
                    have hdn := hP dA0 dB0 res hpa.1 hpb.1 hsa hsb hdA hdB
                      hlnA hlnB
                    simp only [hlnA, hlnB, Option.bind_eq_bind,
                      Option.some_bind, hdn]
                    rw [ihA pas bs pbs _ dA0 dB0 hFA' hFB' halign.2
                      hsA' hsB' hdA hdB]
                    refine congrArg some ?_
                    rw [oracleDiff_append hsep1 hsep2, appendDiff_assoc]

theorem collectChildren_of_forall₂ {cas : CAS} {f d0 : Nat} :
    ∀ {refs : List ChildRef} {pss : List (List KVPair)},
      List.Forall₂ (fun r ps => PT cas r.hash ps d0) refs pss → d0 ≤ f →
      collectChildren cas f refs = some pss.flatten := by
  intro refs pss hF hd
  induction hF with
  | nil => simp [collectChildren]
  | cons h0 htail ih =>
      obtain ⟨node, hln, hcp⟩ := collect_of_PT d0 h0 f hd
      simp [collectChildren, hln, hcp, ih, List.flatten_cons]

theorem diffNodes_oracle {cas : CAS} :
    ∀ (fuel dA dB : Nat) {hA : Bytes} {psA : List KVPair} {hB : Bytes}
      {psB : List KVPair} (res : DiffResult),
      PT cas hA psA dA → PT cas hB psB dB → SortedKeys psA →
      SortedKeys psB → dA ≤ fuel → dB ≤ fuel →
      ∀ {nA nB : Node}, loadNode cas hA = some nA →
        loadNode cas hB = some nB →
        diffNodes cas fuel nA nB res =
          some (appendDiff res (oracleDiff psA psB)) := by
  intro fuel
  induction fuel using Nat.strong_induction_on with
  | _ fuel ih =>
      intro dA dB hA psA hB psB res hptA hptB hsA hsB hdA hdB nA nB hlnA hlnB
      obtain ⟨nA0, hlnA0, hcpA⟩ := collect_of_PT dA hptA fuel hdA
      obtain ⟨nB0, hlnB0, hcpB⟩ := collect_of_PT dB hptB fuel hdB
      have hnAe : nA0 = nA := by
        rw [hlnA0] at hlnA; injection hlnA
      have hnBe : nB0 = nB := by
        rw [hlnB0] at hlnB; injection hlnB
      subst hnAe; subst hnBe
      cases hptA with
      | leaf hA psA dA hreadA hwfA =>
          have hnA : nA0 = .leaf psA := by
            have h1 := loadNode_of_read hreadA hwfA
            rw [h1] at hlnA0
            injection hlnA0 with h2
            exact h2.symm
          subst hnA
          cases hptB with
          | leaf hB psB dB hreadB hwfB =>
              have hnB : nB0 = .leaf psB := by
                have h1 := loadNode_of_read hreadB hwfB
                rw [h1] at hlnB0
                injection hlnB0 with h2
                exact h2.symm
              subst hnB
              simp only [diffNodes]
              rw [diffPairLists_oracle (psA.length + psB.length) psA psB res
                le_rfl hsA hsB]
          | internal hB refsB pssB dB0 hreadB hwfB hneB hlenB hchildB
              hkeysB =>
              have hnB : nB0 = .internal refsB := by
                have h1 := loadNode_of_read hreadB hwfB
                rw [h1] at hlnB0
                injection hlnB0 with h2
                exact h2.symm
              subst hnB
              simp only [diffNodes, (collectAll_eq cas fuel).1, hcpA, hcpB,
                Option.bind_eq_bind, Option.some_bind]
              rw [diffPairLists_oracle (psA.length + pssB.flatten.length)
                psA pssB.flatten res le_rfl hsA hsB]
      | internal hA refsA pssA dA0 hreadA hwfA hneA hlenA hchildA hkeysA =>
          have hnA : nA0 = .internal refsA := by
            have h1 := loadNode_of_read hreadA hwfA
            rw [h1] at hlnA0
            injection hlnA0 with h2
            exact h2.symm
          subst hnA
          cases hptB with
          | leaf hB psB dB hreadB hwfB =>
              have hnB : nB0 = .leaf psB := by
                have h1 := loadNode_of_read hreadB hwfB
                rw [h1] at hlnB0
                injection hlnB0 with h2
                exact h2.symm
              subst hnB
              simp only [diffNodes, (collectAll_eq cas fuel).1, hcpA, hcpB,
                Option.bind_eq_bind, Option.some_bind]
              rw [diffPairLists_oracle (pssA.flatten.length + psB.length)
                pssA.flatten psB res le_rfl hsA hsB]
          | internal hB refsB pssB dB0 hreadB hwfB hneB hlenB hchildB
              hkeysB =>
              have hnB : nB0 = .internal refsB := by
                have h1 := loadNode_of_read hreadB hwfB
                rw [h1] at hlnB0
                injection hlnB0 with h2
                exact h2.symm
              subst hnB
              simp only [diffNodes]
              have hFA : List.Forall₂ (fun r ps =>
                  PT cas r.hash ps dA0 ∧ ps ≠ [] ∧ firstKey ps = r.key)
                  refsA pssA :=
                List.forall₂_of_length_eq_of_get hlenA fun i h1 h2 =>
                  ⟨hchildA i h1, (hkeysA i h1).1, (hkeysA i h1).2⟩
              have hFB : List.Forall₂ (fun r ps =>
                  PT cas r.hash ps dB0 ∧ ps ≠ [] ∧ firstKey ps = r.key)
                  refsB pssB :=
                List.forall₂_of_length_eq_of_get hlenB fun i h1 h2 =>
                  ⟨hchildB i h1, (hkeysB i h1).1, (hkeysB i h1).2⟩
              by_cases halign : keysAligned refsA refsB = true
              · cases fuel with
                | zero => omega
                | succ f =>
                    have hPf : ∀ (dA' dB' : Nat) {hA' : Bytes}
                        {psA' : List KVPair} {hB' : Bytes}
                        {psB' : List KVPair} (res' : DiffResult),
                        PT cas hA' psA' dA' → PT cas hB' psB' dB' →
                        SortedKeys psA' → SortedKeys psB' →
                        dA' ≤ f → dB' ≤ f →
                        ∀ {nA' nB' : Node},
                          loadNode cas hA' = some nA' →
                          loadNode cas hB' = some nB' →
                          diffNodes cas f nA' nB' res' =
                            some (appendDiff res'
                              (oracleDiff psA' psB')) := by
                      intro dA' dB' hA' psA' hB' psB' res' h1 h2 h3 h4 h5
                        h6 nA' nB' l1 l2
                      exact ih f (Nat.lt_succ_self f) dA' dB' res' h1 h2
                        h3 h4 h5 h6 l1 l2
                    rw [diffInternalNodes.eq_def]
                    simp only [if_pos halign]
                    show diffAlignedChildren cas f refsA refsB res = _
                    exact diffAligned_oracle hPf refsA pssA refsB pssB res
                      dA0 dB0 hFA hFB halign hsA hsB (by omega) (by omega)
              · have hccA : collectAllPairsFromChildren cas fuel refsA =
                    some pssA.flatten := by
                  rw [(collectAll_eq cas fuel).2]
                  exact collectChildren_of_forall₂
                    (hFA.imp fun _ _ hx => hx.1) (by omega)
                have hccB : collectAllPairsFromChildren cas fuel refsB =
                    some pssB.flatten := by
                  rw [(collectAll_eq cas fuel).2]
                  exact collectChildren_of_forall₂
                    (hFB.imp fun _ _ hx => hx.1) (by omega)
                rw [diffInternalNodes.eq_def]
                simp only [if_neg halign]
                simp only [hccA, hccB, Option.bind_eq_bind,
                  Option.some_bind]
                rw [diffPairLists_oracle
                  (pssA.flatten.length + pssB.flatten.length)
                  pssA.flatten pssB.flatten res le_rfl hsA hsB]

theorem lookupKey_hasKey {ps : List KVPair} {k v : Bytes}
    (h : lookupKey ps k = some v) : hasKey ps k = true := by
  obtain ⟨j, hj, hk, _⟩ := lookupKey_some_get h
  exact hasKey_true_iff.mpr ⟨_, List.get_mem _ _ _, hk⟩

/-- C1: diff equals the oracle classification.  For sorted unique-key
sequences A and B built into the same store (injective 32-byte digest, no
uint32 truncation), Diff on the two roots returns exactly the oracle:
Added = B-pairs with keys absent from A, Modified = common keys with
differing values (old from A, new from B), Deleted = A-keys absent from B;
and the three parts are pairwise key-disjoint. -/
theorem diff_oracle_correct {H : Bytes → Bytes} (hInj : Function.Injective H)
    (HL : ∀ b, (H b).length = 32) (c : BuzhashChunker)
    {fuelA fuelB : Nat} {cas0 cas1 cas2 : CAS} {A B : List KVPair}
    {rootA rootB : Bytes}
    (hsA : SortedKeys A) (hsB : SortedKeys B)
    (hwf0 : casWF H cas0) (hpA : wfPairs A) (hpB : wfPairs B)
    (hbA : build H c fuelA cas0 A = some (rootA, cas1))
    (hbB : build H c fuelB cas1 B = some (rootB, cas2)) :
    (∃ n, ∀ f, n ≤ f → Diff cas2 f rootA rootB = some (oracleDiff A B)) ∧
    (∀ p ∈ (oracleDiff A B).added, ∀ k ∈ (oracleDiff A B).deleted,
      p.key ≠ k) ∧
    (∀ p ∈ (oracleDiff A B).added, ∀ m ∈ (oracleDiff A B).modified,
      p.key ≠ m.key) ∧
    (∀ k ∈ (oracleDiff A B).deleted, ∀ m ∈ (oracleDiff A B).modified,
      k ≠ m.key) := by
  obtain ⟨⟨dA, hPTA1⟩, hwf1, _⟩ := build_PT hInj HL c hwf0 hpA hbA
  obtain ⟨⟨dB, hPTB⟩, hwf2, hext⟩ := build_PT hInj HL c hwf1 hpB hbB
  have hPTA : PT cas2 rootA A dA := PT_mono_cas hext hPTA1
  refine ⟨⟨max dA dB, fun f hf => ?_⟩, ?_, ?_, ?_⟩
  · unfold Diff
    by_cases hroot : rootA = rootB
    · rw [if_pos hroot]
      have hPTB' : PT cas2 rootA B dB := by
        rw [hroot]; exact hPTB
      have hAB : A = B := PT_functional dA hPTA hPTB'
      rw [hAB, oracleDiff_self hsB]
    · rw [if_neg hroot]
      obtain ⟨nA, hlnA⟩ := PT_loadNode hPTA
      obtain ⟨nB, hlnB⟩ := PT_loadNode hPTB
      have hd := diffNodes_oracle f dA dB emptyDiff hPTA hPTB hsA hsB
        (le_trans (le_max_left dA dB) hf)
        (le_trans (le_max_right dA dB) hf) hlnA hlnB
      simp [hlnA, hlnB, hd, appendDiff_empty_left]
  · intro p hp k hk he
    simp only [oracleDiff, List.mem_filter, Bool.not_eq_eq_eq_not,
      Bool.not_true] at hp
    simp only [oracleDiff, List.mem_map, List.mem_filter] at hk
    obtain ⟨a, ⟨haA, _⟩, hak⟩ := hk
    have htrue : hasKey A p.key = true :=
      hasKey_true_iff.mpr ⟨a, haA, by rw [hak, ← he]⟩
    rw [htrue] at hp
    exact absurd hp.2 (by simp)
  · intro p hp m hm he
    simp only [oracleDiff, List.mem_filter, Bool.not_eq_eq_eq_not,
      Bool.not_true] at hp
    simp only [oracleDiff, List.mem_filterMap] at hm
    obtain ⟨a, haA, hfa⟩ := hm
    cases hl : lookupKey B a.key with
    | none => simp only [hl] at hfa; cases hfa
    | some v =>
        simp only [hl] at hfa
        by_cases hv : v = a.value
        · rw [if_pos hv] at hfa; cases hfa
        · rw [if_neg hv] at hfa
          injection hfa with hfa'
          have hmk : m.key = a.key := by rw [← hfa']
          have htrue : hasKey A p.key = true :=
            hasKey_true_iff.mpr ⟨a, haA, by rw [← hmk, ← he]⟩
          rw [htrue] at hp
          exact absurd hp.2 (by simp)
  · intro k hk m hm he
    simp only [oracleDiff, List.mem_map, List.mem_filter,
      Bool.not_eq_eq_eq_not, Bool.not_true] at hk
    simp only [oracleDiff, List.mem_filterMap] at hm
    obtain ⟨a, ⟨haA, hanB⟩, hak⟩ := hk
    obtain ⟨a', haA', hfa⟩ := hm
    cases hl : lookupKey B a'.key with
    | none => simp only [hl] at hfa; cases hfa
    | some v =>
        simp only [hl] at hfa
        by_cases hv : v = a'.value
        · rw [if_pos hv] at hfa; cases hfa
        · rw [if_neg hv] at hfa
          injection hfa with hfa'
          have hmk : m.key = a'.key := by rw [← hfa']
          have hhk : hasKey B a.key = true := by
            rw [hak, he, hmk]
            exact lookupKey_hasKey hl
          rw [hhk] at hanB
          exact absurd hanB (by simp)

/-- Witness for C1: diff evaluated over two concrete three/three-pair trees
exhibiting one addition, one modification and one deletion. -/
theorem diff_oracle_correct_witness :
    ∃ rootA cas1 rootB cas2,
      build modelHash defaultChunker 2 []
        [⟨[1], [10]⟩, ⟨[2], [20]⟩, ⟨[3], [30]⟩] = some (rootA, cas1) ∧
      build modelHash defaultChunker 2 cas1
        [⟨[2], [21]⟩, ⟨[3], [30]⟩, ⟨[4], [40]⟩] = some (rootB, cas2) ∧
      ∃ n, ∀ f, n ≤ f → Diff cas2 f rootA rootB =
        some (oracleDiff [⟨[1], [10]⟩, ⟨[2], [20]⟩, ⟨[3], [30]⟩]
          [⟨[2], [21]⟩, ⟨[3], [30]⟩, ⟨[4], [40]⟩]) := by
  have h1 : (build modelHash defaultChunker 2 []
      ([⟨[1], [10]⟩, ⟨[2], [20]⟩, ⟨[3], [30]⟩] : List KVPair)).isSome
      = true := by decide
  obtain ⟨⟨rootA, cas1⟩, hA⟩ := Option.isSome_iff_exists.mp h1
  have h2 : ((build modelHash defaultChunker 2 []
      ([⟨[1], [10]⟩, ⟨[2], [20]⟩, ⟨[3], [30]⟩] : List KVPair)).bind
      fun rc => build modelHash defaultChunker 2 rc.2
        [⟨[2], [21]⟩, ⟨[3], [30]⟩, ⟨[4], [40]⟩]).isSome = true := by decide
  rw [hA, Option.some_bind] at h2
  obtain ⟨⟨rootB, cas2⟩, hB⟩ := Option.isSome_iff_exists.mp h2
  have hsA : SortedKeys [⟨[1], [10]⟩, ⟨[2], [20]⟩, ⟨[3], [30]⟩] := by
    simp only [SortedKeys, List.chain'_cons, List.chain'_singleton, and_true]
    refine ⟨?_, ?_⟩ <;> decide
  have hsB : SortedKeys [⟨[2], [21]⟩, ⟨[3], [30]⟩, ⟨[4], [40]⟩] := by
    simp only [SortedKeys, List.chain'_cons, List.chain'_singleton, and_true]
    refine ⟨?_, ?_⟩ <;> decide
  exact ⟨rootA, cas1, rootB, cas2, hA, hB,
    (diff_oracle_correct modelHash_inj modelHash_length defaultChunker
      hsA hsB (fun e he => absurd he (List.not_mem_nil e))
      (by decide) (by decide) hA hB).1⟩

/-! ## Oracle symmetry (claim C7) -/

theorem oracleModified_swap :
    ∀ (n : Nat) (A B : List KVPair), A.length + B.length ≤ n →
      SortedKeys A → SortedKeys B →
      (oracleDiff B A).modified = (oracleDiff A B).modified.map swapMod := by
  intro n
  induction n with
  | zero =>
      intro A B hn hsA hsB
      cases A with
      | cons p ps => simp at hn
      | nil =>
          cases B with
          | cons q qs => simp at hn
          | nil => simp [oracleDiff]
  | succ n ih =>
      intro A B hn hsA hsB
      cases A with
      | nil =>
          simp only [oracleDiff, List.filterMap_nil, List.map_nil]
          rw [List.filterMap_eq_nil_iff]
          intro b hb
          rw [show lookupKey ([] : List KVPair) b.key = none from rfl]
      | cons a as =>
          have hsA' := sortedKeys_sublist (List.sublist_cons_self a as) hsA
          have hApw := (List.pairwise_cons.mp (sortedKeys_pairwise hsA)).1
          cases B with
          | nil =>
              simp only [oracleDiff, List.filterMap_nil, List.map_nil]
              have h0 : ((a :: as).filterMap fun p =>
                  match lookupKey ([] : List KVPair) p.key with
                  | some v => if v = p.value then none else
                      some (ModifiedPair.mk p.key p.value v)
                  | none => none) = [] :=
                List.filterMap_eq_nil_iff.mpr fun x _ => rfl
              rw [h0]
              rfl
          | cons b bs =>
              have hsB' := sortedKeys_sublist (List.sublist_cons_self b bs)
                hsB
              have hBpw := (List.pairwise_cons.mp (sortedKeys_pairwise hsB)).1
              rcases hcmp : bytesCompare a.key b.key with _ | _ | _
              · -- a.key < every key of b :: bs
                have hlt : keyLt a.key b.key := hcmp
                have hBne : ∀ b' ∈ b :: bs, b'.key ≠ a.key := by
                  intro b' hb'
                  rcases List.mem_cons.mp hb' with rfl | hb'
                  · exact Ne.symm (keyLt_ne hlt)
                  · exact Ne.symm (keyLt_ne (keyLt_trans hlt (hBpw b' hb')))
                have hL : (oracleDiff (b :: bs) (a :: as)).modified =
                    (oracleDiff (b :: bs) as).modified := by
                  simp only [oracleDiff]
                  refine List.filterMap_congr fun x hx => ?_
                  rw [lookupKey_cons_ne (fun he => hBne x hx he.symm)]
                have hR : (oracleDiff (a :: as) (b :: bs)).modified =
                    (oracleDiff as (b :: bs)).modified := by
                  simp only [oracleDiff, List.filterMap_cons]
                  have hnone : lookupKey (b :: bs) a.key = none :=
                    lookupKey_none_iff.mpr hBne
                  simp only [hnone]
                rw [hL, hR]
                exact ih as (b :: bs) (by simp at hn ⊢; omega) hsA' hsB
              · -- equal heads
                have hab : a.key = b.key := bytesCompare_eq_iff.mp hcmp
                have hAs : ∀ x ∈ as, x.key ≠ b.key := by
                  intro x hx
                  have h1 : keyLt b.key x.key := hab ▸ hApw x hx
                  exact Ne.symm (keyLt_ne h1)
                have hBs : ∀ x ∈ bs, x.key ≠ a.key := by
                  intro x hx
                  have h1 : keyLt a.key x.key := by
                    rw [hab]; exact hBpw x hx
                  exact Ne.symm (keyLt_ne h1)
                have hlkL : lookupKey (a :: as) b.key = some a.value := by
                  simp [lookupKey, hab]
                have hlkR : lookupKey (b :: bs) a.key = some b.value := by
                  simp [lookupKey, hab.symm]
                have hcongrL : bs.filterMap (fun x =>
                    match lookupKey (a :: as) x.key with
                    | some v => if v = x.value then none else
                        some (ModifiedPair.mk x.key x.value v)
                    | none => none) = bs.filterMap fun x =>
                    match lookupKey as x.key with
                    | some v => if v = x.value then none else
                        some (ModifiedPair.mk x.key x.value v)
                    | none => none :=
                  List.filterMap_congr fun x hx => by
                    rw [lookupKey_cons_ne
                      (fun (he : a.key = x.key) => hBs x hx he.symm)]
                have hcongrR : as.filterMap (fun x =>
                    match lookupKey (b :: bs) x.key with
                    | some v => if v = x.value then none else
                        some (ModifiedPair.mk x.key x.value v)
                    | none => none) = as.filterMap fun x =>
                    match lookupKey bs x.key with
                    | some v => if v = x.value then none else
                        some (ModifiedPair.mk x.key x.value v)
                    | none => none :=
                  List.filterMap_congr fun x hx => by
                    rw [lookupKey_cons_ne
                      (fun (he : b.key = x.key) => hAs x hx he.symm)]
                have hih := ih as bs (by simp at hn ⊢; omega) hsA' hsB'
                simp only [oracleDiff, List.filterMap_cons, hlkL, hlkR]
                simp only [oracleDiff] at hih
                by_cases hv : a.value = b.value
                · simp only [if_pos hv, if_pos hv.symm]
                  rw [hcongrL, hcongrR, hih]
                · simp only [if_neg hv, if_neg (fun (he : b.value = a.value) => hv he.symm)]
                  rw [hcongrL, hcongrR, hih]
                  simp only [List.map_cons, swapMod]
                  congr 2
                  rw [hab]
              · -- b.key < every key of a :: as
                have hgt : keyLt b.key a.key := bytesCompare_gt_iff.mp hcmp
                have hAne : ∀ a' ∈ a :: as, a'.key ≠ b.key := by
                  intro a' ha'
                  rcases List.mem_cons.mp ha' with rfl | ha'
                  · exact Ne.symm (keyLt_ne hgt)
                  · exact Ne.symm (keyLt_ne (keyLt_trans hgt (hApw a' ha')))
                have hL : (oracleDiff (b :: bs) (a :: as)).modified =
                    (oracleDiff bs (a :: as)).modified := by
                  simp only [oracleDiff, List.filterMap_cons]
                  have hnone : lookupKey (a :: as) b.key = none :=
                    lookupKey_none_iff.mpr hAne
                  simp only [hnone]
                have hR : (oracleDiff (a :: as) (b :: bs)).modified =
                    (oracleDiff (a :: as) bs).modified := by
                  simp only [oracleDiff]
                  refine List.filterMap_congr fun x hx => ?_
                  rw [lookupKey_cons_ne (fun he => hAne x hx he.symm)]
                rw [hL, hR]
                exact ih (a :: as) bs (by simp at hn ⊢; omega) hsA hsB'

theorem Diff_oracle_of_PT {cas : CAS} {dA dB : Nat} {rootA rootB : Bytes}
    {A B : List KVPair} (hPTA : PT cas rootA A dA)
    (hPTB : PT cas rootB B dB) (hsA : SortedKeys A) (hsB : SortedKeys B)
    {f : Nat} (hfA : dA ≤ f) (hfB : dB ≤ f) :
    Diff cas f rootA rootB = some (oracleDiff A B) := by
  unfold Diff
  by_cases hroot : rootA = rootB
  · rw [if_pos hroot]
    have hPTB' : PT cas rootA B dB := by rw [hroot]; exact hPTB
    have hAB : A = B := PT_functional dA hPTA hPTB'
    rw [hAB, oracleDiff_self hsB]
  · rw [if_neg hroot]
    obtain ⟨nA, hlnA⟩ := PT_loadNode hPTA
    obtain ⟨nB, hlnB⟩ := PT_loadNode hPTB
    have hd := diffNodes_oracle f dA dB emptyDiff hPTA hPTB hsA hsB hfA hfB
      hlnA hlnB
    simp [hlnA, hlnB, hd, appendDiff_empty_left]

/-- C7: diff symmetry.  With both trees built into one store, the diffs in
the two directions correspond: the added pairs of one direction carry
exactly the deleted keys of the other (same key list, values read back
from the source sequence), and the modified entries agree with old and new
values swapped. -/
theorem diff_symmetric {H : Bytes → Bytes} (hInj : Function.Injective H)
    (HL : ∀ b, (H b).length = 32) (c : BuzhashChunker)
    {fuelA fuelB : Nat} {cas0 cas1 cas2 : CAS} {A B : List KVPair}
    {rootA rootB : Bytes}
    (hsA : SortedKeys A) (hsB : SortedKeys B)
    (hwf0 : casWF H cas0) (hpA : wfPairs A) (hpB : wfPairs B)
    (hbA : build H c fuelA cas0 A = some (rootA, cas1))
    (hbB : build H c fuelB cas1 B = some (rootB, cas2)) :
    ∃ n, ∀ f, n ≤ f → ∃ dAB dBA,
      Diff cas2 f rootA rootB = some dAB ∧
      Diff cas2 f rootB rootA = some dBA ∧
      dAB.added.map (fun p => p.key) = dBA.deleted ∧
      dAB.deleted = dBA.added.map (fun p => p.key) ∧
      dBA.modified = dAB.modified.map swapMod ∧
      (∀ p ∈ dAB.added, lookupKey B p.key = some p.value) ∧
      (∀ p ∈ dBA.added, lookupKey A p.key = some p.value) := by
  obtain ⟨⟨dA, hPTA1⟩, hwf1, _⟩ := build_PT hInj HL c hwf0 hpA hbA
  obtain ⟨⟨dB, hPTB⟩, hwf2, hext⟩ := build_PT hInj HL c hwf1 hpB hbB
  have hPTA : PT cas2 rootA A dA := PT_mono_cas hext hPTA1
  refine ⟨max dA dB, fun f hf => ?_⟩
  refine ⟨oracleDiff A B, oracleDiff B A,
    Diff_oracle_of_PT hPTA hPTB hsA hsB
      (le_trans (le_max_left dA dB) hf) (le_trans (le_max_right dA dB) hf),
    Diff_oracle_of_PT hPTB hPTA hsB hsA
      (le_trans (le_max_right dA dB) hf) (le_trans (le_max_left dA dB) hf),
    rfl, rfl,
    oracleModified_swap (A.length + B.length) A B le_rfl hsA hsB,
    ?_, ?_⟩
  · intro p hp
    simp only [oracleDiff, List.mem_filter] at hp
    exact lookupKey_of_mem_sorted hsB hp.1
  · intro p hp
    simp only [oracleDiff, List.mem_filter] at hp
    exact lookupKey_of_mem_sorted hsA hp.1

/-- Witness for C7: symmetry evaluated on two concrete three-pair trees. -/
theorem diff_symmetric_witness :
    ∃ rootA cas1 rootB cas2,
      build modelHash defaultChunker 2 []
        [⟨[1], [10]⟩, ⟨[2], [20]⟩, ⟨[5], [30]⟩] = some (rootA, cas1) ∧
      build modelHash defaultChunker 2 cas1
        [⟨[2], [21]⟩, ⟨[5], [30]⟩, ⟨[6], [40]⟩] = some (rootB, cas2) ∧
      ∃ n, ∀ f, n ≤ f → ∃ dAB dBA,
        Diff cas2 f rootA rootB = some dAB ∧
        Diff cas2 f rootB rootA = some dBA ∧
        dAB.added.map (fun p => p.key) = dBA.deleted ∧
        dAB.deleted = dBA.added.map (fun p => p.key) ∧
        dBA.modified = dAB.modified.map swapMod ∧
        (∀ p ∈ dAB.added,
          lookupKey [⟨[2], [21]⟩, ⟨[5], [30]⟩, ⟨[6], [40]⟩] p.key =
            some p.value) ∧
        (∀ p ∈ dBA.added,
          lookupKey [⟨[1], [10]⟩, ⟨[2], [20]⟩, ⟨[5], [30]⟩] p.key =
            some p.value) := by
  have h1 : (build modelHash defaultChunker 2 []
      ([⟨[1], [10]⟩, ⟨[2], [20]⟩, ⟨[5], [30]⟩] : List KVPair)).isSome
      = true := by decide
  obtain ⟨⟨rootA, cas1⟩, hA⟩ := Option.isSome_iff_exists.mp h1
  have h2 : ((build modelHash defaultChunker 2 []
      ([⟨[1], [10]⟩, ⟨[2], [20]⟩, ⟨[5], [30]⟩] : List KVPair)).bind
      fun rc => build modelHash defaultChunker 2 rc.2
        [⟨[2], [21]⟩, ⟨[5], [30]⟩, ⟨[6], [40]⟩]).isSome = true := by decide
  rw [hA, Option.some_bind] at h2
  obtain ⟨⟨rootB, cas2⟩, hB⟩ := Option.isSome_iff_exists.mp h2
  have hsA : SortedKeys [⟨[1], [10]⟩, ⟨[2], [20]⟩, ⟨[5], [30]⟩] := by
    simp only [SortedKeys, List.chain'_cons, List.chain'_singleton, and_true]
    refine ⟨?_, ?_⟩ <;> decide
  have hsB : SortedKeys [⟨[2], [21]⟩, ⟨[5], [30]⟩, ⟨[6], [40]⟩] := by
    simp only [SortedKeys, List.chain'_cons, List.chain'_singleton, and_true]
    refine ⟨?_, ?_⟩ <;> decide
  exact ⟨rootA, cas1, rootB, cas2, hA, hB,
    diff_symmetric modelHash_inj modelHash_length defaultChunker
      hsA hsB (fun e he => absurd he (List.not_mem_nil e))
      (by decide) (by decide) hA hB⟩

/-! ## Claim C4: the two diffInternalNodes variants diverge -/

theorem collectAllPairs_leaf (cas : CAS) (fuel : Nat) (ps : List KVPair) :
    collectAllPairs cas fuel (.leaf ps) = some ps := by
  cases fuel <;> rw [collectAllPairs.eq_def]

theorem collectChildrenA_nil (cas : CAS) (fuel : Nat) :
    collectAllPairsFromChildren cas fuel [] = some [] := by
  rw [collectAllPairsFromChildren.eq_def]

theorem collectChildrenA_cons (cas : CAS) (fuel : Nat) (r : ChildRef)
    (rs : List ChildRef) (n : Node) (ps qs all : List KVPair)
    (hl : loadNode cas r.hash = some n)
    (hp : collectAllPairs cas fuel n = some ps)
    (hrest : collectAllPairsFromChildren cas fuel rs = some qs)
    (hall : ps ++ qs = all) :
    collectAllPairsFromChildren cas fuel (r :: rs) = some all := by
  rw [collectAllPairsFromChildren.eq_def]
  simp only [hl, hp, hrest, Option.bind_eq_bind, Option.some_bind, hall]

theorem collectFromHash_eq (cas : CAS) (fuel : Nat) (h : Bytes) (n : Node)
    (ps : List KVPair) (hl : loadNode cas h = some n)
    (hp : collectAllPairs cas fuel n = some ps) :
    collectAllPairsFromHash cas fuel h = some ps := by
  unfold collectAllPairsFromHash
  rw [hl, Option.some_bind, hp]

theorem diffNodesA_leaf (cas : CAS) (fuel : Nat) (psA psB : List KVPair)
    (res : DiffResult) :
    diffNodesA cas fuel (.leaf psA) (.leaf psB) res =
      some (diffPairLists psA psB res) := by
  rw [diffNodesA.eq_def]

theorem diffNodesA_internal (cas : CAS) (fuel : Nat)
    (rsA rsB : List ChildRef) (res : DiffResult) :
    diffNodesA cas fuel (.internal rsA) (.internal rsB) res =
      diffInternalNodesA cas fuel rsA rsB res := by
  rw [diffNodesA.eq_def]

theorem diffInternalNodesA_succ (cas : CAS) (f : Nat)
    (rsA rsB : List ChildRef) (res : DiffResult) :
    diffInternalNodesA cas (f + 1) rsA rsB res =
      diffMergeLoopA cas f rsA rsB res := by
  rw [diffInternalNodesA.eq_def]

theorem mergeLoopA_nil_nil (cas : CAS) (fuel : Nat) (res : DiffResult) :
    diffMergeLoopA cas fuel [] [] res = some res := by
  simp only [diffMergeLoopA]
  rfl

theorem mergeLoopA_eq_step (cas : CAS) (fuel : Nat) (a b a2 b2 : ChildRef)
    (as bs : List ChildRef) (res res' : DiffResult) (nA nB : Node)
    (hk : bytesCompare a.key b.key = Ordering.eq)
    (hne : ¬ a.hash = b.hash)
    (hla : loadNode cas a.hash = some nA)
    (hlb : loadNode cas b.hash = some nB)
    (hdn : diffNodesA cas fuel nA nB res = some res') :
    diffMergeLoopA cas fuel (a :: a2 :: as) (b :: b2 :: bs) res =
      diffMergeLoopA cas fuel (a2 :: as) (b2 :: bs) res' := by
  simp only [diffMergeLoopA, hk, if_neg hne, hla, hlb, hdn,
    Option.bind_eq_bind, Option.some_bind]

theorem mergeLoopA_lt_last (cas : CAS) (fuel : Nat) (a b : ChildRef)
    (res : DiffResult) (pA pB bef over : List KVPair)
    (hk : bytesCompare a.key b.key = Ordering.lt)
    (hca : collectAllPairsFromHash cas fuel a.hash = some pA)
    (hcb : collectAllPairsFromHash cas fuel b.hash = some pB)
    (hbef : pA.filter (fun (p : KVPair) =>
      decide (bytesCompare p.key b.key = Ordering.lt)) = bef)
    (hov : pA.filter (fun (p : KVPair) =>
      ! decide (bytesCompare p.key b.key = Ordering.lt)) = over) :
    diffMergeLoopA cas fuel [a] [b] res =
      diffMergeLoopA cas fuel [] []
        (diffPairLists over pB
          { res with deleted := res.deleted ++
              bef.map fun (p : KVPair) => p.key }) := by
  simp only [diffMergeLoopA, hk, hca, hcb, Option.bind_eq_bind,
    Option.some_bind, hbef, hov, eq_self_iff_true, if_true]

theorem diffNodes_internal_step (cas : CAS) (fuel : Nat)
    (rsA rsB : List ChildRef) (res : DiffResult) :
    diffNodes cas fuel (.internal rsA) (.internal rsB) res =
      diffInternalNodes cas fuel rsA rsB res := by
  rw [diffNodes.eq_def]

theorem diffInternalNodes_misaligned (cas : CAS) (fuel : Nat)
    (rsA rsB : List ChildRef) (res : DiffResult) (pA pB : List KVPair)
    (hal : keysAligned rsA rsB = false)
    (hca : collectAllPairsFromChildren cas fuel rsA = some pA)
    (hcb : collectAllPairsFromChildren cas fuel rsB = some pB) :
    diffInternalNodes cas fuel rsA rsB res =
      some (diffPairLists pA pB res) := by
  rw [diffInternalNodes.eq_def]
  simp only [hal, Bool.false_eq_true, if_false, hca, hcb,
    Option.bind_eq_bind, Option.some_bind]

/-- C4: the two DiffEngine.diffInternalNodes implementations do NOT agree:
on the four-pair sequences A = [1,2,3,4 with 41-byte values] and B equal to
A except key 2 carries a 31-byte value, built with chunker (target 7, min
100, max 100), the child chunk boundaries drift, and the merge-walk variant
reports key 3 simultaneously as added and deleted although both trees store
it with the same value, while the aligned/collect variant reports only the
genuine modification of key 2. -/
theorem diff_variantA_diverges :
    ∃ (rootA : Bytes) (cas1 : CAS) (rootB : Bytes) (cas2 : CAS),
      build smallHash ⟨7, 100, 100⟩ 3 [] ([⟨[1], List.replicate 41 7⟩, ⟨[2], List.replicate 41 8⟩, ⟨[3], List.replicate 41 5⟩, ⟨[4], List.replicate 41 6⟩] : List KVPair) =
        some (rootA, cas1) ∧
      build smallHash ⟨7, 100, 100⟩ 3 cas1 ([⟨[1], List.replicate 41 7⟩, ⟨[2], List.replicate 31 9⟩, ⟨[3], List.replicate 41 5⟩, ⟨[4], List.replicate 41 6⟩] : List KVPair) =
        some (rootB, cas2) ∧
      SortedKeys ([⟨[1], List.replicate 41 7⟩, ⟨[2], List.replicate 41 8⟩, ⟨[3], List.replicate 41 5⟩, ⟨[4], List.replicate 41 6⟩] : List KVPair) ∧
      SortedKeys ([⟨[1], List.replicate 41 7⟩, ⟨[2], List.replicate 31 9⟩, ⟨[3], List.replicate 41 5⟩, ⟨[4], List.replicate 41 6⟩] : List KVPair) ∧
      ∃ resA resB : DiffResult,
        DiffA cas2 9 rootA rootB = some resA ∧
        Diff cas2 9 rootA rootB = some resB ∧
        resA ≠ resB ∧
        resA.deleted = [[3]] ∧
        (⟨[3], List.replicate 41 5⟩ : KVPair) ∈ resA.added ∧
        lookupKey ([⟨[1], List.replicate 41 7⟩, ⟨[2], List.replicate 41 8⟩, ⟨[3], List.replicate 41 5⟩, ⟨[4], List.replicate 41 6⟩] : List KVPair) [3] = some (List.replicate 41 5) ∧
        lookupKey ([⟨[1], List.replicate 41 7⟩, ⟨[2], List.replicate 31 9⟩, ⟨[3], List.replicate 41 5⟩, ⟨[4], List.replicate 41 6⟩] : List KVPair) [3] = some (List.replicate 41 5) ∧
        resB.deleted = [] ∧ resB.added = [] := by
  have h1 : (build smallHash ⟨7, 100, 100⟩ 3 []
      ([⟨[1], List.replicate 41 7⟩, ⟨[2], List.replicate 41 8⟩, ⟨[3], List.replicate 41 5⟩, ⟨[4], List.replicate 41 6⟩] : List KVPair)).isSome = true := by decide
  obtain ⟨rc1, hA⟩ := Option.isSome_iff_exists.mp h1
  obtain ⟨ra, cas1⟩ := rc1
  have hra0 : ((build smallHash ⟨7, 100, 100⟩ 3 []
      ([⟨[1], List.replicate 41 7⟩, ⟨[2], List.replicate 41 8⟩, ⟨[3], List.replicate 41 5⟩, ⟨[4], List.replicate 41 6⟩] : List KVPair)).map fun rc => rc.1) =
      some ([35, 55, 12, 16, 218, 86, 140, 93, 185, 159, 96, 106, 194, 155, 212, 76, 107, 176, 229, 133, 114, 206, 241, 158, 3, 203, 217, 131, 33, 27, 99, 120] : Bytes) := by decide
  rw [hA, Option.map_some'] at hra0
  have hra : ra = ([35, 55, 12, 16, 218, 86, 140, 93, 185, 159, 96, 106, 194, 155, 212, 76, 107, 176, 229, 133, 114, 206, 241, 158, 3, 203, 217, 131, 33, 27, 99, 120] : Bytes) := Option.some.inj hra0
  subst hra
  have h2 : ((build smallHash ⟨7, 100, 100⟩ 3 []
      ([⟨[1], List.replicate 41 7⟩, ⟨[2], List.replicate 41 8⟩, ⟨[3], List.replicate 41 5⟩, ⟨[4], List.replicate 41 6⟩] : List KVPair)).bind fun rc =>
      build smallHash ⟨7, 100, 100⟩ 3 rc.2 ([⟨[1], List.replicate 41 7⟩, ⟨[2], List.replicate 31 9⟩, ⟨[3], List.replicate 41 5⟩, ⟨[4], List.replicate 41 6⟩] : List KVPair)).isSome =
      true := by decide
  rw [hA] at h2
  simp only [Option.some_bind] at h2
  obtain ⟨rc2, hB⟩ := Option.isSome_iff_exists.mp h2
  obtain ⟨rb, cas2⟩ := rc2
  have hrb0 : ((build smallHash ⟨7, 100, 100⟩ 3 []
      ([⟨[1], List.replicate 41 7⟩, ⟨[2], List.replicate 41 8⟩, ⟨[3], List.replicate 41 5⟩, ⟨[4], List.replicate 41 6⟩] : List KVPair)).bind fun rc =>
      (build smallHash ⟨7, 100, 100⟩ 3 rc.2 ([⟨[1], List.replicate 41 7⟩, ⟨[2], List.replicate 31 9⟩, ⟨[3], List.replicate 41 5⟩, ⟨[4], List.replicate 41 6⟩] : List KVPair)).map
        fun rc2 => rc2.1) = some ([78, 15, 100, 98, 21, 46, 20, 191, 80, 157, 173, 68, 176, 142, 206, 243, 219, 117, 150, 37, 13, 164, 206, 60, 91, 185, 149, 29, 145, 28, 252, 83] : Bytes) := by decide
  rw [hA] at hrb0
  simp only [Option.some_bind] at hrb0
  rw [hB, Option.map_some'] at hrb0
  have hrb : rb = ([78, 15, 100, 98, 21, 46, 20, 191, 80, 157, 173, 68, 176, 142, 206, 243, 219, 117, 150, 37, 13, 164, 206, 60, 91, 185, 149, 29, 145, 28, 252, 83] : Bytes) := Option.some.inj hrb0
  subst hrb
  have hl1 : ((build smallHash ⟨7, 100, 100⟩ 3 []
      ([⟨[1], List.replicate 41 7⟩, ⟨[2], List.replicate 41 8⟩, ⟨[3], List.replicate 41 5⟩, ⟨[4], List.replicate 41 6⟩] : List KVPair)).bind fun rc =>
      (build smallHash ⟨7, 100, 100⟩ 3 rc.2 ([⟨[1], List.replicate 41 7⟩, ⟨[2], List.replicate 31 9⟩, ⟨[3], List.replicate 41 5⟩, ⟨[4], List.replicate 41 6⟩] : List KVPair)).bind
        fun rc2 => some (loadNode rc2.2 ([35, 55, 12, 16, 218, 86, 140, 93, 185, 159, 96, 106, 194, 155, 212, 76, 107, 176, 229, 133, 114, 206, 241, 158, 3, 203, 217, 131, 33, 27, 99, 120] : Bytes))) =
      some (some (Node.internal [⟨[1], [148, 134, 162, 250, 95, 109, 172, 37, 66, 195, 223, 58, 45, 140, 152, 67, 98, 24, 175, 187, 117, 90, 205, 62, 254, 113, 182, 89, 63, 10, 62, 209]⟩, ⟨[3], [244, 201, 226, 191, 236, 85, 51, 216, 7, 180, 88, 95, 165, 198, 66, 118, 65, 247, 215, 40, 21, 158, 220, 186, 178, 159, 44, 6, 170, 5, 13, 227]⟩])) := by decide
  rw [hA] at hl1
  simp only [Option.some_bind] at hl1
  rw [hB] at hl1
  simp only [Option.some_bind] at hl1
  have hlRA := Option.some.inj hl1
  have hl2 : ((build smallHash ⟨7, 100, 100⟩ 3 []
      ([⟨[1], List.replicate 41 7⟩, ⟨[2], List.replicate 41 8⟩, ⟨[3], List.replicate 41 5⟩, ⟨[4], List.replicate 41 6⟩] : List KVPair)).bind fun rc =>
      (build smallHash ⟨7, 100, 100⟩ 3 rc.2 ([⟨[1], List.replicate 41 7⟩, ⟨[2], List.replicate 31 9⟩, ⟨[3], List.replicate 41 5⟩, ⟨[4], List.replicate 41 6⟩] : List KVPair)).bind
        fun rc2 => some (loadNode rc2.2 ([78, 15, 100, 98, 21, 46, 20, 191, 80, 157, 173, 68, 176, 142, 206, 243, 219, 117, 150, 37, 13, 164, 206, 60, 91, 185, 149, 29, 145, 28, 252, 83] : Bytes))) =
      some (some (Node.internal [⟨[1], [164, 254, 48, 174, 237, 107, 224, 95, 37, 212, 142, 159, 29, 129, 110, 91, 252, 70, 1, 243, 155, 221, 65, 168, 130, 48, 54, 90, 50, 154, 139, 51]⟩, ⟨[4], [149, 233, 142, 173, 136, 200, 120, 176, 112, 36, 230, 237, 89, 108, 155, 184, 157, 122, 78, 233, 244, 200, 59, 99, 239, 88, 44, 85, 146, 184, 4, 47]⟩])) := by decide
  rw [hA] at hl2
  simp only [Option.some_bind] at hl2
  rw [hB] at hl2
  simp only [Option.some_bind] at hl2
  have hlRB := Option.some.inj hl2
  have hl3 : ((build smallHash ⟨7, 100, 100⟩ 3 []
      ([⟨[1], List.replicate 41 7⟩, ⟨[2], List.replicate 41 8⟩, ⟨[3], List.replicate 41 5⟩, ⟨[4], List.replicate 41 6⟩] : List KVPair)).bind fun rc =>
      (build smallHash ⟨7, 100, 100⟩ 3 rc.2 ([⟨[1], List.replicate 41 7⟩, ⟨[2], List.replicate 31 9⟩, ⟨[3], List.replicate 41 5⟩, ⟨[4], List.replicate 41 6⟩] : List KVPair)).bind
        fun rc2 => some (loadNode rc2.2 ([148, 134, 162, 250, 95, 109, 172, 37, 66, 195, 223, 58, 45, 140, 152, 67, 98, 24, 175, 187, 117, 90, 205, 62, 254, 113, 182, 89, 63, 10, 62, 209] : Bytes))) =
      some (some (Node.leaf [(⟨[1], List.replicate 41 7⟩), (⟨[2], List.replicate 41 8⟩)])) := by decide
  rw [hA] at hl3
  simp only [Option.some_bind] at hl3
  rw [hB] at hl3
  simp only [Option.some_bind] at hl3
  have hlA1 := Option.some.inj hl3
  have hl4 : ((build smallHash ⟨7, 100, 100⟩ 3 []
      ([⟨[1], List.replicate 41 7⟩, ⟨[2], List.replicate 41 8⟩, ⟨[3], List.replicate 41 5⟩, ⟨[4], List.replicate 41 6⟩] : List KVPair)).bind fun rc =>
      (build smallHash ⟨7, 100, 100⟩ 3 rc.2 ([⟨[1], List.replicate 41 7⟩, ⟨[2], List.replicate 31 9⟩, ⟨[3], List.replicate 41 5⟩, ⟨[4], List.replicate 41 6⟩] : List KVPair)).bind
        fun rc2 => some (loadNode rc2.2 ([244, 201, 226, 191, 236, 85, 51, 216, 7, 180, 88, 95, 165, 198, 66, 118, 65, 247, 215, 40, 21, 158, 220, 186, 178, 159, 44, 6, 170, 5, 13, 227] : Bytes))) =
      some (some (Node.leaf [(⟨[3], List.replicate 41 5⟩), (⟨[4], List.replicate 41 6⟩)])) := by decide
  rw [hA] at hl4
  simp only [Option.some_bind] at hl4
  rw [hB] at hl4
  simp only [Option.some_bind] at hl4
  have hlA2 := Option.some.inj hl4
  have hl5 : ((build smallHash ⟨7, 100, 100⟩ 3 []
      ([⟨[1], List.replicate 41 7⟩, ⟨[2], List.replicate 41 8⟩, ⟨[3], List.replicate 41 5⟩, ⟨[4], List.replicate 41 6⟩] : List KVPair)).bind fun rc =>
      (build smallHash ⟨7, 100, 100⟩ 3 rc.2 ([⟨[1], List.replicate 41 7⟩, ⟨[2], List.replicate 31 9⟩, ⟨[3], List.replicate 41 5⟩, ⟨[4], List.replicate 41 6⟩] : List KVPair)).bind
        fun rc2 => some (loadNode rc2.2 ([164, 254, 48, 174, 237, 107, 224, 95, 37, 212, 142, 159, 29, 129, 110, 91, 252, 70, 1, 243, 155, 221, 65, 168, 130, 48, 54, 90, 50, 154, 139, 51] : Bytes))) =
      some (some (Node.leaf [(⟨[1], List.replicate 41 7⟩), (⟨[2], List.replicate 31 9⟩), (⟨[3], List.replicate 41 5⟩)])) := by decide
  rw [hA] at hl5
  simp only [Option.some_bind] at hl5
  rw [hB] at hl5
  simp only [Option.some_bind] at hl5
  have hlB1 := Option.some.inj hl5
  have hl6 : ((build smallHash ⟨7, 100, 100⟩ 3 []
      ([⟨[1], List.replicate 41 7⟩, ⟨[2], List.replicate 41 8⟩, ⟨[3], List.replicate 41 5⟩, ⟨[4], List.replicate 41 6⟩] : List KVPair)).bind fun rc =>
      (build smallHash ⟨7, 100, 100⟩ 3 rc.2 ([⟨[1], List.replicate 41 7⟩, ⟨[2], List.replicate 31 9⟩, ⟨[3], List.replicate 41 5⟩, ⟨[4], List.replicate 41 6⟩] : List KVPair)).bind
        fun rc2 => some (loadNode rc2.2 ([149, 233, 142, 173, 136, 200, 120, 176, 112, 36, 230, 237, 89, 108, 155, 184, 157, 122, 78, 233, 244, 200, 59, 99, 239, 88, 44, 85, 146, 184, 4, 47] : Bytes))) =
      some (some (Node.leaf [(⟨[4], List.replicate 41 6⟩)])) := by decide
  rw [hA] at hl6
  simp only [Option.some_bind] at hl6
  rw [hB] at hl6
  simp only [Option.some_bind] at hl6
  have hlB2 := Option.some.inj hl6
  have hsAB1 : SortedKeys [(⟨[1], List.replicate 41 7⟩), (⟨[2], List.replicate 41 8⟩)] := by
    simp only [SortedKeys, List.chain'_cons, List.chain'_singleton, and_true]
    decide
  have hsBB1 : SortedKeys [(⟨[1], List.replicate 41 7⟩), (⟨[2], List.replicate 31 9⟩), (⟨[3], List.replicate 41 5⟩)] := by
    simp only [SortedKeys, List.chain'_cons, List.chain'_singleton, and_true]
    refine ⟨?_, ?_⟩ <;> decide
  have hsp4 : SortedKeys [(⟨[4], List.replicate 41 6⟩)] := by
    simp only [SortedKeys, List.chain'_singleton]
  have hs4A : SortedKeys [(⟨[1], List.replicate 41 7⟩), (⟨[2], List.replicate 41 8⟩), (⟨[3], List.replicate 41 5⟩), (⟨[4], List.replicate 41 6⟩)] := by
    simp only [SortedKeys, List.chain'_cons, List.chain'_singleton, and_true]
    refine ⟨?_, ?_, ?_⟩ <;> decide
  have hs4B : SortedKeys [(⟨[1], List.replicate 41 7⟩), (⟨[2], List.replicate 31 9⟩), (⟨[3], List.replicate 41 5⟩), (⟨[4], List.replicate 41 6⟩)] := by
    simp only [SortedKeys, List.chain'_cons, List.chain'_singleton, and_true]
    refine ⟨?_, ?_, ?_⟩ <;> decide
  have hd1 : diffPairLists [(⟨[1], List.replicate 41 7⟩), (⟨[2], List.replicate 41 8⟩)] [(⟨[1], List.replicate 41 7⟩), (⟨[2], List.replicate 31 9⟩), (⟨[3], List.replicate 41 5⟩)]
      emptyDiff = (⟨[(⟨[3], List.replicate 41 5⟩)], [(⟨[2], List.replicate 41 8, List.replicate 31 9⟩)], []⟩ : DiffResult) := by
    rw [diffPairLists_oracle 5 [(⟨[1], List.replicate 41 7⟩), (⟨[2], List.replicate 41 8⟩)] [(⟨[1], List.replicate 41 7⟩), (⟨[2], List.replicate 31 9⟩), (⟨[3], List.replicate 41 5⟩)]
      emptyDiff (by decide) hsAB1 hsBB1]
    decide
  have hdn1 : diffNodesA cas2 8 (Node.leaf [(⟨[1], List.replicate 41 7⟩), (⟨[2], List.replicate 41 8⟩)])
      (Node.leaf [(⟨[1], List.replicate 41 7⟩), (⟨[2], List.replicate 31 9⟩), (⟨[3], List.replicate 41 5⟩)]) emptyDiff =
      some (⟨[(⟨[3], List.replicate 41 5⟩)], [(⟨[2], List.replicate 41 8, List.replicate 31 9⟩)], []⟩ : DiffResult) := by
    rw [diffNodesA_leaf, hd1]
  have hcA2 : collectAllPairsFromHash cas2 8 ([244, 201, 226, 191, 236, 85, 51, 216, 7, 180, 88, 95, 165, 198, 66, 118, 65, 247, 215, 40, 21, 158, 220, 186, 178, 159, 44, 6, 170, 5, 13, 227] : Bytes) =
      some [(⟨[3], List.replicate 41 5⟩), (⟨[4], List.replicate 41 6⟩)] :=
    collectFromHash_eq cas2 8 ([244, 201, 226, 191, 236, 85, 51, 216, 7, 180, 88, 95, 165, 198, 66, 118, 65, 247, 215, 40, 21, 158, 220, 186, 178, 159, 44, 6, 170, 5, 13, 227] : Bytes) (Node.leaf [(⟨[3], List.replicate 41 5⟩), (⟨[4], List.replicate 41 6⟩)])
      [(⟨[3], List.replicate 41 5⟩), (⟨[4], List.replicate 41 6⟩)] hlA2 (collectAllPairs_leaf cas2 8 _)
  have hcB2 : collectAllPairsFromHash cas2 8 ([149, 233, 142, 173, 136, 200, 120, 176, 112, 36, 230, 237, 89, 108, 155, 184, 157, 122, 78, 233, 244, 200, 59, 99, 239, 88, 44, 85, 146, 184, 4, 47] : Bytes) =
      some [(⟨[4], List.replicate 41 6⟩)] :=
    collectFromHash_eq cas2 8 ([149, 233, 142, 173, 136, 200, 120, 176, 112, 36, 230, 237, 89, 108, 155, 184, 157, 122, 78, 233, 244, 200, 59, 99, 239, 88, 44, 85, 146, 184, 4, 47] : Bytes) (Node.leaf [(⟨[4], List.replicate 41 6⟩)])
      [(⟨[4], List.replicate 41 6⟩)] hlB2 (collectAllPairs_leaf cas2 8 _)
  have hDiffA : DiffA cas2 9 ([35, 55, 12, 16, 218, 86, 140, 93, 185, 159, 96, 106, 194, 155, 212, 76, 107, 176, 229, 133, 114, 206, 241, 158, 3, 203, 217, 131, 33, 27, 99, 120] : Bytes) ([78, 15, 100, 98, 21, 46, 20, 191, 80, 157, 173, 68, 176, 142, 206, 243, 219, 117, 150, 37, 13, 164, 206, 60, 91, 185, 149, 29, 145, 28, 252, 83] : Bytes) =
      some (⟨[(⟨[3], List.replicate 41 5⟩)], [(⟨[2], List.replicate 41 8, List.replicate 31 9⟩)], [[3]]⟩ : DiffResult) := by
    unfold DiffA
    rw [if_neg (by decide : ¬ ([35, 55, 12, 16, 218, 86, 140, 93, 185, 159, 96, 106, 194, 155, 212, 76, 107, 176, 229, 133, 114, 206, 241, 158, 3, 203, 217, 131, 33, 27, 99, 120] : Bytes) = ([78, 15, 100, 98, 21, 46, 20, 191, 80, 157, 173, 68, 176, 142, 206, 243, 219, 117, 150, 37, 13, 164, 206, 60, 91, 185, 149, 29, 145, 28, 252, 83] : Bytes))]
    simp only [Option.bind_eq_bind, hlRA, hlRB, Option.some_bind]
    have h9 : diffNodesA cas2 9
        (Node.internal [⟨[1], [148, 134, 162, 250, 95, 109, 172, 37, 66, 195, 223, 58, 45, 140, 152, 67, 98, 24, 175, 187, 117, 90, 205, 62, 254, 113, 182, 89, 63, 10, 62, 209]⟩, ⟨[3], [244, 201, 226, 191, 236, 85, 51, 216, 7, 180, 88, 95, 165, 198, 66, 118, 65, 247, 215, 40, 21, 158, 220, 186, 178, 159, 44, 6, 170, 5, 13, 227]⟩])
        (Node.internal [⟨[1], [164, 254, 48, 174, 237, 107, 224, 95, 37, 212, 142, 159, 29, 129, 110, 91, 252, 70, 1, 243, 155, 221, 65, 168, 130, 48, 54, 90, 50, 154, 139, 51]⟩, ⟨[4], [149, 233, 142, 173, 136, 200, 120, 176, 112, 36, 230, 237, 89, 108, 155, 184, 157, 122, 78, 233, 244, 200, 59, 99, 239, 88, 44, 85, 146, 184, 4, 47]⟩]) emptyDiff =
        diffMergeLoopA cas2 8 [⟨[1], [148, 134, 162, 250, 95, 109, 172, 37, 66, 195, 223, 58, 45, 140, 152, 67, 98, 24, 175, 187, 117, 90, 205, 62, 254, 113, 182, 89, 63, 10, 62, 209]⟩, ⟨[3], [244, 201, 226, 191, 236, 85, 51, 216, 7, 180, 88, 95, 165, 198, 66, 118, 65, 247, 215, 40, 21, 158, 220, 186, 178, 159, 44, 6, 170, 5, 13, 227]⟩]
          [⟨[1], [164, 254, 48, 174, 237, 107, 224, 95, 37, 212, 142, 159, 29, 129, 110, 91, 252, 70, 1, 243, 155, 221, 65, 168, 130, 48, 54, 90, 50, 154, 139, 51]⟩, ⟨[4], [149, 233, 142, 173, 136, 200, 120, 176, 112, 36, 230, 237, 89, 108, 155, 184, 157, 122, 78, 233, 244, 200, 59, 99, 239, 88, 44, 85, 146, 184, 4, 47]⟩] emptyDiff := by
      rw [diffNodesA_internal]
      exact diffInternalNodesA_succ cas2 8 _ _ _
    rw [h9]
    rw [mergeLoopA_eq_step cas2 8 ⟨[1], [148, 134, 162, 250, 95, 109, 172, 37, 66, 195, 223, 58, 45, 140, 152, 67, 98, 24, 175, 187, 117, 90, 205, 62, 254, 113, 182, 89, 63, 10, 62, 209]⟩ ⟨[1], [164, 254, 48, 174, 237, 107, 224, 95, 37, 212, 142, 159, 29, 129, 110, 91, 252, 70, 1, 243, 155, 221, 65, 168, 130, 48, 54, 90, 50, 154, 139, 51]⟩
      ⟨[3], [244, 201, 226, 191, 236, 85, 51, 216, 7, 180, 88, 95, 165, 198, 66, 118, 65, 247, 215, 40, 21, 158, 220, 186, 178, 159, 44, 6, 170, 5, 13, 227]⟩ ⟨[4], [149, 233, 142, 173, 136, 200, 120, 176, 112, 36, 230, 237, 89, 108, 155, 184, 157, 122, 78, 233, 244, 200, 59, 99, 239, 88, 44, 85, 146, 184, 4, 47]⟩ [] [] emptyDiff
      (⟨[(⟨[3], List.replicate 41 5⟩)], [(⟨[2], List.replicate 41 8, List.replicate 31 9⟩)], []⟩ : DiffResult)
      (Node.leaf [(⟨[1], List.replicate 41 7⟩), (⟨[2], List.replicate 41 8⟩)]) (Node.leaf [(⟨[1], List.replicate 41 7⟩), (⟨[2], List.replicate 31 9⟩), (⟨[3], List.replicate 41 5⟩)])
      (by decide) (by decide) hlA1 hlB1 hdn1]
    rw [mergeLoopA_lt_last cas2 8 ⟨[3], [244, 201, 226, 191, 236, 85, 51, 216, 7, 180, 88, 95, 165, 198, 66, 118, 65, 247, 215, 40, 21, 158, 220, 186, 178, 159, 44, 6, 170, 5, 13, 227]⟩ ⟨[4], [149, 233, 142, 173, 136, 200, 120, 176, 112, 36, 230, 237, 89, 108, 155, 184, 157, 122, 78, 233, 244, 200, 59, 99, 239, 88, 44, 85, 146, 184, 4, 47]⟩
      (⟨[(⟨[3], List.replicate 41 5⟩)], [(⟨[2], List.replicate 41 8, List.replicate 31 9⟩)], []⟩ : DiffResult)
      [(⟨[3], List.replicate 41 5⟩), (⟨[4], List.replicate 41 6⟩)] [(⟨[4], List.replicate 41 6⟩)] [(⟨[3], List.replicate 41 5⟩)] [(⟨[4], List.replicate 41 6⟩)]
      (by decide) hcA2 hcB2 (by decide) (by decide)]
    rw [mergeLoopA_nil_nil]
    rw [diffPairLists_oracle 2 [(⟨[4], List.replicate 41 6⟩)] [(⟨[4], List.replicate 41 6⟩)] _ (by decide) hsp4 hsp4]
    decide
  have hcc1rest : collectAllPairsFromChildren cas2 9 [⟨[3], [244, 201, 226, 191, 236, 85, 51, 216, 7, 180, 88, 95, 165, 198, 66, 118, 65, 247, 215, 40, 21, 158, 220, 186, 178, 159, 44, 6, 170, 5, 13, 227]⟩] =
      some [(⟨[3], List.replicate 41 5⟩), (⟨[4], List.replicate 41 6⟩)] :=
    collectChildrenA_cons cas2 9 ⟨[3], [244, 201, 226, 191, 236, 85, 51, 216, 7, 180, 88, 95, 165, 198, 66, 118, 65, 247, 215, 40, 21, 158, 220, 186, 178, 159, 44, 6, 170, 5, 13, 227]⟩ []
      (Node.leaf [(⟨[3], List.replicate 41 5⟩), (⟨[4], List.replicate 41 6⟩)]) [(⟨[3], List.replicate 41 5⟩), (⟨[4], List.replicate 41 6⟩)] [] [(⟨[3], List.replicate 41 5⟩), (⟨[4], List.replicate 41 6⟩)]
      hlA2 (collectAllPairs_leaf cas2 9 _) (collectChildrenA_nil cas2 9)
      (by decide)
  have hcc1 : collectAllPairsFromChildren cas2 9
      [⟨[1], [148, 134, 162, 250, 95, 109, 172, 37, 66, 195, 223, 58, 45, 140, 152, 67, 98, 24, 175, 187, 117, 90, 205, 62, 254, 113, 182, 89, 63, 10, 62, 209]⟩, ⟨[3], [244, 201, 226, 191, 236, 85, 51, 216, 7, 180, 88, 95, 165, 198, 66, 118, 65, 247, 215, 40, 21, 158, 220, 186, 178, 159, 44, 6, 170, 5, 13, 227]⟩] =
      some [(⟨[1], List.replicate 41 7⟩), (⟨[2], List.replicate 41 8⟩), (⟨[3], List.replicate 41 5⟩), (⟨[4], List.replicate 41 6⟩)] :=
    collectChildrenA_cons cas2 9 ⟨[1], [148, 134, 162, 250, 95, 109, 172, 37, 66, 195, 223, 58, 45, 140, 152, 67, 98, 24, 175, 187, 117, 90, 205, 62, 254, 113, 182, 89, 63, 10, 62, 209]⟩ [⟨[3], [244, 201, 226, 191, 236, 85, 51, 216, 7, 180, 88, 95, 165, 198, 66, 118, 65, 247, 215, 40, 21, 158, 220, 186, 178, 159, 44, 6, 170, 5, 13, 227]⟩]
      (Node.leaf [(⟨[1], List.replicate 41 7⟩), (⟨[2], List.replicate 41 8⟩)]) [(⟨[1], List.replicate 41 7⟩), (⟨[2], List.replicate 41 8⟩)] [(⟨[3], List.replicate 41 5⟩), (⟨[4], List.replicate 41 6⟩)]
      [(⟨[1], List.replicate 41 7⟩), (⟨[2], List.replicate 41 8⟩), (⟨[3], List.replicate 41 5⟩), (⟨[4], List.replicate 41 6⟩)]
      hlA1 (collectAllPairs_leaf cas2 9 _) hcc1rest (by decide)
  have hcc2rest : collectAllPairsFromChildren cas2 9 [⟨[4], [149, 233, 142, 173, 136, 200, 120, 176, 112, 36, 230, 237, 89, 108, 155, 184, 157, 122, 78, 233, 244, 200, 59, 99, 239, 88, 44, 85, 146, 184, 4, 47]⟩] =
      some [(⟨[4], List.replicate 41 6⟩)] :=
    collectChildrenA_cons cas2 9 ⟨[4], [149, 233, 142, 173, 136, 200, 120, 176, 112, 36, 230, 237, 89, 108, 155, 184, 157, 122, 78, 233, 244, 200, 59, 99, 239, 88, 44, 85, 146, 184, 4, 47]⟩ []
      (Node.leaf [(⟨[4], List.replicate 41 6⟩)]) [(⟨[4], List.replicate 41 6⟩)] [] [(⟨[4], List.replicate 41 6⟩)]
      hlB2 (collectAllPairs_leaf cas2 9 _) (collectChildrenA_nil cas2 9)
      (by decide)
  have hcc2 : collectAllPairsFromChildren cas2 9
      [⟨[1], [164, 254, 48, 174, 237, 107, 224, 95, 37, 212, 142, 159, 29, 129, 110, 91, 252, 70, 1, 243, 155, 221, 65, 168, 130, 48, 54, 90, 50, 154, 139, 51]⟩, ⟨[4], [149, 233, 142, 173, 136, 200, 120, 176, 112, 36, 230, 237, 89, 108, 155, 184, 157, 122, 78, 233, 244, 200, 59, 99, 239, 88, 44, 85, 146, 184, 4, 47]⟩] =
      some [(⟨[1], List.replicate 41 7⟩), (⟨[2], List.replicate 31 9⟩), (⟨[3], List.replicate 41 5⟩), (⟨[4], List.replicate 41 6⟩)] :=
    collectChildrenA_cons cas2 9 ⟨[1], [164, 254, 48, 174, 237, 107, 224, 95, 37, 212, 142, 159, 29, 129, 110, 91, 252, 70, 1, 243, 155, 221, 65, 168, 130, 48, 54, 90, 50, 154, 139, 51]⟩ [⟨[4], [149, 233, 142, 173, 136, 200, 120, 176, 112, 36, 230, 237, 89, 108, 155, 184, 157, 122, 78, 233, 244, 200, 59, 99, 239, 88, 44, 85, 146, 184, 4, 47]⟩]
      (Node.leaf [(⟨[1], List.replicate 41 7⟩), (⟨[2], List.replicate 31 9⟩), (⟨[3], List.replicate 41 5⟩)]) [(⟨[1], List.replicate 41 7⟩), (⟨[2], List.replicate 31 9⟩), (⟨[3], List.replicate 41 5⟩)]
      [(⟨[4], List.replicate 41 6⟩)] [(⟨[1], List.replicate 41 7⟩), (⟨[2], List.replicate 31 9⟩), (⟨[3], List.replicate 41 5⟩), (⟨[4], List.replicate 41 6⟩)]
      hlB1 (collectAllPairs_leaf cas2 9 _) hcc2rest (by decide)
  have hd3 : diffPairLists [(⟨[1], List.replicate 41 7⟩), (⟨[2], List.replicate 41 8⟩), (⟨[3], List.replicate 41 5⟩), (⟨[4], List.replicate 41 6⟩)]
      [(⟨[1], List.replicate 41 7⟩), (⟨[2], List.replicate 31 9⟩), (⟨[3], List.replicate 41 5⟩), (⟨[4], List.replicate 41 6⟩)] emptyDiff =
      (⟨[], [(⟨[2], List.replicate 41 8, List.replicate 31 9⟩)], []⟩ : DiffResult) := by
    rw [diffPairLists_oracle 8 [(⟨[1], List.replicate 41 7⟩), (⟨[2], List.replicate 41 8⟩), (⟨[3], List.replicate 41 5⟩), (⟨[4], List.replicate 41 6⟩)]
      [(⟨[1], List.replicate 41 7⟩), (⟨[2], List.replicate 31 9⟩), (⟨[3], List.replicate 41 5⟩), (⟨[4], List.replicate 41 6⟩)] emptyDiff (by decide) hs4A hs4B]
    decide
  have hDiffB : Diff cas2 9 ([35, 55, 12, 16, 218, 86, 140, 93, 185, 159, 96, 106, 194, 155, 212, 76, 107, 176, 229, 133, 114, 206, 241, 158, 3, 203, 217, 131, 33, 27, 99, 120] : Bytes) ([78, 15, 100, 98, 21, 46, 20, 191, 80, 157, 173, 68, 176, 142, 206, 243, 219, 117, 150, 37, 13, 164, 206, 60, 91, 185, 149, 29, 145, 28, 252, 83] : Bytes) =
      some (⟨[], [(⟨[2], List.replicate 41 8, List.replicate 31 9⟩)], []⟩ : DiffResult) := by
    unfold Diff
    rw [if_neg (by decide : ¬ ([35, 55, 12, 16, 218, 86, 140, 93, 185, 159, 96, 106, 194, 155, 212, 76, 107, 176, 229, 133, 114, 206, 241, 158, 3, 203, 217, 131, 33, 27, 99, 120] : Bytes) = ([78, 15, 100, 98, 21, 46, 20, 191, 80, 157, 173, 68, 176, 142, 206, 243, 219, 117, 150, 37, 13, 164, 206, 60, 91, 185, 149, 29, 145, 28, 252, 83] : Bytes))]
    simp only [Option.bind_eq_bind, hlRA, hlRB, Option.some_bind]
    rw [diffNodes_internal_step]
    rw [diffInternalNodes_misaligned cas2 9 [⟨[1], [148, 134, 162, 250, 95, 109, 172, 37, 66, 195, 223, 58, 45, 140, 152, 67, 98, 24, 175, 187, 117, 90, 205, 62, 254, 113, 182, 89, 63, 10, 62, 209]⟩, ⟨[3], [244, 201, 226, 191, 236, 85, 51, 216, 7, 180, 88, 95, 165, 198, 66, 118, 65, 247, 215, 40, 21, 158, 220, 186, 178, 159, 44, 6, 170, 5, 13, 227]⟩]
      [⟨[1], [164, 254, 48, 174, 237, 107, 224, 95, 37, 212, 142, 159, 29, 129, 110, 91, 252, 70, 1, 243, 155, 221, 65, 168, 130, 48, 54, 90, 50, 154, 139, 51]⟩, ⟨[4], [149, 233, 142, 173, 136, 200, 120, 176, 112, 36, 230, 237, 89, 108, 155, 184, 157, 122, 78, 233, 244, 200, 59, 99, 239, 88, 44, 85, 146, 184, 4, 47]⟩] emptyDiff
      [(⟨[1], List.replicate 41 7⟩), (⟨[2], List.replicate 41 8⟩), (⟨[3], List.replicate 41 5⟩), (⟨[4], List.replicate 41 6⟩)] [(⟨[1], List.replicate 41 7⟩), (⟨[2], List.replicate 31 9⟩), (⟨[3], List.replicate 41 5⟩), (⟨[4], List.replicate 41 6⟩)]
      (by decide) hcc1 hcc2]
    rw [hd3]
  refine ⟨([35, 55, 12, 16, 218, 86, 140, 93, 185, 159, 96, 106, 194, 155, 212, 76, 107, 176, 229, 133, 114, 206, 241, 158, 3, 203, 217, 131, 33, 27, 99, 120] : Bytes), cas1, ([78, 15, 100, 98, 21, 46, 20, 191, 80, 157, 173, 68, 176, 142, 206, 243, 219, 117, 150, 37, 13, 164, 206, 60, 91, 185, 149, 29, 145, 28, 252, 83] : Bytes), cas2, hA, hB,
    ?_, ?_,
    (⟨[(⟨[3], List.replicate 41 5⟩)], [(⟨[2], List.replicate 41 8, List.replicate 31 9⟩)], [[3]]⟩ : DiffResult),
    (⟨[], [(⟨[2], List.replicate 41 8, List.replicate 31 9⟩)], []⟩ : DiffResult),
    hDiffA, hDiffB, by decide, rfl, by decide, by decide, by decide,
    rfl, rfl⟩
  · simp only [SortedKeys, List.chain'_cons, List.chain'_singleton, and_true]
    refine ⟨?_, ?_, ?_⟩ <;> decide
  · simp only [SortedKeys, List.chain'_cons, List.chain'_singleton, and_true]
    refine ⟨?_, ?_, ?_⟩ <;> decide

/-! ## Claim C8: committing on a detached HEAD preserves every branch -/

/-- C8: a commit made through Store.Commit while HEAD is detached changes
no branch pointer: the branch reference files are untouched, so every
existing branch resolves to the same commit hash as before, while the HEAD
file and the cached head move to the new commit, making the new commit the
effective HEAD hash. -/
theorem commit_detached_preserves_branches (H : Bytes → Bytes)
    (c : BuzhashChunker) (fuel ts : Nat) (s : StoreState) (message : Bytes)
    (commitHash : Bytes) (s' : StoreState)
    (hdet : (getHead s.headFile s.branches).isDetached = true)
    (hc : storeCommit H c fuel ts s message = some (commitHash, s')) :
    s'.branches = s.branches ∧
    (∀ name, getBranch s'.branches name = getBranch s.branches name) ∧
    s'.headFile = HeadFile.detached commitHash ∧
    getHeadCommit s'.headFile s'.branches = commitHash ∧
    s'.head = commitHash := by
  unfold storeCommit at hc
  cases hb : build H c fuel s.cas (workingStateToSortedPairs s.workingState)
    with
  | none =>
      rw [hb] at hc
      exact Option.noConfusion hc
  | some rc =>
      rw [hb] at hc
      simp only [hdet, eq_self_iff_true, if_true] at hc
      injection hc with hpair
      injection hpair with hch hs'
      subst hch
      subst hs'
      exact ⟨rfl, fun _ => rfl, rfl, rfl, rfl⟩

/-- Witness for C8: a concrete detached-HEAD store with one branch main
commits a one-pair working state; the branch list is unchanged and the
effective HEAD is the new commit hash. -/
theorem commit_detached_preserves_branches_witness :
    ∃ ch s',
      storeCommit smallHash ⟨7, 100, 100⟩ 2 5
        ⟨[], [("main", zeroHash)], HeadFile.detached (List.replicate 32 1),
          List.replicate 32 1, [⟨[1], [2]⟩]⟩ [7] = some (ch, s') ∧
      (getHead (HeadFile.detached (List.replicate 32 1))
        [("main", zeroHash)]).isDetached = true ∧
      s'.branches = [("main", zeroHash)] ∧
      getHeadCommit s'.headFile s'.branches = ch ∧
      s'.head = ch := by
  have h1 : (storeCommit smallHash ⟨7, 100, 100⟩ 2 5
      ⟨[], [("main", zeroHash)], HeadFile.detached (List.replicate 32 1),
        List.replicate 32 1, [⟨[1], [2]⟩]⟩ [7]).isSome = true := by decide
  obtain ⟨rc, hc⟩ := Option.isSome_iff_exists.mp h1
  obtain ⟨ch, s'⟩ := rc
  obtain ⟨hb, _, _, hgc, hh⟩ :=
    commit_detached_preserves_branches smallHash ⟨7, 100, 100⟩ 2 5
      ⟨[], [("main", zeroHash)], HeadFile.detached (List.replicate 32 1),
        List.replicate 32 1, [⟨[1], [2]⟩]⟩ [7] ch s' (by decide) hc
  exact ⟨ch, s', hc, by decide, by rw [hb], hgc, hh⟩

end Microprolly
